import Mathlib

/-!
# Tile offset table of a tiled multi-resolution image file

A shallow embedding of `IlmImf/ImfTileOffsets.cpp` (class `TileOffsets`) and
theorems about it.

* `int` and `Int64` values are unbounded `Int`; the places where a value
  crosses a fixed-width field (the Xdr encoders and decoders, the 64-bit sum
  in the deep chunk header) reduce modulo the width explicitly.  The
  declaration of `Int64` is not among the sources; it is the signed 64-bit
  offset of the data model, for which `<= 0` marks an invalid offset.
* `std::vector<std::vector<std::vector<Int64>>>` is `List (List (List Int))`.
* A call that can throw returns an `Outcome`; the table and the stream are
  passed and returned explicitly, so the state at the moment of a throw is
  visible.  An access outside a vector (undefined behaviour in C++) is the
  separate outcome `Outcome.undefined`, which no handler catches.
-/

namespace Imf

/-! ## Data model -/

/-- Level modes; `NUM_LEVELMODES` is the enumeration's count value, which the
switch statements of the source treat as the unrecognised mode. -/
inductive LevelMode where
  | ONE_LEVEL
  | MIPMAP_LEVELS
  | RIPMAP_LEVELS
  | NUM_LEVELMODES
  deriving DecidableEq, Repr

/-- Exceptions of the Iex library raised in this file, and the stream fault
raised by a short read. -/
inductive Exc where
  | ArgExc
  | LogicExc
  | ErrnoExc
  | InputExc
  deriving DecidableEq, Repr

/-- How a call ends: it returns, it throws, or it leaves defined behaviour. -/
inductive Outcome where
  | returned
  | threw (e : Exc)
  | undefined
  deriving DecidableEq, Repr

/-- The members of `class TileOffsets`. -/
structure TileOffsets where
  _mode : LevelMode
  _numXLevels : Int
  _numYLevels : Int
  _offsets : List (List (List Int))
  deriving DecidableEq, Repr

/-- A slot of the table: level index, row index, column index. -/
abbrev Slot := Nat × Nat × Nat

/-! ## Fixed-width integers on the wire -/

/-- Little-endian bytes of `n`, `w` of them. -/
def encodeLE : Nat → Nat → List Nat
  | 0, _ => []
  | w + 1, n => n % 256 :: encodeLE w (n / 256)

/-- Value of a little-endian byte string (each element taken modulo 256). -/
def decodeLE : List Nat → Nat
  | [] => 0
  | b :: bs => b % 256 + 256 * decodeLE bs

/-- Two's complement reading of an unsigned `bits`-wide value. -/
def toSigned (bits : Nat) (n : Nat) : Int :=
  if n % 2 ^ bits < 2 ^ (bits - 1) then ((n % 2 ^ bits : Nat) : Int)
  else ((n % 2 ^ bits : Nat) : Int) - ((2 ^ bits : Nat) : Int)

/-- Two's complement representative of an integer in `bits` bits. -/
def toUnsigned (bits : Nat) (v : Int) : Nat :=
  (v % ((2 ^ bits : Nat) : Int)).toNat

/-- Conversion of an integer expression to `Int64`. -/
def wrap64 (v : Int) : Int := toSigned 64 (toUnsigned 64 v)

/-! ## Streams -/

/-- Modelled from the spec: the sequential input stream (`IStream` of
`ImfIO.h`, not part of the sources at hand).  It holds the bytes of the file,
an absolute read position and an error/end-of-file condition. -/
structure IStream where
  data : List Nat
  pos : Nat
  failed : Bool
  deriving DecidableEq, Repr

/-- Modelled from the spec: report the absolute byte position. -/
def IStream.tellg (is : IStream) : Int := (is.pos : Int)

/-- Modelled from the spec: seek to an absolute byte position. -/
def IStream.seekg (is : IStream) (p : Int) : IStream := { is with pos := p.toNat }

/-- Modelled from the spec: reset the error/end-of-file condition. -/
def IStream.clear (is : IStream) : IStream := { is with failed := false }

/-- Modelled from the spec: read `n` bytes.  When fewer than `n` bytes are
left the read fails (`none`), the stream is at its end and in the error
condition. -/
def IStream.read (is : IStream) (n : Nat) : Option (List Nat) × IStream :=
  if is.pos + n ≤ is.data.length then
    (some ((is.data.drop is.pos).take n), { is with pos := is.pos + n })
  else
    (none, { is with pos := max is.pos is.data.length, failed := true })

/-- Modelled from the spec: `Xdr::read` of a signed 32-bit integer
(`ImfXdr.h`, not part of the sources at hand), little-endian. -/
def Xdr.readInt (is : IStream) : Option Int × IStream :=
  match is.read 4 with
  | (some bs, is') => (some (toSigned 32 (decodeLE bs)), is')
  | (none, is') => (none, is')

/-- Modelled from the spec: `Xdr::read` of a signed 64-bit integer,
little-endian. -/
def Xdr.readInt64 (is : IStream) : Option Int × IStream :=
  match is.read 8 with
  | (some bs, is') => (some (toSigned 64 (decodeLE bs)), is')
  | (none, is') => (none, is')

/-- Modelled from the spec: `Xdr::skip`, skip forward by `n` bytes; a count
that is not positive skips nothing.  `false` when the stream ends first. -/
def Xdr.skip (is : IStream) (n : Int) : Bool × IStream :=
  if n ≤ 0 then (true, is)
  else
    match is.read n.toNat with
    | (some _, is') => (true, is')
    | (none, is') => (false, is')

/-- Modelled from the spec: the sequential output stream (`OStream` of
`ImfIO.h`): the bytes written so far, and whether the stream can report its
write position. -/
structure OStream where
  data : List Nat
  canTell : Bool
  deriving DecidableEq, Repr

/-- Modelled from the spec: report the current absolute write position, `-1`
when the stream cannot. -/
def OStream.tellp (os : OStream) : Int :=
  if os.canTell then (os.data.length : Int) else -1

/-- Modelled from the spec: `Xdr::write` of a signed 64-bit integer,
little-endian, appended to the stream. -/
def Xdr.writeInt64 (os : OStream) (v : Int) : OStream :=
  { os with data := os.data ++ encodeLE 8 (toUnsigned 64 v) }

/-! ## Construction -/

/-- A level grid after `resize (rows)` and `resize (cols)` of every row:
value-initialised, so every offset is `0`.  A negative count has no vector
size; it is read as `0` here and excluded by hypothesis where it matters. -/
def newGrid (rows cols : Int) : List (List Int) :=
  List.replicate rows.toNat (List.replicate cols.toNat 0)

/-- The loop of the `ONE_LEVEL` / `MIPMAP_LEVELS` case of the constructor. -/
def ctorLevels (numXTiles numYTiles : Nat → Int) (offs : List (List (List Int))) :
    List (List (List Int)) :=
  (List.range offs.length).foldl
    (fun acc l => acc.set l (newGrid (numYTiles l) (numXTiles l))) offs

/-- The inner loop (over `lx`) of the `RIPMAP_LEVELS` case of the constructor. -/
def ctorRipRow (numXLevels : Int) (numXTiles numYTiles : Nat → Int) (ly : Nat)
    (offs : List (List (List Int))) : List (List (List Int)) :=
  (List.range numXLevels.toNat).foldl
    (fun acc (lx : Nat) =>
      acc.set (((ly : Int) * numXLevels + (lx : Int)).toNat)
        (newGrid (numYTiles ly) (numXTiles lx))) offs

/-- The outer loop (over `ly`) of the `RIPMAP_LEVELS` case of the constructor. -/
def ctorRip (numXLevels numYLevels : Int) (numXTiles numYTiles : Nat → Int)
    (offs : List (List (List Int))) : List (List (List Int)) :=
  (List.range numYLevels.toNat).foldl
    (fun acc ly => ctorRipRow numXLevels numXTiles numYTiles ly acc) offs

/-- The constructor `TileOffsets::TileOffsets`. -/
def TileOffsets.new (mode : LevelMode) (numXLevels numYLevels : Int)
    (numXTiles numYTiles : Nat → Int) : Except Exc TileOffsets :=
  match mode with
  | .ONE_LEVEL | .MIPMAP_LEVELS =>
    .ok { _mode := mode, _numXLevels := numXLevels, _numYLevels := numYLevels,
          _offsets := ctorLevels numXTiles numYTiles (List.replicate numXLevels.toNat []) }
  | .RIPMAP_LEVELS =>
    .ok { _mode := mode, _numXLevels := numXLevels, _numYLevels := numYLevels,
          _offsets := ctorRip numXLevels numYLevels numXTiles numYTiles
            (List.replicate (numXLevels * numYLevels).toNat []) }
  | .NUM_LEVELMODES => .error .ArgExc

/-! ## Queries -/

/-- The query `TileOffsets::anyOffsetsAreInvalid`. -/
def TileOffsets.anyOffsetsAreInvalid (t : TileOffsets) : Bool :=
  t._offsets.any (fun g => g.any (fun r => r.any (fun o => decide (o ≤ 0))))

/-- The query `TileOffsets::isEmpty`. -/
def TileOffsets.isEmpty (t : TileOffsets) : Bool :=
  !(t._offsets.any (fun g => g.any (fun r => r.any (fun o => decide (o ≠ 0)))))

/-- The vector `_offsets[l]`. -/
def TileOffsets.level (t : TileOffsets) (l : Int) : List (List Int) :=
  t._offsets.getD l.toNat []

/-- The vector `_offsets[l][dy]`. -/
def TileOffsets.row (t : TileOffsets) (l dy : Int) : List Int :=
  (t.level l).getD dy.toNat []

/-- The predicate `TileOffsets::isValidTile`. -/
def TileOffsets.isValidTile (t : TileOffsets) (dx dy lx ly : Int) : Bool :=
  if lx < 0 || ly < 0 || dx < 0 || dy < 0 then false
  else
    match t._mode with
    | .ONE_LEVEL =>
      lx == 0 && ly == 0 && decide (t._offsets.length > 0) &&
        decide (((t.level 0).length : Int) > dy) &&
        decide (((t.row 0 dy).length : Int) > dx)
    | .MIPMAP_LEVELS =>
      decide (lx < t._numXLevels) && decide (ly < t._numYLevels) &&
        decide ((t._offsets.length : Int) > lx) &&
        decide (((t.level lx).length : Int) > dy) &&
        decide (((t.row lx dy).length : Int) > dx)
    | .RIPMAP_LEVELS =>
      decide (lx < t._numXLevels) && decide (ly < t._numYLevels) &&
        decide ((t._offsets.length : Int) > lx + ly * t._numXLevels) &&
        decide (((t.level (lx + ly * t._numXLevels)).length : Int) > dy) &&
        decide (((t.row (lx + ly * t._numXLevels) dy).length : Int) > dx)
    | .NUM_LEVELMODES => false

/-- The indices `[l][dy][dx]` that `operator () (dx, dy, lx, ly)` applies to
`_offsets`; an unknown mode throws. -/
def TileOffsets.address (t : TileOffsets) (dx dy lx ly : Int) : Except Exc (Int × Int × Int) :=
  match t._mode with
  | .ONE_LEVEL => .ok (0, dy, dx)
  | .MIPMAP_LEVELS => .ok (lx, dy, dx)
  | .RIPMAP_LEVELS => .ok (lx + ly * t._numXLevels, dy, dx)
  | .NUM_LEVELMODES => .error .ArgExc

/-- Whether `[l][dy][dx]` lies inside the nested vectors, as a slot. -/
def TileOffsets.slotOf (t : TileOffsets) (i : Int × Int × Int) : Option Slot :=
  if 0 ≤ i.1 ∧ 0 ≤ i.2.1 ∧ 0 ≤ i.2.2 ∧ i.1 < t._offsets.length ∧
      i.2.1 < (t.level i.1).length ∧ i.2.2 < (t.row i.1 i.2.1).length then
    some (i.1.toNat, i.2.1.toNat, i.2.2.toNat)
  else none

/-- The slot that `operator () (dx, dy, lx, ly)` returns a reference to;
`none` when it throws or indexes outside the vectors. -/
def TileOffsets.slotAt (t : TileOffsets) (dx dy lx ly : Int) : Option Slot :=
  match t.address dx dy lx ly with
  | .ok i => t.slotOf i
  | .error _ => none

/-- Read of the slot `s`. -/
def TileOffsets.get (t : TileOffsets) (s : Slot) : Int :=
  ((t._offsets.getD s.1 []).getD s.2.1 []).getD s.2.2 0

/-- Write of `v` to the slot `s`. -/
def TileOffsets.set (t : TileOffsets) (s : Slot) (v : Int) : TileOffsets :=
  let g := t._offsets.getD s.1 []
  let r := g.getD s.2.1 []
  { t with _offsets := t._offsets.set s.1 (g.set s.2.1 (r.set s.2.2 v)) }

/-- The slots of the table in canonical order: level, then row, then column. -/
def TileOffsets.slots (t : TileOffsets) : List Slot :=
  (List.range t._offsets.length).flatMap fun l =>
    (List.range (t._offsets.getD l []).length).flatMap fun dy =>
      (List.range ((t._offsets.getD l []).getD dy []).length).map fun dx => (l, dy, dx)

/-- The offsets of the table in canonical order. -/
def TileOffsets.flat (t : TileOffsets) : List Int := t._offsets.flatten.flatten

/-- Number of slots, as counted by the loops
`for l, for dy: total += _offsets[l][dy].size()`. -/
def TileOffsets.totalSize (t : TileOffsets) : Nat :=
  (t._offsets.map fun g => (g.map List.length).sum).sum

/-- The shape of the nested vectors: the length of every row of every level. -/
def TileOffsets.shape (t : TileOffsets) : List (List Nat) :=
  t._offsets.map fun g => g.map List.length

/-! ## Reading and writing the table -/

/-- What the stream `readFrom` leaves behind: the table, the stream, the
output parameter `complete`, and how the call ended. -/
structure ReadResult where
  table : TileOffsets
  stream : IStream
  complete : Bool
  outcome : Outcome
  deriving DecidableEq, Repr

/-- The innermost loop of the stream `readFrom`: one `Xdr::read` per column.
The flag is `false` when a read threw; the slots not yet read keep their
values. -/
def readRow : List Int → IStream → List Int × IStream × Bool
  | [], is => ([], is, true)
  | o :: os, is =>
    match Xdr.readInt64 is with
    | (none, is') => (o :: os, is', false)
    | (some v, is') =>
      let r := readRow os is'
      (v :: r.1, r.2.1, r.2.2)

/-- The middle loop of the stream `readFrom`, over the rows of a level. -/
def readGrid : List (List Int) → IStream → List (List Int) × IStream × Bool
  | [], is => ([], is, true)
  | r :: rs, is =>
    match readRow r is with
    | (r', is', false) => (r' :: rs, is', false)
    | (r', is', true) =>
      let g := readGrid rs is'
      (r' :: g.1, g.2.1, g.2.2)

/-- The outer loop of the stream `readFrom`, over the levels. -/
def readLevels : List (List (List Int)) → IStream → List (List (List Int)) × IStream × Bool
  | [], is => ([], is, true)
  | g :: gs, is =>
    match readGrid g is with
    | (g', is', false) => (g' :: gs, is', false)
    | (g', is', true) =>
      let r := readLevels gs is'
      (g' :: r.1, r.2.1, r.2.2)

/-- How an iteration of the scanning loop of `findTiles` ends. -/
inductive Step where
  | next
  | ret
  | threw (e : Exc)
  | undefined
  deriving DecidableEq, Repr

/-- The size fields and the skip over the payload (lines 145 to 162): the
deep layout reads two 64-bit sizes and skips their sum plus 8, the flat
layout reads `dataSize` and skips it. -/
def skipPayload (is : IStream) (isDeep : Bool) : Bool × IStream :=
  if isDeep then
    match Xdr.readInt64 is with
    | (none, is1) => (false, is1)
    | (some packed_offset_table_size, is1) =>
      match Xdr.readInt64 is1 with
      | (none, is2) => (false, is2)
      | (some packed_sample_size, is2) =>
        Xdr.skip is2 (wrap64 (packed_offset_table_size + packed_sample_size + 8))
  else
    match Xdr.readInt is with
    | (none, is1) => (false, is1)
    | (some dataSize, is1) => Xdr.skip is1 dataSize

/-- The reads of one iteration of `findTiles` (lines 127 to 162): the
optional part number, the four coordinates `(tileX, tileY, levelX, levelY)`,
the sizes and the payload.  `none` when a read threw. -/
def readChunk (is : IStream) (isMultiPartFile isDeep : Bool) :
    Option (Int × Int × Int × Int) × IStream :=
  match (if isMultiPartFile then Xdr.readInt is else (some 0, is)) with
  | (none, is0) => (none, is0)
  | (some _, is0) =>
    match Xdr.readInt is0 with
    | (none, is1) => (none, is1)
    | (some tileX, is1) =>
      match Xdr.readInt is1 with
      | (none, is2) => (none, is2)
      | (some tileY, is2) =>
        match Xdr.readInt is2 with
        | (none, is3) => (none, is3)
        | (some levelX, is3) =>
          match Xdr.readInt is3 with
          | (none, is4) => (none, is4)
          | (some levelY, is4) =>
            match skipPayload is4 isDeep with
            | (false, is5) => (none, is5)
            | (true, is5) => (some (tileX, tileY, levelX, levelY), is5)

/-- One iteration of the loop body of `findTiles` (lines 125 to 168). -/
def findTilesBody (t : TileOffsets) (is : IStream) (isMultiPartFile isDeep skipOnly : Bool) :
    TileOffsets × IStream × Step :=
  let tileOffset := is.tellg
  match readChunk is isMultiPartFile isDeep with
  | (none, is') => (t, is', .threw .InputExc)
  | (some (tileX, tileY, levelX, levelY), is') =>
    if skipOnly then (t, is', .next)
    else if !t.isValidTile tileX tileY levelX levelY then (t, is', .ret)
    else
      match t.address tileX tileY levelX levelY with
      | .error e => (t, is', .threw e)
      | .ok i =>
        match t.slotOf i with
        | none => (t, is', .undefined)
        | some s => (t.set s tileOffset, is', .next)

/-- The three nested loops of `findTiles`, as `n` iterations of the body: the
body uses none of the loop variables, and the vector sizes that bound the
loops are not changed by the store (`shape_set`), so the loops run once per
slot of the table unless an iteration returns or throws. -/
def findTilesLoop (isMultiPartFile isDeep skipOnly : Bool) :
    Nat → TileOffsets → IStream → TileOffsets × IStream × Outcome
  | 0, t, is => (t, is, .returned)
  | n + 1, t, is =>
    match findTilesBody t is isMultiPartFile isDeep skipOnly with
    | (t', is', .next) => findTilesLoop isMultiPartFile isDeep skipOnly n t' is'
    | (t', is', .ret) => (t', is', .returned)
    | (t', is', .threw e) => (t', is', .threw e)
    | (t', is', .undefined) => (t', is', .undefined)

/-- The scanner `TileOffsets::findTiles`. -/
def TileOffsets.findTiles (t : TileOffsets) (is : IStream)
    (isMultiPartFile isDeep skipOnly : Bool) : TileOffsets × IStream × Outcome :=
  findTilesLoop isMultiPartFile isDeep skipOnly t.totalSize t is

/-- The recovery `TileOffsets::reconstructFromFile`: every exception of the
scan is caught; then the stream is cleared and sought back. -/
def TileOffsets.reconstructFromFile (t : TileOffsets) (is : IStream)
    (isMultiPart isDeep : Bool) : TileOffsets × IStream × Outcome :=
  let position := is.tellg
  match t.findTiles is isMultiPart isDeep false with
  | (t', is', .undefined) => (t', is', .undefined)
  | (t', is', _) => (t', (is'.clear).seekg position, .returned)

/-- The stream form `TileOffsets::readFrom (IStream&, bool&, bool, bool)`;
`complete` is the value of the output parameter before the call. -/
def TileOffsets.readFrom (t : TileOffsets) (is : IStream) (complete : Bool)
    (isMultiPartFile isDeep : Bool) : ReadResult :=
  match readLevels t._offsets is with
  | (offs, is', false) =>
    { table := { t with _offsets := offs }, stream := is', complete := complete,
      outcome := .threw .InputExc }
  | (offs, is', true) =>
    let t' : TileOffsets := { t with _offsets := offs }
    if t'.anyOffsetsAreInvalid then
      match t'.reconstructFromFile is' isMultiPartFile isDeep with
      | (t'', is'', o) => { table := t'', stream := is'', complete := false, outcome := o }
    else
      { table := t', stream := is', complete := true, outcome := .returned }

/-- The innermost loop of the list `readFrom` (lines 260 to 264): every
column takes `chunkOffsets[pos]` and `pos` advances. -/
def fillRow (chunkOffsets : List Int) : List Int → Nat → List Int × Nat
  | [], pos => ([], pos)
  | _ :: os, pos =>
    let r := fillRow chunkOffsets os (pos + 1)
    (chunkOffsets.getD pos 0 :: r.1, r.2)

/-- The middle loop of the list `readFrom`, over the rows of a level. -/
def fillGrid (chunkOffsets : List Int) : List (List Int) → Nat → List (List Int) × Nat
  | [], pos => ([], pos)
  | r :: rs, pos =>
    let a := fillRow chunkOffsets r pos
    let b := fillGrid chunkOffsets rs a.2
    (a.1 :: b.1, b.2)

/-- The outer loop of the list `readFrom`, over the levels. -/
def fillLevels (chunkOffsets : List Int) :
    List (List (List Int)) → Nat → List (List (List Int)) × Nat
  | [], pos => ([], pos)
  | g :: gs, pos =>
    let a := fillGrid chunkOffsets g pos
    let b := fillLevels chunkOffsets gs a.2
    (a.1 :: b.1, b.2)

/-- The list form `TileOffsets::readFrom (std::vector<Int64>, bool&)`;
`complete` is the value of the output parameter before the call. -/
def TileOffsets.readFromList (t : TileOffsets) (chunkOffsets : List Int) (complete : Bool) :
    TileOffsets × Bool × Outcome :=
  let totalSize := t.totalSize
  if chunkOffsets.length ≠ totalSize then (t, complete, .threw .ArgExc)
  else
    let t' : TileOffsets := { t with _offsets := (fillLevels chunkOffsets t._offsets 0).1 }
    (t', !t'.anyOffsetsAreInvalid, .returned)

/-- The writer `TileOffsets::writeTo`: the stream afterwards, and the
returned position or the exception. -/
def TileOffsets.writeTo (t : TileOffsets) (os : OStream) : OStream × Except Exc Int :=
  let pos := os.tellp
  if pos = -1 then (os, .error .ErrnoExc)
  else
    (t._offsets.foldl (fun os1 g => g.foldl (fun os2 r => r.foldl Xdr.writeInt64 os2) os1) os,
      .ok pos)

/-! ## Physical ordering -/

/-- The helper `struct tilepos`. -/
structure tilepos where
  filePos : Int
  dx : Int
  dy : Int
  l : Int
  deriving DecidableEq, Repr

/-- The vector `table` of `getTileOrder` when the fill loop has run (lines
327 to 341): one entry per slot, in canonical order. -/
def TileOffsets.tileTable (t : TileOffsets) : List tilepos :=
  t.slots.map fun s =>
    { filePos := t.get s, dx := (s.2.2 : Int), dy := (s.2.1 : Int), l := (s.1 : Int) }

/-- The call `std::sort (table.begin(), table.end())` with `operator <` of
`tilepos`, which compares `filePos` only.  The order of entries with equal
`filePos` is unspecified in C++; here they keep their relative order. -/
def sortTable (table : List tilepos) : List tilepos :=
  table.insertionSort (fun a b => a.filePos ≤ b.filePos)

/-- An output loop of `getTileOrder`: `out[i] = f (table[i])` for `i` from
`i` on; `none` when `out` is too short for the store. -/
def writeTable (f : tilepos → Int) : List tilepos → Nat → List Int → Option (List Int)
  | [], _, out => some out
  | p :: ps, i, out =>
    if i < out.length then writeTable f ps (i + 1) (out.set i (f p)) else none

/-- The four output arrays of `getTileOrder`. -/
structure TileOrder where
  dx_table : List Int
  dy_table : List Int
  lx_table : List Int
  ly_table : List Int
  deriving DecidableEq, Repr

/-- The first `n` tuples `(dx, dy, lx, ly)` held by the four arrays. -/
def TileOrder.tuples (o : TileOrder) (n : Nat) : List (Int × Int × Int × Int) :=
  (List.range n).map fun i =>
    (o.dx_table.getD i 0, o.dy_table.getD i 0, o.lx_table.getD i 0, o.ly_table.getD i 0)

/-- The function `TileOffsets::getTileOrder`; `out` holds the four caller
arrays before the call. -/
def TileOffsets.getTileOrder (t : TileOffsets) (out : TileOrder) : TileOrder × Outcome :=
  let table := sortTable t.tileTable
  match writeTable (fun p => p.dx) table 0 out.dx_table,
        writeTable (fun p => p.dy) table 0 out.dy_table with
  | some dxs, some dys =>
    let out1 : TileOrder := { out with dx_table := dxs, dy_table := dys }
    match t._mode with
    | .ONE_LEVEL =>
      match writeTable (fun _ => 0) table 0 out.lx_table,
            writeTable (fun _ => 0) table 0 out.ly_table with
      | some lxs, some lys => ({ out1 with lx_table := lxs, ly_table := lys }, .returned)
      | _, _ => (out1, .undefined)
    | .MIPMAP_LEVELS =>
      match writeTable (fun p => p.l) table 0 out.lx_table,
            writeTable (fun p => p.l) table 0 out.ly_table with
      | some lxs, some lys => ({ out1 with lx_table := lxs, ly_table := lys }, .returned)
      | _, _ => (out1, .undefined)
    | .RIPMAP_LEVELS =>
      if t._numXLevels = 0 ∧ table ≠ [] then (out1, .undefined)
      else
        match writeTable (fun p => p.l.tmod t._numXLevels) table 0 out.lx_table,
              writeTable (fun p => p.l.tdiv t._numXLevels) table 0 out.ly_table with
        | some lxs, some lys => ({ out1 with lx_table := lxs, ly_table := lys }, .returned)
        | _, _ => (out1, .undefined)
    | .NUM_LEVELMODES => (out1, .threw .LogicExc)
  | _, _ => (out, .undefined)

/-- The value that the level switch of `getTileOrder` stores in `lx_table[i]`
for the table entry `p` (lines 359 to 393). -/
def TileOffsets.emitLX (t : TileOffsets) (p : tilepos) : Int :=
  match t._mode with
  | .ONE_LEVEL => 0
  | .MIPMAP_LEVELS => p.l
  | .RIPMAP_LEVELS => p.l.tmod t._numXLevels
  | .NUM_LEVELMODES => 0

/-- The value that the level switch of `getTileOrder` stores in `ly_table[i]`
for the table entry `p`. -/
def TileOffsets.emitLY (t : TileOffsets) (p : tilepos) : Int :=
  match t._mode with
  | .ONE_LEVEL => 0
  | .MIPMAP_LEVELS => p.l
  | .RIPMAP_LEVELS => p.l.tdiv t._numXLevels
  | .NUM_LEVELMODES => 0

/-- The table entry that the fill loop of `getTileOrder` makes for slot `s`. -/
def TileOffsets.entry (t : TileOffsets) (s : Slot) : tilepos :=
  { filePos := t.get s, dx := (s.2.2 : Int), dy := (s.2.1 : Int), l := (s.1 : Int) }

/-- The slot a table entry was made for. -/
def tilepos.slot (p : tilepos) : Slot := (p.l.toNat, p.dy.toNat, p.dx.toNat)

/-! ## Chunks -/

/-- Modelled from the spec: a tile chunk as laid out in the file (the chunk
header layout of the external interfaces, which is the order in which
`findTiles` reads): the optional part number, the four coordinates, the size
fields and the bytes that the scanner skips.  In the deep layout the skipped
bytes are the 8-byte unpacked size followed by the two packed blocks. -/
structure Chunk where
  partNumber : Int
  tileX : Int
  tileY : Int
  levelX : Int
  levelY : Int
  packedOffsetTableSize : Int
  packedSampleSize : Int
  payload : List Nat
  deriving DecidableEq, Repr

/-- Bytes of a signed 32-bit field. -/
def bytes32 (v : Int) : List Nat := encodeLE 4 (toUnsigned 32 v)

/-- Bytes of a signed 64-bit field. -/
def bytes64 (v : Int) : List Nat := encodeLE 8 (toUnsigned 64 v)

/-- The part number, when present, and the four coordinates of a chunk header. -/
def encodeCoords (isMultiPartFile : Bool) (partNumber tileX tileY levelX levelY : Int) :
    List Nat :=
  (if isMultiPartFile then bytes32 partNumber else []) ++ bytes32 tileX ++ bytes32 tileY ++
    bytes32 levelX ++ bytes32 levelY

/-- The bytes of a chunk. -/
def Chunk.encode (c : Chunk) (isMultiPartFile isDeep : Bool) : List Nat :=
  encodeCoords isMultiPartFile c.partNumber c.tileX c.tileY c.levelX c.levelY ++
    (if isDeep then bytes64 c.packedOffsetTableSize ++ bytes64 c.packedSampleSize
      else bytes32 (c.payload.length : Int)) ++ c.payload

/-- Whether a value fits a signed 32-bit field. -/
def fits32 (v : Int) : Prop := -(2 : Int) ^ 31 ≤ v ∧ v < (2 : Int) ^ 31

/-- A well-formed chunk: every field fits its width, and the payload is
fully present with the length that the size fields announce (below 2^31
bytes). -/
def Chunk.wellFormed (c : Chunk) (isDeep : Bool) : Prop :=
  fits32 c.partNumber ∧ fits32 c.tileX ∧ fits32 c.tileY ∧ fits32 c.levelX ∧ fits32 c.levelY ∧
    (c.payload.length : Int) < (2 : Int) ^ 31 ∧
    (isDeep = true →
      0 ≤ c.packedOffsetTableSize ∧ 0 ≤ c.packedSampleSize ∧
        c.packedOffsetTableSize + c.packedSampleSize + 8 = (c.payload.length : Int))

/-- Number of bytes of a chunk header up to and including its size fields. -/
def headerLength (isMultiPartFile isDeep : Bool) : Nat :=
  (if isMultiPartFile then 4 else 0) + 16 + (if isDeep then 16 else 4)

/-- The slot that the header of a chunk addresses. -/
def Chunk.slot (c : Chunk) (t : TileOffsets) : Option Slot :=
  t.slotAt c.tileX c.tileY c.levelX c.levelY

/-- The stores that a scan starting at byte `pos` makes for a list of chunks
whose headers all address a slot: each chunk's start position goes to the slot
its header addresses. -/
def storeChunks (isMultiPartFile isDeep : Bool) : TileOffsets → Nat → List Chunk → TileOffsets
  | t, _, [] => t
  | t, pos, c :: cs =>
    match c.slot t with
    | some s =>
      storeChunks isMultiPartFile isDeep (t.set s (pos : Int))
        (pos + (c.encode isMultiPartFile isDeep).length) cs
    | none => t

/-- The first `n` signed 64-bit values held by a byte string, little-endian. -/
def decode64s : Nat → List Nat → List Int
  | 0, _ => []
  | n + 1, bs => toSigned 64 (decodeLE (bs.take 8)) :: decode64s n (bs.drop 8)

/-- The byte positions at which the chunks of a run begin, when the run
begins at byte `pos`. -/
def chunkStarts (isMultiPartFile isDeep : Bool) : Nat → List Chunk → List Nat
  | _, [] => []
  | pos, c :: cs =>
    pos :: chunkStarts isMultiPartFile isDeep (pos + (c.encode isMultiPartFile isDeep).length) cs

/-- The coordinates that the header of a chunk carries. -/
def Chunk.coords (c : Chunk) : Int × Int × Int × Int :=
  (c.tileX, c.tileY, c.levelX, c.levelY)


/-! ## Sample inputs -/

/-- Tile counts of a two-level pyramid: 2 tiles at level 0, 1 tile above. -/
def sampleCounts : Nat → Int := fun l => if l = 0 then 2 else 1

/-- The mipmap table constructed from two levels of `sampleCounts`. -/
def sampleMip : TileOffsets :=
  { _mode := .MIPMAP_LEVELS, _numXLevels := 2, _numYLevels := 2,
    _offsets := [[[0, 0], [0, 0]], [[0]]] }

/-- The ripmap table constructed from two by two levels of `sampleCounts`. -/
def sampleRip : TileOffsets :=
  { _mode := .RIPMAP_LEVELS, _numXLevels := 2, _numYLevels := 2,
    _offsets := [[[0, 0], [0, 0]], [[0], [0]], [[0, 0]], [[0]]] }

/-- A one-level table of three tiles whose offsets are 100, 50 and 200. -/
def sampleOne : TileOffsets :=
  { _mode := .ONE_LEVEL, _numXLevels := 1, _numYLevels := 1, _offsets := [[[100, 50, 200]]] }

/-- A ripmap table of three by three levels of one tile each, offsets in
canonical order. -/
def sampleRip9 : TileOffsets :=
  { _mode := .RIPMAP_LEVELS, _numXLevels := 3, _numYLevels := 3,
    _offsets := [[[10]], [[20]], [[30]], [[40]], [[50]], [[60]], [[70]], [[80]], [[90]]] }

/-- Output arrays of `n` zeros. -/
def zeroOrder (n : Nat) : TileOrder :=
  { dx_table := List.replicate n 0, dy_table := List.replicate n 0,
    lx_table := List.replicate n 0, ly_table := List.replicate n 0 }

/-- The one-level table of three tiles as the constructor makes it. -/
def sampleFresh : TileOffsets :=
  { _mode := .ONE_LEVEL, _numXLevels := 1, _numYLevels := 1, _offsets := [[[0, 0, 0]]] }

/-- An output stream that already holds three bytes. -/
def sampleOut : OStream := { data := [1, 2, 3], canTell := true }

/-- A flat chunk for tile `(2, 0)` of level `(0, 0)` with three payload bytes. -/
def sampleChunkA : Chunk :=
  { partNumber := 0, tileX := 2, tileY := 0, levelX := 0, levelY := 0,
    packedOffsetTableSize := 0, packedSampleSize := 0, payload := [1, 2, 3] }

/-- A flat chunk for tile `(0, 0)` of level `(0, 0)` with one payload byte. -/
def sampleChunkB : Chunk :=
  { partNumber := 0, tileX := 0, tileY := 0, levelX := 0, levelY := 0,
    packedOffsetTableSize := 0, packedSampleSize := 0, payload := [9] }

/-- A flat chunk for tile `(1, 0)` of level `(0, 0)` without payload. -/
def sampleChunkC : Chunk :=
  { partNumber := 0, tileX := 1, tileY := 0, levelX := 0, levelY := 0,
    packedOffsetTableSize := 0, packedSampleSize := 0, payload := [] }

/-- What follows the two good chunks: a header for the column 5, which the
three-tile table does not have, with an empty payload, and then a good chunk. -/
def sampleTail : List Nat :=
  bytes32 0 ++ sampleChunkC.encode false false

/-- A stream of two bytes, the chunks A and B, the header for column 5 and
the tail, positioned behind the first two bytes. -/
def sampleStream : IStream :=
  { data := [7, 7] ++ sampleChunkA.encode false false ++ sampleChunkB.encode false false ++
      (encodeCoords false 0 5 0 0 0 ++ sampleTail),
    pos := 2, failed := false }

/-- A stream that holds exactly the offset table 5, 0, 7 and nothing after it. -/
def sampleTableStream : IStream :=
  { data := bytes64 5 ++ bytes64 0 ++ bytes64 7, pos := 0, failed := false }

/-- The one-level table constructed from zero tiles in each direction. -/
def sampleNoTiles : TileOffsets :=
  { _mode := .ONE_LEVEL, _numXLevels := 1, _numYLevels := 1, _offsets := [[]] }

/-- A flat chunk for column 5, which the three-tile table does not have. -/
def sampleChunkBad : Chunk :=
  { partNumber := 0, tileX := 5, tileY := 0, levelX := 0, levelY := 0,
    packedOffsetTableSize := 0, packedSampleSize := 0, payload := [4, 4] }

/-- A stream holding the chunk A, the chunk for column 5 and the chunk C. -/
def sampleSkipStream : IStream :=
  { data := sampleChunkA.encode false false ++ sampleChunkBad.encode false false ++
      sampleChunkC.encode false false,
    pos := 0, failed := false }

/-- An output stream that cannot report its write position. -/
def sampleMute : OStream := { data := [1, 2, 3], canTell := false }

/-- A stream of two bytes and then the chunks of the tiles 2, 0 and 1 of the
three-tile table, positioned behind the two bytes. -/
def sampleFullStream : IStream :=
  { data := [7, 7] ++ sampleChunkA.encode false false ++ sampleChunkB.encode false false ++
      sampleChunkC.encode false false,
    pos := 2, failed := false }

/-- Output arrays of `n` nines, to tell a written entry from an untouched one. -/
def nineOrder (n : Nat) : TileOrder :=
  { dx_table := List.replicate n 9, dy_table := List.replicate n 9,
    lx_table := List.replicate n 9, ly_table := List.replicate n 9 }


/-! ## The constructed table in closed form -/

/-- Storing at the first unfilled index extends the filled prefix by one. -/
theorem set_filled_front {α : Type} (F : Nat → α) (m : Nat) (init : List α) (v : α)
    (h : m < init.length) :
    ((List.range m).map F ++ init.drop m).set m v
      = (List.range m).map F ++ v :: init.drop (m + 1) := by
  have hlen : ((List.range m).map F).length = m := by simp
  rw [List.set_append_right _ _ (by simp)]
  simp only [hlen, Nat.sub_self]
  have hd : init.drop m = init[m] :: init.drop (m + 1) := List.drop_eq_getElem_cons h
  rw [hd, List.set_cons_zero]

/-- A loop that stores `F (b + j)` at index `b + j` for `j < k` extends the
filled prefix of the vector from `b` to `b + k`. -/
theorem foldl_set_block {α : Type} (F : Nat → α) (G : Nat → α) (init : List α) (b : Nat) :
    ∀ k : Nat, b + k ≤ init.length → (∀ j, j < k → G j = F (b + j)) →
      (List.range k).foldl (fun acc j => acc.set (b + j) (G j))
          ((List.range b).map F ++ init.drop b)
        = (List.range (b + k)).map F ++ init.drop (b + k) := by
  intro k
  induction k with
  | zero => intro _ _; simp
  | succ k ih =>
    intro hk hG
    rw [List.range_succ, List.foldl_append, ih (by omega) (fun j hj => hG j (by omega))]
    simp only [List.foldl_cons, List.foldl_nil]
    rw [set_filled_front F (b + k) init _ (by omega), hG k (by omega)]
    rw [show b + (k + 1) = (b + k) + 1 from rfl, List.range_succ]
    simp

/-- The `ONE_LEVEL` / `MIPMAP_LEVELS` loop of the constructor, in closed form. -/
theorem ctorLevels_replicate (xt yt : Nat → Int) (n : Nat) :
    ctorLevels xt yt (List.replicate n [])
      = (List.range n).map (fun l => newGrid (yt l) (xt l)) := by
  have h := foldl_set_block (fun l => newGrid (yt l) (xt l)) (fun l => newGrid (yt l) (xt l))
    (List.replicate n ([] : List (List Int))) 0 n (by simp) (by intro j _; simp)
  simpa [ctorLevels] using h

/-- One pass of the inner `RIPMAP_LEVELS` loop fills the block of row `ly`. -/
theorem ctorRipRow_block (nx : Int) (xt yt : Nat → Int) (ly : Nat) (init : List (List (List Int)))
    (hnx : 0 ≤ nx) (h : ly * nx.toNat + nx.toNat ≤ init.length) :
    ctorRipRow nx xt yt ly
        ((List.range (ly * nx.toNat)).map
            (fun l => newGrid (yt (l / nx.toNat)) (xt (l % nx.toNat))) ++ init.drop (ly * nx.toNat))
      = (List.range ((ly + 1) * nx.toNat)).map
            (fun l => newGrid (yt (l / nx.toNat)) (xt (l % nx.toNat)))
          ++ init.drop ((ly + 1) * nx.toNat) := by
  have hidx : ∀ lx : Nat, (((ly : Int) * nx + (lx : Int)).toNat) = ly * nx.toNat + lx := by
    intro lx
    have : ((ly : Int) * nx + (lx : Int)) = ((ly * nx.toNat + lx : Nat) : Int) := by
      push_cast
      rw [Int.toNat_of_nonneg hnx]
    rw [this, Int.toNat_natCast]
  have h2 := foldl_set_block (fun l => newGrid (yt (l / nx.toNat)) (xt (l % nx.toNat)))
    (fun lx => newGrid (yt ly) (xt lx)) init (ly * nx.toNat) nx.toNat h (by
      intro j hj
      have h1 : (ly * nx.toNat + j) / nx.toNat = ly := by
        rw [Nat.mul_comm, Nat.mul_add_div (by omega), Nat.div_eq_of_lt hj]; simp
      have h3 : (ly * nx.toNat + j) % nx.toNat = j := by
        rw [Nat.mul_comm, Nat.mul_add_mod, Nat.mod_eq_of_lt hj]
      simp only [h1, h3])
  unfold ctorRipRow
  simp only [hidx]
  rw [h2]
  congr 2 <;> ring_nf

/-- The `RIPMAP_LEVELS` loops of the constructor, in closed form. -/
theorem ctorRip_replicate (nx ny : Int) (xt yt : Nat → Int) (hnx : 0 ≤ nx) (hny : 0 ≤ ny) :
    ctorRip nx ny xt yt (List.replicate (nx * ny).toNat [])
      = (List.range (ny.toNat * nx.toNat)).map
          (fun l => newGrid (yt (l / nx.toNat)) (xt (l % nx.toNat))) := by
  have hlen : (nx * ny).toNat = ny.toNat * nx.toNat := by
    have : nx * ny = ((ny.toNat * nx.toNat : Nat) : Int) := by
      push_cast
      rw [Int.toNat_of_nonneg hnx, Int.toNat_of_nonneg hny]; ring
    rw [this, Int.toNat_natCast]
  rw [hlen]
  have key : ∀ k : Nat, k ≤ ny.toNat →
      (List.range k).foldl (fun acc ly => ctorRipRow nx xt yt ly acc)
          (List.replicate (ny.toNat * nx.toNat) ([] : List (List Int)))
        = (List.range (k * nx.toNat)).map
            (fun l => newGrid (yt (l / nx.toNat)) (xt (l % nx.toNat)))
          ++ (List.replicate (ny.toNat * nx.toNat) ([] : List (List Int))).drop (k * nx.toNat) := by
    intro k
    induction k with
    | zero => intro _; simp
    | succ k ih =>
      intro hk
      rw [List.range_succ, List.foldl_append, ih (by omega)]
      simp only [List.foldl_cons, List.foldl_nil]
      apply ctorRipRow_block nx xt yt k _ hnx
      simp only [List.length_replicate]
      calc k * nx.toNat + nx.toNat = (k + 1) * nx.toNat := by ring
        _ ≤ ny.toNat * nx.toNat := Nat.mul_le_mul_right _ hk
  have := key ny.toNat le_rfl
  unfold ctorRip
  rw [this]
  simp


/-! ## Indexing lemmas -/

/-- Indexing a `map` over `range` with a default. -/
theorem getD_map_range {α : Type} (F : Nat → α) (n l : Nat) (d : α) :
    ((List.range n).map F).getD l d = if l < n then F l else d := by
  rw [List.getD_eq_getElem?_getD]
  by_cases h : l < n
  · simp [h]
  · rw [List.getElem?_eq_none (by simpa using Nat.le_of_not_lt h)]
    simp [h]

/-- Number of rows of a fresh grid. -/
theorem length_newGrid (r c : Int) : (newGrid r c).length = r.toNat := by
  simp [newGrid]

/-- Every row of a fresh grid has the requested number of columns. -/
theorem getD_newGrid (r c : Int) (dy : Nat) :
    (newGrid r c).getD dy [] = if dy < r.toNat then List.replicate c.toNat 0 else [] := by
  rw [List.getD_eq_getElem?_getD]
  by_cases h : dy < r.toNat
  · simp [newGrid, h]
  · rw [List.getElem?_eq_none (by simpa [newGrid] using Nat.le_of_not_lt h)]
    simp [h]

/-- Every row of a fresh grid has the requested number of columns. -/
theorem length_getElem_newGrid (r c : Int) (i : Nat) (h : i < (newGrid r c).length) :
    (newGrid r c)[i].length = c.toNat := by
  simp [newGrid]

/-- The flattened ripmap index and its decoding, over the naturals. -/
theorem rip_index (lx ly nx : Int) (hlx : 0 ≤ lx) (hly : 0 ≤ ly) (hx : lx < nx) :
    (lx + ly * nx).toNat = ly.toNat * nx.toNat + lx.toNat ∧
      (ly.toNat * nx.toNat + lx.toNat) / nx.toNat = ly.toNat ∧
      (ly.toNat * nx.toNat + lx.toNat) % nx.toNat = lx.toNat := by
  have hlt : lx.toNat < nx.toNat := by omega
  refine ⟨?_, ?_, ?_⟩
  · have : lx + ly * nx = ((ly.toNat * nx.toNat + lx.toNat : Nat) : Int) := by
      push_cast
      rw [Int.toNat_of_nonneg hlx, Int.toNat_of_nonneg hly, Int.toNat_of_nonneg (by omega)]
      ring
    rw [this, Int.toNat_natCast]
  · rw [Nat.mul_comm, Nat.mul_add_div (by omega), Nat.div_eq_of_lt hlt]; simp
  · rw [Nat.mul_comm, Nat.mul_add_mod, Nat.mod_eq_of_lt hlt]

/-- A flattened ripmap index of in-range levels is inside the table. -/
theorem rip_index_lt (lx ly nx ny : Nat) (hx : lx < nx) (hy : ly < ny) :
    ly * nx + lx < ny * nx := by
  calc ly * nx + lx < ly * nx + nx := by omega
    _ = (ly + 1) * nx := by ring
    _ ≤ ny * nx := Nat.mul_le_mul_right _ hy

/-- The offsets of a table constructed in `ONE_LEVEL` or `MIPMAP_LEVELS` mode. -/
theorem new_offsets_levels (mode : LevelMode) (nx ny : Int) (xt yt : Nat → Int) (t : TileOffsets)
    (hm : mode = .ONE_LEVEL ∨ mode = .MIPMAP_LEVELS)
    (ht : TileOffsets.new mode nx ny xt yt = .ok t) :
    t._mode = mode ∧ t._numXLevels = nx ∧ t._numYLevels = ny ∧
      t._offsets = (List.range nx.toNat).map (fun l => newGrid (yt l) (xt l)) := by
  rcases hm with rfl | rfl <;>
  · simp only [TileOffsets.new, Except.ok.injEq] at ht
    subst ht
    simp [ctorLevels_replicate]

/-- The offsets of a table constructed in `RIPMAP_LEVELS` mode. -/
theorem new_offsets_rip (nx ny : Int) (xt yt : Nat → Int) (t : TileOffsets)
    (hnx : 0 ≤ nx) (hny : 0 ≤ ny)
    (ht : TileOffsets.new .RIPMAP_LEVELS nx ny xt yt = .ok t) :
    t._mode = .RIPMAP_LEVELS ∧ t._numXLevels = nx ∧ t._numYLevels = ny ∧
      t._offsets = (List.range (ny.toNat * nx.toNat)).map
        (fun l => newGrid (yt (l / nx.toNat)) (xt (l % nx.toNat))) := by
  simp only [TileOffsets.new, Except.ok.injEq] at ht
  subst ht
  simp [ctorRip_replicate nx ny xt yt hnx hny]

/-- The mode and level counts of a constructed table. -/
theorem new_fields (mode : LevelMode) (nx ny : Int) (xt yt : Nat → Int) (t : TileOffsets)
    (ht : TileOffsets.new mode nx ny xt yt = .ok t) :
    t._mode = mode ∧ t._numXLevels = nx ∧ t._numYLevels = ny ∧ mode ≠ .NUM_LEVELMODES := by
  cases mode <;> simp only [TileOffsets.new, Except.ok.injEq] at ht <;> first
    | (subst ht; simp)
    | exact absurd ht (by simp)


/-! ## Slots in canonical order -/

/-- Enumerating a vector by index gives the vector. -/
theorem map_range_getD {α β : Type} (L : List α) (d : α) (H : α → β) :
    (List.range L.length).map (fun i => H (L.getD i d)) = L.map H := by
  apply List.ext_getElem
  · simp
  · intro i h1 h2
    simp only [List.length_map, List.length_range] at h1
    simp [List.getD_eq_getElem?_getD, h1]

/-- Concatenating over the indices of a vector is concatenating over the vector. -/
theorem flatMap_range_getD {α β : Type} (L : List α) (d : α) (H : α → List β) :
    (List.range L.length).flatMap (fun i => H (L.getD i d)) = L.flatMap H := by
  have h := map_range_getD L d H
  rw [List.flatMap_def, List.flatMap_def, h]

/-- Membership in the list of slots: the three indices are in range. -/
theorem mem_slots (t : TileOffsets) (s : Slot) :
    s ∈ t.slots ↔ s.1 < t._offsets.length ∧ s.2.1 < (t._offsets.getD s.1 []).length ∧
      s.2.2 < ((t._offsets.getD s.1 []).getD s.2.1 []).length := by
  obtain ⟨l, dy, dx⟩ := s
  simp only [TileOffsets.slots, List.mem_flatMap, List.mem_range, List.mem_map, Prod.mk.injEq]
  constructor
  · rintro ⟨l', hl, dy', hdy, dx', hdx, rfl, rfl, rfl⟩
    exact ⟨hl, hdy, hdx⟩
  · rintro ⟨hl, hdy, hdx⟩
    exact ⟨l, hl, dy, hdy, dx, hdx, rfl, rfl, rfl⟩

/-- The offsets in canonical order are the slots in canonical order, read. -/
theorem flat_eq_map_get (t : TileOffsets) : t.flat = t.slots.map t.get := by
  unfold TileOffsets.flat TileOffsets.slots
  simp only [List.map_flatMap, List.map_map]
  have key : ∀ offs : List (List (List Int)),
      (List.range offs.length).flatMap (fun l =>
        (List.range (offs.getD l []).length).flatMap (fun dy =>
          (List.range ((offs.getD l []).getD dy []).length).map
            (fun dx => ((offs.getD l []).getD dy []).getD dx 0)))
        = offs.flatten.flatten := by
    intro offs
    have e1 : ∀ r : List Int, (List.range r.length).map (fun dx => r.getD dx 0) = r := by
      intro r; simpa using map_range_getD r 0 id
    have e2 : ∀ g : List (List Int),
        (List.range g.length).flatMap (fun dy =>
          (List.range (g.getD dy []).length).map (fun dx => (g.getD dy []).getD dx 0)) = g.flatten := by
      intro g
      have := flatMap_range_getD g [] (fun r => (List.range r.length).map (fun dx => r.getD dx 0))
      rw [this]
      simp only [e1]
      simp [List.flatMap_def]
    have := flatMap_range_getD offs [] (fun g =>
      (List.range g.length).flatMap (fun dy =>
        (List.range (g.getD dy []).length).map (fun dx => (g.getD dy []).getD dx 0)))
    rw [this]
    simp only [e2]
    simp [List.flatMap_def, List.flatten_flatten]
  exact (key t._offsets).symm

/-- The number of slots is the sum of the row lengths. -/
theorem length_slots (t : TileOffsets) : t.slots.length = t.totalSize := by
  have h : t.slots.length = t.flat.length := by rw [flat_eq_map_get]; simp
  rw [h]
  unfold TileOffsets.flat TileOffsets.totalSize
  simp only [List.length_flatten, List.map_flatten, List.sum_flatten, List.map_map]
  rfl


/-! ## Shape of the constructed table -/

/-- Number of slots of a fresh grid. -/
theorem sum_length_newGrid (r c : Int) :
    ((newGrid r c).map List.length).sum = r.toNat * c.toNat := by
  simp [newGrid]

/-- A sum over a flattened index range, split into rows of `b` entries. -/
theorem sum_range_mul (F : Nat → Int) (b : Nat) : ∀ a : Nat,
    ((List.range (a * b)).map F).sum
      = ((List.range a).map (fun i => ((List.range b).map (fun j => F (i * b + j))).sum)).sum := by
  intro a
  induction a with
  | zero => simp
  | succ a ih =>
    rw [Nat.succ_mul, List.range_add, List.map_append, List.sum_append, ih, List.range_succ,
      List.map_append, List.sum_append]
    simp [Function.comp_def]

/-- The slot count of a table whose levels are given by index. -/
theorem totalSize_map_range (t : TileOffsets) (n : Nat) (G : Nat → List (List Int))
    (h : t._offsets = (List.range n).map G) :
    (t.totalSize : Int) = ((List.range n).map (fun l => (((G l).map List.length).sum : Int))).sum := by
  unfold TileOffsets.totalSize
  rw [h, Nat.cast_list_sum]
  simp only [List.map_map]
  rfl

/-- Level `l` of a table whose levels are given by index. -/
theorem level_map_range (t : TileOffsets) (n : Nat) (G : Nat → List (List Int))
    (h : t._offsets = (List.range n).map G) (l : Int) (hl : l.toNat < n) :
    t.level l = G l.toNat := by
  unfold TileOffsets.level
  rw [h, getD_map_range, if_pos hl]

/-- Row `dy` of a level that is a fresh grid. -/
theorem row_newGrid (t : TileOffsets) (l dy r c : Int) (h : t.level l = newGrid r c)
    (hdy : dy.toNat < r.toNat) : t.row l dy = List.replicate c.toNat 0 := by
  unfold TileOffsets.row
  rw [h, getD_newGrid, if_pos hdy]


/-! ## Validity and addressing -/

/-- The in-range test of `slotOf` is membership in the list of slots. -/
theorem slotOf_eq_some (t : TileOffsets) (i : Int × Int × Int) (s : Slot) :
    t.slotOf i = some s ↔
      0 ≤ i.1 ∧ 0 ≤ i.2.1 ∧ 0 ≤ i.2.2 ∧ s = (i.1.toNat, i.2.1.toNat, i.2.2.toNat) ∧ s ∈ t.slots := by
  unfold TileOffsets.slotOf
  rw [mem_slots]
  simp only [TileOffsets.level, TileOffsets.row]
  constructor
  · intro h
    split at h
    · rename_i hc
      obtain ⟨h1, h2, h3, h4, h5, h6⟩ := hc
      simp only [Option.some.injEq] at h
      subst h
      refine ⟨h1, h2, h3, rfl, ?_, ?_, ?_⟩
      · simp only; omega
      · simp only; omega
      · simp only; omega
    · exact absurd h (by simp)
  · rintro ⟨h1, h2, h3, rfl, h4, h5, h6⟩
    simp only at h4 h5 h6
    rw [if_pos]
    refine ⟨h1, h2, h3, ?_, ?_, ?_⟩ <;> omega

/-- A slot is addressed by its own indices. -/
theorem slotOf_cast (t : TileOffsets) (s : Slot) (h : s ∈ t.slots) :
    t.slotOf ((s.1 : Int), (s.2.1 : Int), (s.2.2 : Int)) = some s := by
  rw [slotOf_eq_some]
  refine ⟨by simp, by simp, by simp, ?_, h⟩
  simp

/-- What `isValidTile` checks: the signs, the level bounds of the mode, and
that the indices `operator ()` would use lie inside the vectors. -/
theorem isValidTile_iff (t : TileOffsets) (dx dy lx ly : Int) :
    t.isValidTile dx dy lx ly = true ↔
      0 ≤ dx ∧ 0 ≤ dy ∧ 0 ≤ lx ∧ 0 ≤ ly ∧
      ((t._mode = .ONE_LEVEL ∧ lx = 0 ∧ ly = 0) ∨
       (t._mode = .MIPMAP_LEVELS ∧ lx < t._numXLevels ∧ ly < t._numYLevels) ∨
       (t._mode = .RIPMAP_LEVELS ∧ lx < t._numXLevels ∧ ly < t._numYLevels)) ∧
      ∃ s, t.slotAt dx dy lx ly = some s := by
  by_cases hneg : 0 ≤ dx ∧ 0 ≤ dy ∧ 0 ≤ lx ∧ 0 ≤ ly
  swap
  · have : (lx < 0 || ly < 0 || dx < 0 || dy < 0) = true := by
      simp only [Bool.or_eq_true, decide_eq_true_eq]; omega
    simp only [TileOffsets.isValidTile, this, if_true]
    constructor
    · intro h; exact absurd h (by simp)
    · intro h; exact absurd ⟨h.1, h.2.1, h.2.2.1, h.2.2.2.1⟩ hneg
  obtain ⟨hdx, hdy, hlx, hly⟩ := hneg
  have hnn : (lx < 0 || ly < 0 || dx < 0 || dy < 0) = false := by
    simp only [Bool.or_eq_false_iff, decide_eq_false_iff_not]; omega
  have hslot : ∀ l : Int, 0 ≤ l →
      ((∃ s, t.slotOf (l, dy, dx) = some s) ↔
        (l < t._offsets.length ∧ dy < (t.level l).length ∧ dx < (t.row l dy).length)) := by
    intro l hl
    unfold TileOffsets.slotOf
    constructor
    · rintro ⟨s, hs⟩
      split at hs
      · rename_i hc; exact ⟨hc.2.2.2.1, hc.2.2.2.2.1, hc.2.2.2.2.2⟩
      · exact absurd hs (by simp)
    · rintro ⟨h1, h2, h3⟩
      exact ⟨_, if_pos ⟨hl, hdy, hdx, h1, h2, h3⟩⟩
  cases hm : t._mode with
  | NUM_LEVELMODES =>
    simp [TileOffsets.isValidTile, hnn, hm]
  | ONE_LEVEL =>
    have := hslot 0 le_rfl
    simp only [TileOffsets.slotAt, TileOffsets.address, hm, this]
    simp only [TileOffsets.isValidTile, hnn, hm, Bool.false_eq_true, if_false, Bool.and_eq_true,
      beq_iff_eq, decide_eq_true_eq, reduceCtorEq, false_and, or_false, true_and]
    constructor
    · rintro ⟨⟨⟨⟨h1, h2⟩, h3⟩, h4⟩, h5⟩
      exact ⟨hdx, hdy, hlx, hly, ⟨h1, h2⟩, by omega, h4, h5⟩
    · rintro ⟨-, -, -, -, ⟨h1, h2⟩, h3, h4, h5⟩
      exact ⟨⟨⟨⟨h1, h2⟩, by omega⟩, h4⟩, h5⟩
  | MIPMAP_LEVELS =>
    have := hslot lx hlx
    simp only [TileOffsets.slotAt, TileOffsets.address, hm, this]
    simp only [TileOffsets.isValidTile, hnn, hm, Bool.false_eq_true, if_false, Bool.and_eq_true,
      decide_eq_true_eq, reduceCtorEq, false_and, or_false, false_or, true_and]
    constructor
    · rintro ⟨⟨⟨⟨h1, h2⟩, h3⟩, h4⟩, h5⟩
      exact ⟨hdx, hdy, hlx, hly, ⟨h1, h2⟩, h3, h4, h5⟩
    · rintro ⟨-, -, -, -, ⟨h1, h2⟩, h3, h4, h5⟩
      exact ⟨⟨⟨⟨h1, h2⟩, h3⟩, h4⟩, h5⟩
  | RIPMAP_LEVELS =>
    constructor
    · intro h
      simp only [TileOffsets.isValidTile, hnn, hm, Bool.false_eq_true, if_false, Bool.and_eq_true,
        decide_eq_true_eq] at h
      obtain ⟨⟨⟨⟨h1, h2⟩, h3⟩, h4⟩, h5⟩ := h
      have hnonneg : 0 ≤ lx + ly * t._numXLevels := by nlinarith
      refine ⟨hdx, hdy, hlx, hly, Or.inr (Or.inr ⟨rfl, h1, h2⟩), ?_⟩
      simp only [TileOffsets.slotAt, TileOffsets.address, hm]
      exact (hslot _ hnonneg).mpr ⟨h3, h4, h5⟩
    · rintro ⟨-, -, -, -, hl, hs⟩
      simp only [reduceCtorEq, false_and, false_or, true_and] at hl
      have hnonneg : 0 ≤ lx + ly * t._numXLevels := by nlinarith
      simp only [TileOffsets.slotAt, TileOffsets.address, hm] at hs
      obtain ⟨h3, h4, h5⟩ := (hslot _ hnonneg).mp hs
      simp only [TileOffsets.isValidTile, hnn, hm, Bool.false_eq_true, if_false, Bool.and_eq_true,
        decide_eq_true_eq]
      exact ⟨⟨⟨⟨hl.1, hl.2⟩, h3⟩, h4⟩, h5⟩


/-- The slot addressed by a tuple that `slotAt` resolves, by mode. -/
theorem slotAt_eq_some (t : TileOffsets) (dx dy lx ly : Int) (s : Slot)
    (h : t.slotAt dx dy lx ly = some s) :
    0 ≤ dy ∧ 0 ≤ dx ∧ s.2.1 = dy.toNat ∧ s.2.2 = dx.toNat ∧ s ∈ t.slots ∧
      ((t._mode = .ONE_LEVEL ∧ s.1 = 0) ∨
       (t._mode = .MIPMAP_LEVELS ∧ 0 ≤ lx ∧ s.1 = lx.toNat) ∨
       (t._mode = .RIPMAP_LEVELS ∧ 0 ≤ lx + ly * t._numXLevels ∧
          s.1 = (lx + ly * t._numXLevels).toNat)) := by
  unfold TileOffsets.slotAt TileOffsets.address at h
  cases hm : t._mode <;> simp only [hm] at h
  · obtain ⟨h1, h2, h3, rfl, h5⟩ := (slotOf_eq_some t _ s).mp h
    exact ⟨h2, h3, rfl, rfl, h5, Or.inl ⟨rfl, by simp⟩⟩
  · obtain ⟨h1, h2, h3, rfl, h5⟩ := (slotOf_eq_some t _ s).mp h
    exact ⟨h2, h3, rfl, rfl, h5, Or.inr (Or.inl ⟨rfl, h1, rfl⟩)⟩
  · obtain ⟨h1, h2, h3, rfl, h5⟩ := (slotOf_eq_some t _ s).mp h
    exact ⟨h2, h3, rfl, rfl, h5, Or.inr (Or.inr ⟨rfl, h1, rfl⟩)⟩
  · exact absurd h (by simp)

/-- Decoding of a flattened ripmap index is unique. -/
theorem rip_decode_unique (lx ly lx' ly' nx : Int) (h0 : 0 ≤ lx) (h1 : lx < nx)
    (h0' : 0 ≤ lx') (h1' : lx' < nx) (h : lx + ly * nx = lx' + ly' * nx) :
    lx = lx' ∧ ly = ly' := by
  have hy : ly = ly' := by
    by_contra hne
    rcases lt_or_gt_of_ne hne with hlt | hgt
    · have : ly + 1 ≤ ly' := hlt
      nlinarith
    · have : ly' + 1 ≤ ly := hgt
      nlinarith
  subst hy
  exact ⟨by linarith, rfl⟩


/-! ## Shape, slots and offsets -/

/-- The slot count in terms of the shape. -/
theorem totalSize_eq_shape (t : TileOffsets) : t.totalSize = (t.shape.map List.sum).sum := by
  simp [TileOffsets.totalSize, TileOffsets.shape, Function.comp_def]

/-- Indexing commutes with `map` when the defaults correspond. -/
theorem getD_map' {α β : Type} (f : α → β) (L : List α) (i : Nat) (d : α) (e : β) (h : f d = e) :
    (L.map f).getD i e = f (L.getD i d) := by
  simp only [List.getD_eq_getElem?_getD, List.getElem?_map]
  cases L[i]? <;> simp [h]

/-- The list of slots depends on the shape only. -/
theorem slots_eq_of_offsets_shape (offs offs' : List (List (List Int)))
    (h : offs.map (fun g => g.map List.length) = offs'.map (fun g => g.map List.length))
    (m m' : LevelMode) (a a' b b' : Int) :
    (TileOffsets.mk m a b offs).slots = (TileOffsets.mk m' a' b' offs').slots := by
  have hlen : offs.length = offs'.length := by
    have := congrArg List.length h
    simpa using this
  have hrow : ∀ l, (offs.getD l []).map List.length = (offs'.getD l []).map List.length := by
    intro l
    have h1 := getD_map' (fun g : List (List Int) => g.map List.length) offs l [] [] rfl
    have h2 := getD_map' (fun g : List (List Int) => g.map List.length) offs' l [] [] rfl
    have h3 : (offs.map (fun g => g.map List.length)).getD l []
        = (offs'.map (fun g => g.map List.length)).getD l [] := by rw [h]
    rw [h1, h2] at h3
    exact h3
  have hrlen : ∀ l, (offs.getD l []).length = (offs'.getD l []).length := by
    intro l
    have := congrArg List.length (hrow l)
    simpa using this
  have hcol : ∀ l dy, ((offs.getD l []).getD dy []).length = ((offs'.getD l []).getD dy []).length := by
    intro l dy
    have h1 := getD_map' (List.length : List Int → Nat) (offs.getD l []) dy [] 0 rfl
    have h2 := getD_map' (List.length : List Int → Nat) (offs'.getD l []) dy [] 0 rfl
    have h3 : ((offs.getD l []).map List.length).getD dy 0
        = ((offs'.getD l []).map List.length).getD dy 0 := by rw [hrow l]
    rw [h1, h2] at h3
    exact h3
  simp only [TileOffsets.slots, hlen, hrlen, hcol]

/-- Tables of one shape have the same slots. -/
theorem slots_eq_of_shape (t t' : TileOffsets) (h : t.shape = t'.shape) : t.slots = t'.slots := by
  cases t; cases t'
  exact slots_eq_of_offsets_shape _ _ h _ _ _ _ _ _

/-- What `anyOffsetsAreInvalid` decides, on the offsets in canonical order. -/
theorem anyOffsetsAreInvalid_iff (t : TileOffsets) :
    t.anyOffsetsAreInvalid = true ↔ ∃ x ∈ t.flat, x ≤ 0 := by
  simp only [TileOffsets.anyOffsetsAreInvalid, TileOffsets.flat, List.any_eq_true,
    decide_eq_true_eq, List.mem_flatten]
  constructor
  · rintro ⟨g, hg, r, hr, x, hx, hle⟩
    exact ⟨x, ⟨r, ⟨g, hg, hr⟩, hx⟩, hle⟩
  · rintro ⟨x, ⟨r, ⟨g, hg, hr⟩, hx⟩, hle⟩
    exact ⟨g, hg, r, hr, x, hx, hle⟩

/-- No offset is invalid exactly when every offset is strictly positive. -/
theorem anyOffsetsAreInvalid_eq_false_iff (t : TileOffsets) :
    t.anyOffsetsAreInvalid = false ↔ ∀ x ∈ t.flat, 0 < x := by
  rw [← Bool.not_eq_true, anyOffsetsAreInvalid_iff]
  push_neg
  rfl


/-! ## The list form of `readFrom` -/

/-- The row loop of the list `readFrom` copies a window of the list. -/
theorem fillRow_spec (co : List Int) : ∀ (r : List Int) (pos : Nat),
    pos + r.length ≤ co.length →
      (fillRow co r pos).1 = (co.drop pos).take r.length ∧ (fillRow co r pos).2 = pos + r.length := by
  intro r
  induction r with
  | nil => intro pos _; simp [fillRow]
  | cons o os ih =>
    intro pos h
    simp only [List.length_cons] at h
    obtain ⟨h1, h2⟩ := ih (pos + 1) (by omega)
    simp only [fillRow, h1, h2, List.length_cons]
    refine ⟨?_, by omega⟩
    have hlt : pos < co.length := by omega
    rw [List.drop_eq_getElem_cons hlt, List.take_succ_cons]
    simp [List.getD_eq_getElem?_getD, hlt]

/-- The grid loop of the list `readFrom`: shape kept, window copied. -/
theorem fillGrid_spec (co : List Int) : ∀ (g : List (List Int)) (pos : Nat),
    pos + (g.map List.length).sum ≤ co.length →
      (fillGrid co g pos).1.map List.length = g.map List.length ∧
      (fillGrid co g pos).1.flatten = (co.drop pos).take (g.map List.length).sum ∧
      (fillGrid co g pos).2 = pos + (g.map List.length).sum := by
  intro g
  induction g with
  | nil => intro pos _; simp [fillGrid]
  | cons r rs ih =>
    intro pos h
    simp only [List.map_cons, List.sum_cons] at h
    obtain ⟨a1, a2⟩ := fillRow_spec co r pos (by omega)
    obtain ⟨b1, b2, b3⟩ := ih (pos + r.length) (by omega)
    simp only [fillGrid, a1, a2, b1, b2, b3, List.map_cons, List.sum_cons, List.flatten_cons]
    refine ⟨?_, ?_, by omega⟩
    · simp
      omega
    · rw [List.take_add, List.drop_drop]

/-- The level loop of the list `readFrom`: shape kept, window copied. -/
theorem fillLevels_spec (co : List Int) : ∀ (offs : List (List (List Int))) (pos : Nat),
    pos + (offs.map (fun g => (g.map List.length).sum)).sum ≤ co.length →
      (fillLevels co offs pos).1.map (fun g => g.map List.length)
        = offs.map (fun g => g.map List.length) ∧
      (fillLevels co offs pos).1.flatten.flatten
        = (co.drop pos).take (offs.map (fun g => (g.map List.length).sum)).sum ∧
      (fillLevels co offs pos).2 = pos + (offs.map (fun g => (g.map List.length).sum)).sum := by
  intro offs
  induction offs with
  | nil => intro pos _; simp [fillLevels]
  | cons g gs ih =>
    intro pos h
    simp only [List.map_cons, List.sum_cons] at h
    obtain ⟨a1, a2, a3⟩ := fillGrid_spec co g pos (by omega)
    obtain ⟨b1, b2, b3⟩ := ih (pos + (g.map List.length).sum) (by omega)
    simp only [fillLevels, a1, a2, a3, b1, b2, b3, List.map_cons, List.sum_cons,
      List.flatten_cons, List.flatten_append]
    refine ⟨trivial, ?_, by omega⟩
    rw [List.take_add, List.drop_drop]


/-! ## The output loops and the sorted table of `getTileOrder` -/

/-- An output loop overwrites a window of the array with the mapped table. -/
theorem writeTable_spec (f : tilepos → Int) : ∀ (ps : List tilepos) (i : Nat) (out : List Int),
    i + ps.length ≤ out.length →
      writeTable f ps i out = some (out.take i ++ ps.map f ++ out.drop (i + ps.length)) := by
  intro ps
  induction ps with
  | nil => intro i out _; simp [writeTable]
  | cons p ps ih =>
    intro i out h
    simp only [List.length_cons] at h
    have hi : i < out.length := by omega
    simp only [writeTable, hi, if_true]
    rw [ih (i + 1) (out.set i (f p)) (by simp; omega)]
    congr 1
    have hset : out.set i (f p) = out.take i ++ f p :: out.drop (i + 1) := by
      rw [List.set_eq_take_append_cons_drop, if_pos hi]
    have hl : (out.take i).length = i := by simp; omega
    rw [hset, List.take_append_eq_append_take, List.drop_append_eq_append_drop, hl]
    have e1 : i + 1 - i = 1 := by omega
    have e2 : i + 1 + ps.length - i = ps.length + 1 := by omega
    have t1 : List.take (i + 1) (List.take i out) = List.take i out :=
      List.take_of_length_le (by rw [hl]; omega)
    have d1 : List.drop (i + 1 + ps.length) (List.take i out) = [] :=
      List.drop_of_length_le (by rw [hl]; omega)
    rw [e1, e2, t1, d1]
    simp only [List.take_succ_cons, List.take_zero, List.drop_succ_cons, List.drop_drop,
      List.nil_append, List.length_cons, List.map_cons, List.append_assoc, List.cons_append]
    rw [show i + (ps.length + 1) = i + 1 + ps.length by omega]


/-- The comparison of `tilepos` is total. -/
instance tilepos_le_total : IsTotal tilepos (fun a b => a.filePos ≤ b.filePos) :=
  ⟨fun a b => le_total a.filePos b.filePos⟩

/-- The comparison of `tilepos` is transitive. -/
instance tilepos_le_trans : IsTrans tilepos (fun a b => a.filePos ≤ b.filePos) :=
  ⟨fun _ _ _ h1 h2 => le_trans h1 h2⟩

/-- The sorted table is a permutation of the filled table. -/
theorem sortTable_perm (table : List tilepos) : (sortTable table).Perm table :=
  List.perm_insertionSort _ table

/-- The sorted table is ordered by file position. -/
theorem sortTable_sorted (table : List tilepos) :
    ((sortTable table).map (fun p => p.filePos)).Sorted (· ≤ ·) := by
  have h := List.sorted_insertionSort (fun a b : tilepos => a.filePos ≤ b.filePos) table
  unfold List.Sorted at h ⊢
  rw [List.pairwise_map]
  exact h

/-- The filled table has one entry per slot. -/
theorem tileTable_eq (t : TileOffsets) : t.tileTable = t.slots.map t.entry := rfl

/-- Every entry of the sorted table is the entry of a slot of the table. -/
theorem mem_sortTable (t : TileOffsets) (p : tilepos) (h : p ∈ sortTable t.tileTable) :
    ∃ s ∈ t.slots, p = t.entry s := by
  have h1 := (sortTable_perm t.tileTable).mem_iff.mp h
  rw [tileTable_eq, List.mem_map] at h1
  obtain ⟨s, hs, rfl⟩ := h1
  exact ⟨s, hs, rfl⟩

/-- The slot of an entry made for a slot. -/
theorem slot_entry (t : TileOffsets) (s : Slot) : (t.entry s).slot = s := by
  simp [TileOffsets.entry, tilepos.slot]

/-- The slots of the sorted table are a permutation of the slots. -/
theorem sortTable_slots_perm (t : TileOffsets) :
    ((sortTable t.tileTable).map tilepos.slot).Perm t.slots := by
  have h := (sortTable_perm t.tileTable).map tilepos.slot
  rw [tileTable_eq, List.map_map] at h
  have e : t.slots.map (tilepos.slot ∘ t.entry) = t.slots := by
    conv => rhs; rw [← List.map_id t.slots]
    apply List.map_congr_left
    intro s _
    exact slot_entry t s
  rw [e] at h
  exact h

/-- Reading the slots of the sorted table gives its file positions. -/
theorem sortTable_get (t : TileOffsets) :
    ((sortTable t.tileTable).map tilepos.slot).map t.get
      = (sortTable t.tileTable).map (fun p => p.filePos) := by
  rw [List.map_map]
  apply List.map_congr_left
  intro p hp
  obtain ⟨s, _, rfl⟩ := mem_sortTable t p hp
  show t.get (t.entry s).slot = (t.entry s).filePos
  rw [slot_entry]
  rfl

/-- The tuple emitted for the entry of a slot addresses that slot. -/
theorem slotAt_emitted (t : TileOffsets) (s : Slot) (hs : s ∈ t.slots)
    (hmode : t._mode ≠ .NUM_LEVELMODES)
    (h1 : t._mode = .ONE_LEVEL → t._offsets.length ≤ 1) :
    t.slotAt (t.entry s).dx (t.entry s).dy (t.emitLX (t.entry s)) (t.emitLY (t.entry s))
      = some s := by
  have hcast := slotOf_cast t s hs
  cases hm : t._mode with
  | NUM_LEVELMODES => exact absurd hm hmode
  | ONE_LEVEL =>
    have h0 : s.1 = 0 := by
      have := ((mem_slots t s).mp hs).1
      have := h1 hm
      omega
    simp only [TileOffsets.slotAt, TileOffsets.address, hm, TileOffsets.entry]
    rw [h0] at hcast
    exact hcast
  | MIPMAP_LEVELS =>
    simp only [TileOffsets.slotAt, TileOffsets.address, hm, TileOffsets.entry, TileOffsets.emitLX]
    exact hcast
  | RIPMAP_LEVELS =>
    simp only [TileOffsets.slotAt, TileOffsets.address, hm, TileOffsets.entry, TileOffsets.emitLX,
      TileOffsets.emitLY]
    have e : (s.1 : Int).tmod t._numXLevels + (s.1 : Int).tdiv t._numXLevels * t._numXLevels
        = (s.1 : Int) := by
      rw [mul_comm]; exact Int.tmod_add_tdiv _ _
    rw [e]
    exact hcast

/-- The result of `getTileOrder` in a recognised mode, for arrays that hold
at least one entry per slot. -/
theorem getTileOrder_eq (t : TileOffsets) (out : TileOrder)
    (hmode : t._mode ≠ .NUM_LEVELMODES)
    (hr : t._mode = .RIPMAP_LEVELS → 1 ≤ t._numXLevels)
    (hdx : t.slots.length ≤ out.dx_table.length) (hdy : t.slots.length ≤ out.dy_table.length)
    (hlx : t.slots.length ≤ out.lx_table.length) (hly : t.slots.length ≤ out.ly_table.length) :
    t.getTileOrder out =
      ({ dx_table := (sortTable t.tileTable).map (fun p => p.dx) ++ out.dx_table.drop t.slots.length,
         dy_table := (sortTable t.tileTable).map (fun p => p.dy) ++ out.dy_table.drop t.slots.length,
         lx_table := (sortTable t.tileTable).map t.emitLX ++ out.lx_table.drop t.slots.length,
         ly_table := (sortTable t.tileTable).map t.emitLY ++ out.ly_table.drop t.slots.length },
       .returned) := by
  have hlen : (sortTable t.tileTable).length = t.slots.length := by
    rw [(sortTable_perm _).length_eq, tileTable_eq, List.length_map]
  have hw : ∀ (f : tilepos → Int) (arr : List Int), t.slots.length ≤ arr.length →
      writeTable f (sortTable t.tileTable) 0 arr
        = some ((sortTable t.tileTable).map f ++ arr.drop t.slots.length) := by
    intro f arr h
    rw [writeTable_spec f _ 0 arr (by omega), hlen]
    simp
  unfold TileOffsets.getTileOrder
  simp only [hw _ _ hdx, hw _ _ hdy]
  cases hm : t._mode with
  | NUM_LEVELMODES => exact absurd hm hmode
  | ONE_LEVEL =>
    have eX : t.emitLX = fun _ => 0 := by funext p; simp [TileOffsets.emitLX, hm]
    have eY : t.emitLY = fun _ => 0 := by funext p; simp [TileOffsets.emitLY, hm]
    simp only [hw _ _ hlx, hw _ _ hly, eX, eY]
  | MIPMAP_LEVELS =>
    have eX : t.emitLX = fun p => p.l := by funext p; simp [TileOffsets.emitLX, hm]
    have eY : t.emitLY = fun p => p.l := by funext p; simp [TileOffsets.emitLY, hm]
    simp only [hw _ _ hlx, hw _ _ hly, eX, eY]
  | RIPMAP_LEVELS =>
    have hnx : ¬ (t._numXLevels = 0 ∧ sortTable t.tileTable ≠ []) := by
      have := hr hm
      intro h; omega
    have eX : t.emitLX = fun p => p.l.tmod t._numXLevels := by
      funext p; simp [TileOffsets.emitLX, hm]
    have eY : t.emitLY = fun p => p.l.tdiv t._numXLevels := by
      funext p; simp [TileOffsets.emitLY, hm]
    simp only [hnx, if_false, hw _ _ hlx, hw _ _ hly, eX, eY]


/-- The first tuples held by the result arrays of `getTileOrder`. -/
theorem tuples_of_maps (table : List tilepos) (f1 f2 f3 f4 : tilepos → Int)
    (r1 r2 r3 r4 : List Int) :
    (TileOrder.mk (table.map f1 ++ r1) (table.map f2 ++ r2) (table.map f3 ++ r3)
        (table.map f4 ++ r4)).tuples table.length
      = table.map (fun p => (f1 p, f2 p, f3 p, f4 p)) := by
  unfold TileOrder.tuples
  apply List.ext_getElem
  · simp
  · intro i h1 h2
    simp only [List.length_map, List.length_range] at h1
    simp [List.getD_eq_getElem?_getD, List.getElem?_append_left, h1]


/-! ## Xdr encoding and decoding -/

/-- An encoding has the requested number of bytes. -/
theorem length_encodeLE : ∀ (w n : Nat), (encodeLE w n).length = w := by
  intro w
  induction w with
  | zero => intro n; rfl
  | succ w ih => intro n; simp [encodeLE, ih]

/-- Decoding an encoding gives the value modulo the width. -/
theorem decodeLE_encodeLE : ∀ (w n : Nat), decodeLE (encodeLE w n) = n % 256 ^ w := by
  intro w
  induction w with
  | zero => intro n; simp [encodeLE, decodeLE, Nat.mod_one]
  | succ w ih =>
    intro n
    simp only [encodeLE, decodeLE, ih, Nat.mod_mod]
    rw [pow_succ, Nat.mul_comm (256 ^ w) 256, Nat.mod_mul]

/-- A 64-bit signed value survives the trip through its 8 bytes. -/
theorem roundtrip64 (v : Int) (h1 : -(2 : Int) ^ 63 ≤ v) (h2 : v < (2 : Int) ^ 63) :
    toSigned 64 (decodeLE (encodeLE 8 (toUnsigned 64 v))) = v := by
  rw [decodeLE_encodeLE]
  unfold toSigned toUnsigned
  norm_num at h1 h2 ⊢
  by_cases hv : 0 ≤ v
  · have e : v % 18446744073709551616 = v := Int.emod_eq_of_lt hv (by omega)
    rw [e]
    have e2 : v.toNat % 18446744073709551616 = v.toNat := Nat.mod_eq_of_lt (by omega)
    rw [e2, if_pos (by omega)]
    omega
  · have e : v % 18446744073709551616 = v + 18446744073709551616 := by omega
    rw [e]
    have e2 : (v + 18446744073709551616).toNat % 18446744073709551616
        = (v + 18446744073709551616).toNat := Nat.mod_eq_of_lt (by omega)
    rw [e2, if_neg (by omega)]
    omega

/-- A 32-bit signed value survives the trip through its 4 bytes. -/
theorem roundtrip32 (v : Int) (h1 : -(2 : Int) ^ 31 ≤ v) (h2 : v < (2 : Int) ^ 31) :
    toSigned 32 (decodeLE (encodeLE 4 (toUnsigned 32 v))) = v := by
  rw [decodeLE_encodeLE]
  unfold toSigned toUnsigned
  norm_num at h1 h2 ⊢
  by_cases hv : 0 ≤ v
  · have e : v % 4294967296 = v := Int.emod_eq_of_lt hv (by omega)
    rw [e]
    have e2 : v.toNat % 4294967296 = v.toNat := Nat.mod_eq_of_lt (by omega)
    rw [e2, if_pos (by omega)]
    omega
  · have e : v % 4294967296 = v + 4294967296 := by omega
    rw [e]
    have e2 : (v + 4294967296).toNat % 4294967296 = (v + 4294967296).toNat :=
      Nat.mod_eq_of_lt (by omega)
    rw [e2, if_neg (by omega)]
    omega

/-! ## Reads from a stream whose next bytes are known -/

/-- A read of bytes that are there returns them and advances. -/
theorem read_of_drop (is : IStream) (bs rest : List Nat) (hn : 0 < bs.length)
    (h : is.data.drop is.pos = bs ++ rest) :
    is.read bs.length = (some bs, { is with pos := is.pos + bs.length }) ∧
      is.data.drop (is.pos + bs.length) = rest := by
  have hlen : is.pos + bs.length ≤ is.data.length := by
    have h1 := congrArg List.length h
    simp only [List.length_drop, List.length_append] at h1
    omega
  refine ⟨?_, ?_⟩
  · simp only [IStream.read, hlen, if_true, h]
    simp
  · rw [← List.drop_drop, h]
    simp


/-! ## Writing the table and reading it back -/

/-- The row loop of `writeTo` appends the encodings of the row. -/
theorem writeRow_eq : ∀ (r : List Int) (os : OStream),
    r.foldl Xdr.writeInt64 os
      = { os with data := os.data ++ r.flatMap (fun v => encodeLE 8 (toUnsigned 64 v)) } := by
  intro r
  induction r with
  | nil => intro os; simp
  | cons v vs ih =>
    intro os
    simp only [List.foldl_cons, ih, Xdr.writeInt64, List.flatMap_cons, List.append_assoc]

/-- The grid loop of `writeTo` appends the encodings of the grid, row by row. -/
theorem writeGrid_eq : ∀ (g : List (List Int)) (os : OStream),
    g.foldl (fun os2 r => r.foldl Xdr.writeInt64 os2) os
      = { os with data := os.data ++ g.flatten.flatMap (fun v => encodeLE 8 (toUnsigned 64 v)) } := by
  intro g
  induction g with
  | nil => intro os; simp
  | cons r rs ih =>
    intro os
    rw [List.foldl_cons, writeRow_eq, ih]
    simp only [List.flatten_cons, List.flatMap_append, List.append_assoc]

/-- The loops of `writeTo` append the encodings of all offsets in canonical order. -/
theorem writeLevels_eq : ∀ (offs : List (List (List Int))) (os : OStream),
    offs.foldl (fun os1 g => g.foldl (fun os2 r => r.foldl Xdr.writeInt64 os2) os1) os
      = { os with data :=
            os.data ++ offs.flatten.flatten.flatMap (fun v => encodeLE 8 (toUnsigned 64 v)) } := by
  intro offs
  induction offs with
  | nil => intro os; simp
  | cons g gs ih =>
    intro os
    rw [List.foldl_cons, writeGrid_eq, ih]
    simp only [List.flatten_cons, List.flatten_append, List.flatMap_append, List.append_assoc]

/-- The result of `writeTo` on a stream that reports its position. -/
theorem writeTo_eq (t : TileOffsets) (os : OStream) (h : os.canTell = true) :
    t.writeTo os =
      ({ os with data := os.data ++ t.flat.flatMap (fun v => encodeLE 8 (toUnsigned 64 v)) },
        .ok (os.data.length : Int)) := by
  have hp : os.tellp = (os.data.length : Int) := by simp [OStream.tellp, h]
  have hne : ¬ ((os.data.length : Int) = -1) := by omega
  simp only [TileOffsets.writeTo, hp, hne, if_false, writeLevels_eq]
  rfl

/-- A 64-bit read of an encoded in-range value. -/
theorem readInt64_of_drop (is : IStream) (v : Int) (rest : List Nat)
    (h1 : -(2 : Int) ^ 63 ≤ v) (h2 : v < (2 : Int) ^ 63)
    (h : is.data.drop is.pos = encodeLE 8 (toUnsigned 64 v) ++ rest) :
    Xdr.readInt64 is = (some v, { is with pos := is.pos + 8 }) ∧
      is.data.drop (is.pos + 8) = rest := by
  have hl := length_encodeLE 8 (toUnsigned 64 v)
  obtain ⟨r1, r2⟩ := read_of_drop is _ rest (by rw [hl]; decide) h
  rw [hl] at r1 r2
  refine ⟨?_, r2⟩
  simp only [Xdr.readInt64, r1, roundtrip64 v h1 h2]

/-- The row loop of the stream `readFrom` on encoded in-range values. -/
theorem readRow_spec : ∀ (vals r : List Int) (is : IStream) (rest : List Nat),
    r.length = vals.length →
    (∀ v ∈ vals, -(2 : Int) ^ 63 ≤ v ∧ v < (2 : Int) ^ 63) →
    is.data.drop is.pos = vals.flatMap (fun v => encodeLE 8 (toUnsigned 64 v)) ++ rest →
    readRow r is = (vals, { is with pos := is.pos + 8 * vals.length }, true) ∧
      is.data.drop (is.pos + 8 * vals.length) = rest := by
  intro vals
  induction vals with
  | nil =>
    intro r is rest hr _ h
    have : r = [] := List.length_eq_zero.mp (by simpa using hr)
    subst this
    simpa [readRow] using h
  | cons v vs ih =>
    intro r is rest hr hv h
    cases r with
    | nil => simp at hr
    | cons o os =>
      simp only [List.flatMap_cons, List.append_assoc] at h
      obtain ⟨hv1, hv2⟩ := hv v (List.mem_cons_self _ _)
      obtain ⟨a1, a2⟩ := readInt64_of_drop is v _ hv1 hv2 h
      obtain ⟨b1, b2⟩ := ih os { is with pos := is.pos + 8 } rest (by simpa using hr)
        (fun x hx => hv x (List.mem_cons_of_mem _ hx)) a2
      simp only [readRow, a1, b1, List.length_cons]
      simp only at b2
      refine ⟨?_, ?_⟩
      · congr 3; omega
      · rw [← b2]; congr 1; omega

/-- The grid loop of the stream `readFrom` on encoded in-range values. -/
theorem readGrid_spec : ∀ (g g2 : List (List Int)) (is : IStream) (rest : List Nat),
    g2.map List.length = g.map List.length →
    (∀ v ∈ g.flatten, -(2 : Int) ^ 63 ≤ v ∧ v < (2 : Int) ^ 63) →
    is.data.drop is.pos = g.flatten.flatMap (fun v => encodeLE 8 (toUnsigned 64 v)) ++ rest →
    readGrid g2 is = (g, { is with pos := is.pos + 8 * g.flatten.length }, true) ∧
      is.data.drop (is.pos + 8 * g.flatten.length) = rest := by
  intro g
  induction g with
  | nil =>
    intro g2 is rest hg _ h
    have : g2 = [] := by simpa using hg
    subst this
    simpa [readGrid] using h
  | cons r rs ih =>
    intro g2 is rest hg hv h
    cases g2 with
    | nil => simp at hg
    | cons r2 rs2 =>
      simp only [List.map_cons, List.cons.injEq] at hg
      simp only [List.flatten_cons, List.flatMap_append, List.append_assoc] at h
      obtain ⟨a1, a2⟩ := readRow_spec r r2 is _ hg.1
        (fun x hx => hv x (by simp [hx])) h
      obtain ⟨b1, b2⟩ := ih rs2 { is with pos := is.pos + 8 * r.length } rest hg.2
        (fun x hx => hv x (by
          simp only [List.flatten_cons, List.mem_append]; exact Or.inr hx)) a2
      simp only [readGrid, a1, b1, List.flatten_cons, List.length_append]
      simp only at b2
      refine ⟨?_, ?_⟩
      · congr 3; omega
      · rw [← b2]; congr 1; omega

/-- The level loop of the stream `readFrom` on encoded in-range values. -/
theorem readLevels_spec : ∀ (offs offs2 : List (List (List Int))) (is : IStream) (rest : List Nat),
    offs2.map (fun g => g.map List.length) = offs.map (fun g => g.map List.length) →
    (∀ v ∈ offs.flatten.flatten, -(2 : Int) ^ 63 ≤ v ∧ v < (2 : Int) ^ 63) →
    is.data.drop is.pos
      = offs.flatten.flatten.flatMap (fun v => encodeLE 8 (toUnsigned 64 v)) ++ rest →
    readLevels offs2 is
        = (offs, { is with pos := is.pos + 8 * offs.flatten.flatten.length }, true) ∧
      is.data.drop (is.pos + 8 * offs.flatten.flatten.length) = rest := by
  intro offs
  induction offs with
  | nil =>
    intro offs2 is rest hg _ h
    have : offs2 = [] := by simpa using hg
    subst this
    simpa [readLevels] using h
  | cons g gs ih =>
    intro offs2 is rest hg hv h
    cases offs2 with
    | nil => simp at hg
    | cons g2 gs2 =>
      simp only [List.map_cons, List.cons.injEq] at hg
      simp only [List.flatten_cons, List.flatten_append, List.flatMap_append,
        List.append_assoc] at h
      obtain ⟨a1, a2⟩ := readGrid_spec g g2 is _ hg.1
        (fun x hx => hv x (by
          simp only [List.flatten_cons, List.flatten_append, List.mem_append]
          exact Or.inl hx)) h
      obtain ⟨b1, b2⟩ := ih gs2 { is with pos := is.pos + 8 * g.flatten.length } rest hg.2
        (fun x hx => hv x (by
          simp only [List.flatten_cons, List.flatten_append, List.mem_append]
          exact Or.inr hx)) a2
      simp only [readLevels, a1, b1, List.flatten_cons, List.flatten_append, List.length_append]
      simp only at b2
      refine ⟨?_, ?_⟩
      · congr 3; omega
      · rw [← b2]; congr 1; omega


/-! ## The scanner keeps the bytes of the stream and stays inside the table -/

/-- A read does not change the bytes of the stream. -/
theorem read_data (is : IStream) (n : Nat) : (is.read n).2.data = is.data := by
  unfold IStream.read
  split <;> rfl

/-- A 32-bit read does not change the bytes of the stream. -/
theorem readInt_data (is : IStream) : (Xdr.readInt is).2.data = is.data := by
  have h := read_data is 4
  unfold Xdr.readInt
  rcases hr : is.read 4 with ⟨_ | bs, is'⟩ <;> simp only [hr] at h ⊢ <;> exact h

/-- A 64-bit read does not change the bytes of the stream. -/
theorem readInt64_data (is : IStream) : (Xdr.readInt64 is).2.data = is.data := by
  have h := read_data is 8
  unfold Xdr.readInt64
  rcases hr : is.read 8 with ⟨_ | bs, is'⟩ <;> simp only [hr] at h ⊢ <;> exact h

/-- A skip does not change the bytes of the stream. -/
theorem skip_data (is : IStream) (n : Int) : (Xdr.skip is n).2.data = is.data := by
  unfold Xdr.skip
  split
  · rfl
  · have h := read_data is n.toNat
    rcases hr : is.read n.toNat with ⟨_ | bs, is'⟩ <;> simp only [hr] at h ⊢ <;> exact h

/-- Skipping a payload does not change the bytes of the stream. -/
theorem skipPayload_data (is : IStream) (isDeep : Bool) :
    (skipPayload is isDeep).2.data = is.data := by
  unfold skipPayload
  cases isDeep with
  | true =>
    simp only [if_true]
    have h1 := readInt64_data is
    rcases hr1 : Xdr.readInt64 is with ⟨_ | a, is1⟩ <;> simp only [hr1] at h1 ⊢
    · exact h1
    · have h2 := readInt64_data is1
      rcases hr2 : Xdr.readInt64 is1 with ⟨_ | b, is2⟩ <;> simp only [hr2] at h2 ⊢
      · rw [h2, h1]
      · rw [skip_data, h2, h1]
  | false =>
    simp only [Bool.false_eq_true, if_false]
    have h1 := readInt_data is
    rcases hr1 : Xdr.readInt is with ⟨_ | a, is1⟩ <;> simp only [hr1] at h1 ⊢
    · exact h1
    · rw [skip_data, h1]

/-- Reading a chunk does not change the bytes of the stream. -/
theorem readChunk_data (is : IStream) (isMultiPartFile isDeep : Bool) :
    (readChunk is isMultiPartFile isDeep).2.data = is.data := by
  unfold readChunk
  have h0 : (if isMultiPartFile then Xdr.readInt is else (some 0, is)).2.data = is.data := by
    split
    · exact readInt_data is
    · rfl
  rcases hr0 : (if isMultiPartFile then Xdr.readInt is else (some 0, is)) with ⟨_ | p, is0⟩ <;>
    simp only [hr0] at h0 ⊢
  · exact h0
  have h1 := readInt_data is0
  rcases hr1 : Xdr.readInt is0 with ⟨_ | a, is1⟩ <;> simp only [hr1] at h1 ⊢
  · rw [h1, h0]
  have h2 := readInt_data is1
  rcases hr2 : Xdr.readInt is1 with ⟨_ | b, is2⟩ <;> simp only [hr2] at h2 ⊢
  · rw [h2, h1, h0]
  have h3 := readInt_data is2
  rcases hr3 : Xdr.readInt is2 with ⟨_ | c, is3⟩ <;> simp only [hr3] at h3 ⊢
  · rw [h3, h2, h1, h0]
  have h4 := readInt_data is3
  rcases hr4 : Xdr.readInt is3 with ⟨_ | d, is4⟩ <;> simp only [hr4] at h4 ⊢
  · rw [h4, h3, h2, h1, h0]
  have h5 := skipPayload_data is4 isDeep
  rcases hr5 : skipPayload is4 isDeep with ⟨_ | _, is5⟩ <;> simp only [hr5] at h5 ⊢ <;>
    rw [h5, h4, h3, h2, h1, h0]

/-- An iteration of the scanner keeps the bytes of the stream and never
indexes outside the table. -/
theorem findTilesBody_safe (t : TileOffsets) (is : IStream)
    (isMultiPartFile isDeep skipOnly : Bool) :
    (findTilesBody t is isMultiPartFile isDeep skipOnly).2.1.data = is.data ∧
      (findTilesBody t is isMultiPartFile isDeep skipOnly).2.2 ≠ .undefined := by
  have hd := readChunk_data is isMultiPartFile isDeep
  unfold findTilesBody
  rcases hr : readChunk is isMultiPartFile isDeep with ⟨_ | ⟨tx, ty, lx, ly⟩, is'⟩ <;>
    simp only [hr] at hd ⊢
  · exact ⟨hd, by simp⟩
  · by_cases hs : skipOnly = true
    · simp only [hs, if_true]
      exact ⟨hd, by simp⟩
    · simp only [hs, Bool.false_eq_true, if_false]
      by_cases hv : t.isValidTile tx ty lx ly = true
      · obtain ⟨-, -, -, -, -, s, hsl⟩ := (isValidTile_iff t tx ty lx ly).mp hv
        unfold TileOffsets.slotAt at hsl
        simp only [hv, Bool.not_true, Bool.false_eq_true, if_false]
        cases ha : t.address tx ty lx ly with
        | error e => simp [ha] at hsl
        | ok i =>
          simp only [ha] at hsl
          simp only [hsl]
          exact ⟨hd, by simp⟩
      · have hv' : t.isValidTile tx ty lx ly = false := by simpa using hv
        simp only [hv', Bool.not_false, if_true]
        exact ⟨hd, by simp⟩

/-- The scanning loop keeps the bytes of the stream and never indexes
outside the table. -/
theorem findTilesLoop_safe (isMultiPartFile isDeep skipOnly : Bool) :
    ∀ (n : Nat) (t : TileOffsets) (is : IStream),
      (findTilesLoop isMultiPartFile isDeep skipOnly n t is).2.1.data = is.data ∧
        (findTilesLoop isMultiPartFile isDeep skipOnly n t is).2.2 ≠ .undefined := by
  intro n
  induction n with
  | zero => intro t is; simp [findTilesLoop]
  | succ n ih =>
    intro t is
    obtain ⟨hd, hu⟩ := findTilesBody_safe t is isMultiPartFile isDeep skipOnly
    unfold findTilesLoop
    rcases hb : findTilesBody t is isMultiPartFile isDeep skipOnly with ⟨t', is', st⟩
    simp only [hb] at hd hu
    cases st with
    | next =>
      simp only
      obtain ⟨h1, h2⟩ := ih t' is'
      exact ⟨by rw [h1, hd], h2⟩
    | ret => exact ⟨hd, by simp⟩
    | threw e => exact ⟨hd, by simp⟩
    | undefined => exact absurd rfl hu

/-- The recovery returns normally with the table that the scan left, and
with the stream cleared and back at its position. -/
theorem reconstructFromFile_eq (t : TileOffsets) (is : IStream) (isMultiPart isDeep : Bool) :
    t.reconstructFromFile is isMultiPart isDeep
      = ((t.findTiles is isMultiPart isDeep false).1,
          { data := is.data, pos := is.pos, failed := false }, .returned) := by
  obtain ⟨hd, hu⟩ := findTilesLoop_safe isMultiPart isDeep false t.totalSize t is
  unfold TileOffsets.reconstructFromFile TileOffsets.findTiles
  rcases hf : findTilesLoop isMultiPart isDeep false t.totalSize t is with ⟨t', is', o⟩
  simp only [hf] at hd hu
  cases o with
  | undefined => exact absurd rfl hu
  | returned => simp [IStream.clear, IStream.seekg, IStream.tellg, hd]
  | threw e => simp [IStream.clear, IStream.seekg, IStream.tellg, hd]


/-! ## Stores into the table -/

/-- Storing back the element that is there changes nothing. -/
theorem set_getD_length {α : Type} (L : List (List α)) (i : Nat) (r : List α)
    (h : r.length = (L.getD i []).length) :
    (L.set i r).map List.length = L.map List.length := by
  apply List.ext_getElem
  · simp
  · intro j h1 h2
    simp only [List.length_map, List.length_set] at h1
    simp only [List.getElem_map, List.getElem_set]
    split
    · rename_i hij
      subst hij
      rw [h, List.getD_eq_getElem?_getD, List.getElem?_eq_getElem h1]
      rfl
    · rfl

/-- A store keeps the shape of the table. -/
theorem shape_set (t : TileOffsets) (s : Slot) (v : Int) : (t.set s v).shape = t.shape := by
  unfold TileOffsets.shape TileOffsets.set
  simp only
  apply List.ext_getElem
  · simp
  · intro j h1 h2
    simp only [List.length_map, List.length_set] at h1
    simp only [List.getElem_map, List.getElem_set]
    split
    · rename_i hij
      subst hij
      have e : t._offsets.getD s.1 [] = t._offsets[s.1] := by
        rw [List.getD_eq_getElem?_getD, List.getElem?_eq_getElem h1]; rfl
      rw [e]
      apply set_getD_length
      simp
    · rfl

/-- A store keeps the mode and the level counts. -/
theorem fields_set (t : TileOffsets) (s : Slot) (v : Int) :
    (t.set s v)._mode = t._mode ∧ (t.set s v)._numXLevels = t._numXLevels ∧
      (t.set s v)._numYLevels = t._numYLevels := ⟨rfl, rfl, rfl⟩

/-- A store keeps the slots. -/
theorem slots_set (t : TileOffsets) (s : Slot) (v : Int) : (t.set s v).slots = t.slots :=
  slots_eq_of_shape _ _ (shape_set t s v)

/-- Indexing a vector after a store at the same index. -/
theorem getD_set_same {α : Type} (L : List α) (i : Nat) (a d : α) (h : i < L.length) :
    (L.set i a).getD i d = a := by
  simp [List.getD_eq_getElem?_getD, List.getElem?_set, h]

/-- Indexing a vector after a store at another index. -/
theorem getD_set_other {α : Type} (L : List α) (i j : Nat) (a d : α) (h : i ≠ j) :
    (L.set i a).getD j d = L.getD j d := by
  simp [List.getD_eq_getElem?_getD, List.getElem?_set, h]

/-- A slot of the table holds what was stored in it. -/
theorem get_set_same (t : TileOffsets) (s : Slot) (v : Int) (hs : s ∈ t.slots) :
    (t.set s v).get s = v := by
  obtain ⟨h1, h2, h3⟩ := (mem_slots t s).mp hs
  unfold TileOffsets.get TileOffsets.set
  simp only
  rw [getD_set_same _ _ _ _ h1, getD_set_same _ _ _ _ h2, getD_set_same _ _ _ _ h3]

/-- A store leaves every other slot as it was. -/
theorem get_set_other (t : TileOffsets) (s s' : Slot) (v : Int) (h : s' ≠ s) :
    (t.set s v).get s' = t.get s' := by
  obtain ⟨l, dy, dx⟩ := s
  obtain ⟨l', dy', dx'⟩ := s'
  unfold TileOffsets.get TileOffsets.set
  simp only
  by_cases hl : l = l'
  · subst hl
    by_cases hlen : l < t._offsets.length
    · rw [getD_set_same _ _ _ _ hlen]
      by_cases hdy : dy = dy'
      · subst hdy
        have hdx : dx ≠ dx' := by
          intro e; subst e; exact h rfl
        by_cases hlen2 : dy < (t._offsets.getD l []).length
        · rw [getD_set_same _ _ _ _ hlen2, getD_set_other _ _ _ _ _ hdx]
        · rw [List.set_eq_of_length_le (by omega)]
      · rw [getD_set_other _ _ _ _ _ hdy]
    · rw [List.set_eq_of_length_le (by omega)]
  · rw [getD_set_other _ _ _ _ _ hl]

/-- The slot that `operator ()` resolves depends on the mode, the x-level
count and the shape only. -/
theorem slotAt_congr (t t' : TileOffsets) (hm : t'._mode = t._mode)
    (hx : t'._numXLevels = t._numXLevels) (hs : t'.shape = t.shape) (dx dy lx ly : Int) :
    t'.slotAt dx dy lx ly = t.slotAt dx dy lx ly := by
  have haddr : t'.address dx dy lx ly = t.address dx dy lx ly := by
    simp only [TileOffsets.address, hm, hx]
  have hslots := slots_eq_of_shape t' t hs
  have hof : ∀ i, t'.slotOf i = t.slotOf i := by
    intro i
    apply Option.ext
    intro s
    simp only [Option.mem_def]
    rw [slotOf_eq_some, slotOf_eq_some, hslots]
  simp only [TileOffsets.slotAt, haddr]
  cases t.address dx dy lx ly with
  | error e => rfl
  | ok i => exact hof i

/-- What `isValidTile` decides depends on the mode, the level counts and the
shape only. -/
theorem isValidTile_congr (t t' : TileOffsets) (hm : t'._mode = t._mode)
    (hx : t'._numXLevels = t._numXLevels) (hy : t'._numYLevels = t._numYLevels)
    (hs : t'.shape = t.shape) (dx dy lx ly : Int) :
    t'.isValidTile dx dy lx ly = t.isValidTile dx dy lx ly := by
  rw [Bool.eq_iff_iff, isValidTile_iff, isValidTile_iff, slotAt_congr t t' hm hx hs, hm, hx, hy]

/-- A store does not change what `isValidTile` accepts. -/
theorem isValidTile_set (t : TileOffsets) (s : Slot) (v : Int) (dx dy lx ly : Int) :
    (t.set s v).isValidTile dx dy lx ly = t.isValidTile dx dy lx ly :=
  isValidTile_congr t (t.set s v) rfl rfl rfl (shape_set t s v) dx dy lx ly

/-- A store does not change which slot a tuple addresses. -/
theorem slotAt_set (t : TileOffsets) (s : Slot) (v : Int) (dx dy lx ly : Int) :
    (t.set s v).slotAt dx dy lx ly = t.slotAt dx dy lx ly :=
  slotAt_congr t (t.set s v) rfl rfl (shape_set t s v) dx dy lx ly

/-- A slot that a tuple addresses is a slot of the table. -/
theorem slotAt_mem (t : TileOffsets) (dx dy lx ly : Int) (s : Slot)
    (h : t.slotAt dx dy lx ly = some s) : s ∈ t.slots :=
  (slotAt_eq_some t dx dy lx ly s h).2.2.2.2.1


/-! ## Scanning well-formed chunks -/

/-- A 32-bit read of an encoded in-range value. -/
theorem readInt_of_drop (is : IStream) (v : Int) (rest : List Nat) (hv : fits32 v)
    (h : is.data.drop is.pos = bytes32 v ++ rest) :
    Xdr.readInt is = (some v, { is with pos := is.pos + 4 }) ∧
      is.data.drop (is.pos + 4) = rest := by
  unfold bytes32 at h
  have hl := length_encodeLE 4 (toUnsigned 32 v)
  obtain ⟨r1, r2⟩ := read_of_drop is _ rest (by rw [hl]; decide) h
  rw [hl] at r1 r2
  refine ⟨?_, r2⟩
  simp only [Xdr.readInt, r1, roundtrip32 v hv.1 hv.2]

/-- A 64-bit read of an encoded in-range value, from `bytes64`. -/
theorem readInt64_of_bytes (is : IStream) (v : Int) (rest : List Nat)
    (h1 : -(2 : Int) ^ 63 ≤ v) (h2 : v < (2 : Int) ^ 63)
    (h : is.data.drop is.pos = bytes64 v ++ rest) :
    Xdr.readInt64 is = (some v, { is with pos := is.pos + 8 }) ∧
      is.data.drop (is.pos + 8) = rest :=
  readInt64_of_drop is v rest h1 h2 h

/-- A skip over bytes that are there advances past them. -/
theorem skip_of_drop (is : IStream) (payload rest : List Nat) (n : Int)
    (hn : n = (payload.length : Int)) (h : is.data.drop is.pos = payload ++ rest) :
    Xdr.skip is n = (true, { is with pos := is.pos + payload.length }) ∧
      is.data.drop (is.pos + payload.length) = rest := by
  subst hn
  by_cases h0 : payload.length = 0
  · have hp : payload = [] := List.length_eq_zero.mp h0
    subst hp
    simp only [Xdr.skip, List.length_nil, Nat.cast_zero, le_refl, if_true, Nat.add_zero]
    exact ⟨trivial, by simpa using h⟩
  · obtain ⟨r1, r2⟩ := read_of_drop is payload rest (by omega) h
    have hpos : ¬ ((payload.length : Int) ≤ 0) := by omega
    simp only [Xdr.skip, hpos, if_false, Int.toNat_natCast, r1]
    exact ⟨trivial, r2⟩

/-- The 64-bit sum of the deep sizes of a well-formed chunk is the payload length. -/
theorem wrap64_small (v : Int) (h0 : 0 ≤ v) (h1 : v < (2 : Int) ^ 31) : wrap64 v = v := by
  unfold wrap64
  have h := roundtrip64 v (by have : (0 : Int) < 2 ^ 63 := by positivity
                              omega) (by norm_num at h1 ⊢; omega)
  rw [decodeLE_encodeLE] at h
  have e : (256 : Nat) ^ 8 = 2 ^ 64 := by norm_num
  rw [e] at h
  have hm : toSigned 64 (toUnsigned 64 v % 2 ^ 64) = toSigned 64 (toUnsigned 64 v) := by
    unfold toSigned
    simp only [Nat.mod_mod]
  rw [← hm]
  exact h

/-- The size fields and the payload of a well-formed chunk are read and skipped. -/
theorem skipPayload_of_drop (is : IStream) (c : Chunk) (isDeep : Bool) (rest : List Nat)
    (hwf : c.wellFormed isDeep)
    (h : is.data.drop is.pos =
      (if isDeep then bytes64 c.packedOffsetTableSize ++ bytes64 c.packedSampleSize
        else bytes32 (c.payload.length : Int)) ++ c.payload ++ rest) :
    skipPayload is isDeep
        = (true, { is with pos := is.pos + (if isDeep then 16 else 4) + c.payload.length }) ∧
      is.data.drop (is.pos + (if isDeep then 16 else 4) + c.payload.length) = rest := by
  obtain ⟨-, -, -, -, -, hlen, hdeep⟩ := hwf
  cases isDeep with
  | true =>
    obtain ⟨ha, hb, hsum⟩ := hdeep rfl
    simp only [if_true, List.append_assoc] at h ⊢
    have hbig : (2 : Int) ^ 31 < 2 ^ 63 := by norm_num
    obtain ⟨a1, a2⟩ := readInt64_of_bytes is c.packedOffsetTableSize _
      (by have : (0 : Int) < 2 ^ 63 := by positivity
          omega) (by omega) h
    obtain ⟨b1, b2⟩ := readInt64_of_bytes { is with pos := is.pos + 8 } c.packedSampleSize _
      (by have : (0 : Int) < 2 ^ 63 := by positivity
          omega) (by omega) a2
    have hw : wrap64 (c.packedOffsetTableSize + c.packedSampleSize + 8) = (c.payload.length : Int) := by
      rw [hsum]; exact wrap64_small _ (by positivity) hlen
    obtain ⟨s1, s2⟩ := skip_of_drop { is with pos := is.pos + 8 + 8 } c.payload rest _ hw b2
    simp only [skipPayload, if_true, a1, b1, s1]
    simp only at s2
    exact ⟨by simp [Nat.add_assoc], by rw [← s2]⟩
  | false =>
    simp only [Bool.false_eq_true, if_false, List.append_assoc] at h ⊢
    obtain ⟨a1, a2⟩ := readInt_of_drop is (c.payload.length : Int) _
      ⟨by have : (0 : Int) < 2 ^ 31 := by positivity
          have : (0 : Int) ≤ (c.payload.length : Int) := by positivity
          omega, hlen⟩ h
    obtain ⟨s1, s2⟩ := skip_of_drop { is with pos := is.pos + 4 } c.payload rest _ rfl a2
    simp only [skipPayload, Bool.false_eq_true, if_false, a1, s1]
    exact ⟨trivial, s2⟩

/-- Length of the encoded coordinates. -/
theorem length_encodeCoords (mp : Bool) (p x y lx ly : Int) :
    (encodeCoords mp p x y lx ly).length = (if mp then 4 else 0) + 16 := by
  cases mp <;> simp [encodeCoords, bytes32, length_encodeLE]

/-- Length of an encoded chunk. -/
theorem length_encode (c : Chunk) (mp deep : Bool) :
    (c.encode mp deep).length = headerLength mp deep + c.payload.length := by
  cases deep <;>
    simp [Chunk.encode, length_encodeCoords, headerLength, bytes32, bytes64, length_encodeLE] <;>
    omega

/-- The coordinates of a header whose fields are there are read back. -/
theorem readCoords_of_drop (is : IStream) (mp : Bool) (p x y lx ly : Int) (rest : List Nat)
    (hp : fits32 p) (hx : fits32 x) (hy : fits32 y) (hlx : fits32 lx) (hly : fits32 ly)
    (h : is.data.drop is.pos = encodeCoords mp p x y lx ly ++ rest) (isDeep : Bool) :
    readChunk is mp isDeep =
      (match skipPayload { is with pos := is.pos + ((if mp then 4 else 0) + 16) } isDeep with
        | (false, is5) => (none, is5)
        | (true, is5) => (some (x, y, lx, ly), is5)) ∧
      is.data.drop (is.pos + ((if mp then 4 else 0) + 16)) = rest := by
  unfold encodeCoords at h
  simp only [List.append_assoc] at h
  cases mp with
  | true =>
    simp only [if_true] at h ⊢
    obtain ⟨a0, b0⟩ := readInt_of_drop is p _ hp h
    obtain ⟨a1, b1⟩ := readInt_of_drop { is with pos := is.pos + 4 } x _ hx b0
    obtain ⟨a2, b2⟩ := readInt_of_drop { is with pos := is.pos + 4 + 4 } y _ hy b1
    obtain ⟨a3, b3⟩ := readInt_of_drop { is with pos := is.pos + 4 + 4 + 4 } lx _ hlx b2
    obtain ⟨a4, b4⟩ := readInt_of_drop { is with pos := is.pos + 4 + 4 + 4 + 4 } ly _ hly b3
    simp only [readChunk, if_true, a0, a1, a2, a3, a4]
    simp only at b4
    have e : is.pos + 4 + 4 + 4 + 4 + 4 = is.pos + (4 + 16) := by omega
    rw [e] at b4 ⊢
    refine ⟨?_, b4⟩
    first
      | rfl
      | trivial
  | false =>
    simp only [Bool.false_eq_true, if_false, List.nil_append] at h ⊢
    obtain ⟨a1, b1⟩ := readInt_of_drop is x _ hx h
    obtain ⟨a2, b2⟩ := readInt_of_drop { is with pos := is.pos + 4 } y _ hy b1
    obtain ⟨a3, b3⟩ := readInt_of_drop { is with pos := is.pos + 4 + 4 } lx _ hlx b2
    obtain ⟨a4, b4⟩ := readInt_of_drop { is with pos := is.pos + 4 + 4 + 4 } ly _ hly b3
    simp only [readChunk, Bool.false_eq_true, if_false, a1, a2, a3, a4]
    simp only at b4
    have e : is.pos + 4 + 4 + 4 + 4 = is.pos + (0 + 16) := by omega
    rw [e] at b4 ⊢
    refine ⟨?_, b4⟩
    first
      | rfl
      | trivial

/-- A well-formed chunk is read whole: its coordinates are returned and the
stream is just behind it. -/
theorem readChunk_of_drop (is : IStream) (c : Chunk) (mp deep : Bool) (rest : List Nat)
    (hwf : c.wellFormed deep) (h : is.data.drop is.pos = c.encode mp deep ++ rest) :
    readChunk is mp deep
        = (some (c.tileX, c.tileY, c.levelX, c.levelY),
            { is with pos := is.pos + (c.encode mp deep).length }) ∧
      is.data.drop (is.pos + (c.encode mp deep).length) = rest := by
  unfold Chunk.encode at h
  simp only [List.append_assoc] at h
  obtain ⟨r1, r2⟩ := readCoords_of_drop is mp c.partNumber c.tileX c.tileY c.levelX c.levelY _
    hwf.1 hwf.2.1 hwf.2.2.1 hwf.2.2.2.1 hwf.2.2.2.2.1 h deep
  obtain ⟨s1, s2⟩ := skipPayload_of_drop
    { is with pos := is.pos + ((if mp then 4 else 0) + 16) } c deep rest hwf
    (by simpa only [List.append_assoc] using r2)
  rw [r1, s1]
  simp only at s2 ⊢
  have e : is.pos + ((if mp then 4 else 0) + 16) + (if deep then 16 else 4) + c.payload.length
      = is.pos + (c.encode mp deep).length := by
    rw [length_encode]; unfold headerLength; omega
  rw [e] at s2 ⊢
  exact ⟨rfl, s2⟩


/-! ## Truncated and rejected headers -/

/-- A read that succeeds had its bytes and only moved the position. -/
theorem read_some (is is' : IStream) (n : Nat) (bs : List Nat)
    (h : is.read n = (some bs, is')) :
    is.pos + n ≤ is.data.length ∧ is'.pos = is.pos + n ∧ is'.data = is.data := by
  unfold IStream.read at h
  split at h
  · rename_i hle
    simp only [Prod.mk.injEq, Option.some.injEq] at h
    obtain ⟨-, rfl⟩ := h
    exact ⟨hle, rfl, rfl⟩
  · simp at h

/-- A 32-bit read that succeeds had 4 bytes. -/
theorem readInt_some (is is' : IStream) (v : Int) (h : Xdr.readInt is = (some v, is')) :
    is.pos + 4 ≤ is.data.length ∧ is'.pos = is.pos + 4 ∧ is'.data = is.data := by
  unfold Xdr.readInt at h
  rcases hr : is.read 4 with ⟨_ | bs, is1⟩ <;> simp only [hr] at h
  · simp at h
  · simp only [Prod.mk.injEq] at h
    obtain ⟨-, rfl⟩ := h
    exact read_some is is1 4 bs hr

/-- A 64-bit read that succeeds had 8 bytes. -/
theorem readInt64_some (is is' : IStream) (v : Int) (h : Xdr.readInt64 is = (some v, is')) :
    is.pos + 8 ≤ is.data.length ∧ is'.pos = is.pos + 8 ∧ is'.data = is.data := by
  unfold Xdr.readInt64 at h
  rcases hr : is.read 8 with ⟨_ | bs, is1⟩ <;> simp only [hr] at h
  · simp at h
  · simp only [Prod.mk.injEq] at h
    obtain ⟨-, rfl⟩ := h
    exact read_some is is1 8 bs hr

/-- Skipping a payload succeeds only when the size fields were there. -/
theorem skipPayload_true (is is' : IStream) (isDeep : Bool)
    (h : skipPayload is isDeep = (true, is')) :
    is.pos + (if isDeep then 16 else 4) ≤ is.data.length := by
  unfold skipPayload at h
  cases isDeep with
  | true =>
    simp only [if_true] at h ⊢
    rcases hr1 : Xdr.readInt64 is with ⟨_ | a, is1⟩ <;> simp only [hr1] at h
    · simp at h
    rcases hr2 : Xdr.readInt64 is1 with ⟨_ | b, is2⟩ <;> simp only [hr2] at h
    · simp at h
    obtain ⟨a1, a2, a3⟩ := readInt64_some is is1 a hr1
    obtain ⟨b1, b2, b3⟩ := readInt64_some is1 is2 b hr2
    rw [a3, a2] at b1
    omega
  | false =>
    simp only [Bool.false_eq_true, if_false] at h ⊢
    rcases hr1 : Xdr.readInt is with ⟨_ | a, is1⟩ <;> simp only [hr1] at h
    · simp at h
    exact (readInt_some is is1 a hr1).1

/-- A header that is cut short makes the scan of the chunk fail. -/
theorem readChunk_short (is : IStream) (mp deep : Bool)
    (h : (is.data.drop is.pos).length < headerLength mp deep) :
    (readChunk is mp deep).1 = none := by
  simp only [List.length_drop, headerLength] at h
  unfold readChunk
  have h0 : ∀ p is0, (if mp then Xdr.readInt is else (some 0, is)) = (some p, is0) →
      is0.pos = is.pos + (if mp then 4 else 0) ∧ is0.data = is.data ∧
        is.pos + (if mp then 4 else 0) ≤ is.data.length ∨ is.data.length < is.pos := by
    intro p is0 hh
    cases mp with
    | true =>
      simp only [if_true] at hh ⊢
      obtain ⟨a1, a2, a3⟩ := readInt_some is is0 p hh
      exact Or.inl ⟨a2, a3, a1⟩
    | false =>
      simp only [Bool.false_eq_true, if_false, Prod.mk.injEq] at hh ⊢
      obtain ⟨-, rfl⟩ := hh
      by_cases hc : is.pos ≤ is.data.length
      · exact Or.inl ⟨rfl, rfl, by omega⟩
      · exact Or.inr (by omega)
  rcases hr0 : (if mp then Xdr.readInt is else (some 0, is)) with ⟨_ | p, is0⟩ <;> simp only [hr0]
  have k0 := h0 p is0 hr0
  rcases hr1 : Xdr.readInt is0 with ⟨_ | a, is1⟩ <;> simp only [hr1]
  obtain ⟨a1, a2, a3⟩ := readInt_some is0 is1 a hr1
  rcases hr2 : Xdr.readInt is1 with ⟨_ | b, is2⟩ <;> simp only [hr2]
  obtain ⟨b1, b2, b3⟩ := readInt_some is1 is2 b hr2
  rcases hr3 : Xdr.readInt is2 with ⟨_ | c, is3⟩ <;> simp only [hr3]
  obtain ⟨c1, c2, c3⟩ := readInt_some is2 is3 c hr3
  rcases hr4 : Xdr.readInt is3 with ⟨_ | d, is4⟩ <;> simp only [hr4]
  obtain ⟨d1, d2, d3⟩ := readInt_some is3 is4 d hr4
  rcases hr5 : skipPayload is4 deep with ⟨_ | _, is5⟩ <;> simp only [hr5]
  have e1 := skipPayload_true is4 is5 deep hr5
  exfalso
  rw [d3, c3, b3, a3] at e1
  rw [c3, b3, a3] at d1
  rw [b3, a3] at c1
  rw [a3] at b1
  rcases k0 with ⟨k1, k2, k3⟩ | k1
  · rw [k2] at e1 d1 c1 b1 a1
    omega
  · cases mp with
    | true =>
      simp only [if_true] at hr0
      have := (readInt_some is is0 p hr0).1
      omega
    | false =>
      simp only [Bool.false_eq_true, if_false, Prod.mk.injEq] at hr0
      obtain ⟨-, rfl⟩ := hr0
      omega

/-- An iteration whose chunk scan fails throws and stores nothing. -/
theorem findTilesBody_none (t : TileOffsets) (is : IStream) (mp deep : Bool)
    (h : (readChunk is mp deep).1 = none) :
    ∃ is', findTilesBody t is mp deep false = (t, is', .threw .InputExc) := by
  unfold findTilesBody
  rcases hr : readChunk is mp deep with ⟨_ | ⟨tx, ty, lx, ly⟩, is'⟩
  · exact ⟨is', rfl⟩
  · rw [hr] at h; simp at h

/-- An iteration whose header is rejected returns and stores nothing. -/
theorem findTilesBody_rejected (t : TileOffsets) (is is' : IStream) (mp deep : Bool)
    (tx ty lx ly : Int) (h : readChunk is mp deep = (some (tx, ty, lx, ly), is'))
    (hv : t.isValidTile tx ty lx ly = false) :
    findTilesBody t is mp deep false = (t, is', .ret) := by
  unfold findTilesBody
  simp only [h, hv, Bool.false_eq_true, if_false, Bool.not_false, if_true]

/-- An iteration over a chunk whose header addresses slot `s` stores the
start position of the chunk in `s` and goes on. -/
theorem findTilesBody_stored (t : TileOffsets) (is is' : IStream) (mp deep : Bool)
    (tx ty lx ly : Int) (s : Slot) (h : readChunk is mp deep = (some (tx, ty, lx, ly), is'))
    (hv : t.isValidTile tx ty lx ly = true) (hs : t.slotAt tx ty lx ly = some s) :
    findTilesBody t is mp deep false = (t.set s (is.pos : Int), is', .next) := by
  unfold TileOffsets.slotAt at hs
  unfold findTilesBody
  cases ha : t.address tx ty lx ly with
  | error e => simp [ha] at hs
  | ok i =>
    simp only [ha] at hs
    simp only [h, hv, Bool.false_eq_true, if_false, Bool.not_true, ha, hs, IStream.tellg]

/-- The scan of a run of well-formed, accepted chunks: the loop makes
exactly the stores of `storeChunks` and stands behind the run. -/
theorem findTilesLoop_chunks (mp deep : Bool) :
    ∀ (chunks : List Chunk) (n : Nat) (t : TileOffsets) (is : IStream) (rest : List Nat),
      (∀ c ∈ chunks, c.wellFormed deep ∧
        t.isValidTile c.tileX c.tileY c.levelX c.levelY = true) →
      is.data.drop is.pos = chunks.flatMap (fun c => c.encode mp deep) ++ rest →
      findTilesLoop mp deep false (chunks.length + n) t is
        = findTilesLoop mp deep false n (storeChunks mp deep t is.pos chunks)
            { is with pos := is.pos + (chunks.flatMap (fun c => c.encode mp deep)).length } := by
  intro chunks
  induction chunks with
  | nil => intro n t is rest _ _; simp [storeChunks]
  | cons c cs ih =>
    intro n t is rest hc h
    obtain ⟨hwf, hv⟩ := hc c (List.mem_cons_self _ _)
    simp only [List.flatMap_cons, List.append_assoc] at h
    obtain ⟨r1, r2⟩ := readChunk_of_drop is c mp deep _ hwf h
    obtain ⟨-, -, -, -, -, s, hs⟩ := (isValidTile_iff t _ _ _ _).mp hv
    have hb := findTilesBody_stored t is _ mp deep _ _ _ _ s r1 hv hs
    have hlen : (c :: cs).length + n = (cs.length + n) + 1 := by simp; omega
    rw [hlen]
    simp only [findTilesLoop, hb]
    have hc' : ∀ c' ∈ cs, c'.wellFormed deep ∧
        (t.set s (is.pos : Int)).isValidTile c'.tileX c'.tileY c'.levelX c'.levelY = true := by
      intro c' hc'
      rw [isValidTile_set]
      exact hc c' (List.mem_cons_of_mem _ hc')
    rw [ih n (t.set s (is.pos : Int)) { is with pos := is.pos + (c.encode mp deep).length } rest
      hc' r2]
    simp only [storeChunks, Chunk.slot, hs, List.flatMap_cons, List.length_append, Nat.add_assoc]


/-! ## The table after a scan, and the fresh table -/

/-- The stores of a scan keep the mode, the level counts and the shape. -/
theorem storeChunks_frame (mp deep : Bool) : ∀ (chunks : List Chunk) (t : TileOffsets) (pos : Nat),
    (storeChunks mp deep t pos chunks)._mode = t._mode ∧
      (storeChunks mp deep t pos chunks)._numXLevels = t._numXLevels ∧
      (storeChunks mp deep t pos chunks)._numYLevels = t._numYLevels ∧
      (storeChunks mp deep t pos chunks).shape = t.shape := by
  intro chunks
  induction chunks with
  | nil => intro t pos; exact ⟨rfl, rfl, rfl, rfl⟩
  | cons c cs ih =>
    intro t pos
    unfold storeChunks
    cases hs : c.slot t with
    | none => exact ⟨rfl, rfl, rfl, rfl⟩
    | some s =>
      simp only
      obtain ⟨h1, h2, h3, h4⟩ := ih (t.set s (pos : Int)) (pos + (c.encode mp deep).length)
      exact ⟨h1, h2, h3, by rw [h4, shape_set]⟩

/-- The table after the stores of a scan over chunks that address pairwise
distinct slots: every chunk's slot holds the chunk's start position, and
every slot that no chunk addresses is as before. -/
theorem storeChunks_get (mp deep : Bool) : ∀ (chunks : List Chunk) (t : TileOffsets) (pos : Nat),
    (∀ c ∈ chunks, ∃ s, c.slot t = some s) →
    (chunks.map (fun c => c.slot t)).Nodup →
    (∀ s, (∀ c ∈ chunks, c.slot t ≠ some s) →
      (storeChunks mp deep t pos chunks).get s = t.get s) ∧
    (∀ (k : Nat) (c : Chunk), chunks[k]? = some c →
      ∃ s, c.slot t = some s ∧
        (storeChunks mp deep t pos chunks).get s
          = ((pos + ((chunks.take k).flatMap (fun c => c.encode mp deep)).length : Nat) : Int)) := by
  intro chunks
  induction chunks with
  | nil =>
    intro t pos _ _
    exact ⟨fun s _ => rfl, fun k c h => by simp at h⟩
  | cons c cs ih =>
    intro t pos hall hnd
    obtain ⟨s0, hs0⟩ := hall c (List.mem_cons_self _ _)
    have hslot : ∀ c' : Chunk, c'.slot (t.set s0 (pos : Int)) = c'.slot t := by
      intro c'
      exact slotAt_set t s0 _ _ _ _ _
    simp only [List.map_cons, List.nodup_cons, List.mem_map, not_exists, not_and] at hnd
    obtain ⟨hnot, hnd'⟩ := hnd
    have hall' : ∀ c' ∈ cs, ∃ s, c'.slot (t.set s0 (pos : Int)) = some s := by
      intro c' hc'
      rw [hslot]
      exact hall c' (List.mem_cons_of_mem _ hc')
    have hnd'' : (cs.map (fun c' => c'.slot (t.set s0 (pos : Int)))).Nodup := by
      simp only [hslot]; exact hnd'
    obtain ⟨i1, i2⟩ := ih (t.set s0 (pos : Int)) (pos + (c.encode mp deep).length) hall' hnd''
    have hunf : storeChunks mp deep t pos (c :: cs)
        = storeChunks mp deep (t.set s0 (pos : Int)) (pos + (c.encode mp deep).length) cs := by
      simp only [storeChunks, hs0]
    rw [hunf]
    have hmem0 : s0 ∈ t.slots := slotAt_mem t _ _ _ _ s0 hs0
    refine ⟨?_, ?_⟩
    · intro s hs
      have hne : s ≠ s0 := by
        intro e; subst e
        exact hs c (List.mem_cons_self _ _) hs0
      rw [i1 s (fun c' hc' => by rw [hslot]; exact hs c' (List.mem_cons_of_mem _ hc')),
        get_set_other t s0 s _ hne]
    · intro k c' hk
      cases k with
      | zero =>
        simp only [List.getElem?_cons_zero, Option.some.injEq] at hk
        subst hk
        refine ⟨s0, hs0, ?_⟩
        rw [i1 s0 (fun c' hc' => by
          rw [hslot]
          intro e
          exact hnot c' hc' (by rw [e, hs0])), get_set_same t s0 _ hmem0]
        simp
      | succ k =>
        simp only [List.getElem?_cons_succ] at hk
        obtain ⟨s, e1, e2⟩ := i2 k c' hk
        rw [hslot] at e1
        refine ⟨s, e1, ?_⟩
        rw [e2]
        simp only [List.take_succ_cons, List.flatMap_cons, List.length_append]
        push_cast
        ring

/-- A loop keeps what each of its iterations keeps. -/
theorem foldl_invariant {α β : Type} (P : α → Prop) (f : α → β → α)
    (hf : ∀ a b, P a → P (f a b)) : ∀ (l : List β) (a : α), P a → P (l.foldl f a) := by
  intro l
  induction l with
  | nil => intro a h; exact h
  | cons b bs ih => intro a h; exact ih (f a b) (hf a b h)

/-- Storing a fresh grid keeps all offsets zero. -/
theorem allZero_set_newGrid (offs : List (List (List Int))) (i : Nat) (rows cols : Int)
    (h : ∀ g ∈ offs, ∀ r ∈ g, ∀ x ∈ r, x = (0 : Int)) :
    ∀ g ∈ offs.set i (newGrid rows cols), ∀ r ∈ g, ∀ x ∈ r, x = (0 : Int) := by
  intro g hg r hr x hx
  rcases List.mem_or_eq_of_mem_set hg with hg' | rfl
  · exact h g hg' r hr x hx
  · unfold newGrid at hr
    have := List.eq_of_mem_replicate hr
    subst this
    exact List.eq_of_mem_replicate hx

/-- Every offset of a constructed table is zero. -/
theorem new_allZero (mode : LevelMode) (nx ny : Int) (xt yt : Nat → Int) (t : TileOffsets)
    (ht : TileOffsets.new mode nx ny xt yt = .ok t) :
    ∀ g ∈ t._offsets, ∀ r ∈ g, ∀ x ∈ r, x = (0 : Int) := by
  have hrep : ∀ n : Nat, ∀ g ∈ List.replicate n ([] : List (List Int)), ∀ r ∈ g, ∀ x ∈ r,
      x = (0 : Int) := by
    intro n g hg r hr
    have := List.eq_of_mem_replicate hg
    subst this
    simp at hr
  have hlev : ∀ offs : List (List (List Int)),
      (∀ g ∈ offs, ∀ r ∈ g, ∀ x ∈ r, x = (0 : Int)) →
      ∀ g ∈ ctorLevels xt yt offs, ∀ r ∈ g, ∀ x ∈ r, x = (0 : Int) := by
    intro offs h
    unfold ctorLevels
    exact foldl_invariant (fun o : List (List (List Int)) => ∀ g ∈ o, ∀ r ∈ g, ∀ x ∈ r, x = (0 : Int))
      _ (fun a b ha => allZero_set_newGrid a _ _ _ ha) _ _ h
  have hrip : ∀ offs : List (List (List Int)),
      (∀ g ∈ offs, ∀ r ∈ g, ∀ x ∈ r, x = (0 : Int)) →
      ∀ g ∈ ctorRip nx ny xt yt offs, ∀ r ∈ g, ∀ x ∈ r, x = (0 : Int) := by
    intro offs h
    unfold ctorRip
    refine foldl_invariant
      (fun o : List (List (List Int)) => ∀ g ∈ o, ∀ r ∈ g, ∀ x ∈ r, x = (0 : Int)) _ ?_ _ _ h
    intro a ly ha
    unfold ctorRipRow
    exact foldl_invariant (fun o : List (List (List Int)) => ∀ g ∈ o, ∀ r ∈ g, ∀ x ∈ r, x = (0 : Int))
      _ (fun a b ha => allZero_set_newGrid a _ _ _ ha) _ _ ha
  cases mode with
  | NUM_LEVELMODES => exact absurd ht (by simp [TileOffsets.new])
  | ONE_LEVEL =>
    simp only [TileOffsets.new, Except.ok.injEq] at ht
    subst ht
    exact hlev _ (hrep _)
  | MIPMAP_LEVELS =>
    simp only [TileOffsets.new, Except.ok.injEq] at ht
    subst ht
    exact hlev _ (hrep _)
  | RIPMAP_LEVELS =>
    simp only [TileOffsets.new, Except.ok.injEq] at ht
    subst ht
    exact hrip _ (hrep _)

/-- Indexing with a default gives a member or the default. -/
theorem getD_mem_or_default {α : Type} (L : List α) (i : Nat) (d : α) :
    L.getD i d ∈ L ∨ L.getD i d = d := by
  rw [List.getD_eq_getElem?_getD]
  by_cases h : i < L.length
  · left
    rw [List.getElem?_eq_getElem h]
    exact List.getElem_mem h
  · right
    rw [List.getElem?_eq_none (by omega)]
    rfl

/-- Every slot of a constructed table reads zero. -/
theorem new_get_zero (mode : LevelMode) (nx ny : Int) (xt yt : Nat → Int) (t : TileOffsets)
    (ht : TileOffsets.new mode nx ny xt yt = .ok t) (s : Slot) : t.get s = 0 := by
  have hz := new_allZero mode nx ny xt yt t ht
  unfold TileOffsets.get
  rcases getD_mem_or_default t._offsets s.1 [] with hg | hg
  · rcases getD_mem_or_default (t._offsets.getD s.1 []) s.2.1 [] with hr | hr
    · rcases getD_mem_or_default ((t._offsets.getD s.1 []).getD s.2.1 []) s.2.2 0 with hx | hx
      · exact hz _ hg _ hr _ hx
      · exact hx
    · rw [hr]; rfl
  · rw [hg]; rfl


/-! ## The stream `readFrom` on arbitrary bytes -/

/-- A read of bytes that the stream still has. -/
theorem read_ok (is : IStream) (n : Nat) (h : is.pos + n ≤ is.data.length) :
    is.read n = (some ((is.data.drop is.pos).take n), { is with pos := is.pos + n }) := by
  simp [IStream.read, h]

/-- A 64-bit read when 8 bytes are left. -/
theorem readInt64_ok (is : IStream) (h : is.pos + 8 ≤ is.data.length) :
    Xdr.readInt64 is
      = (some (toSigned 64 (decodeLE ((is.data.drop is.pos).take 8))),
          { is with pos := is.pos + 8 }) := by
  simp only [Xdr.readInt64, read_ok is 8 h]

/-- Decoding `a + b` values is decoding `a` values and then `b` more. -/
theorem decode64s_add : ∀ (a b : Nat) (bs : List Nat),
    decode64s (a + b) bs = decode64s a bs ++ decode64s b (bs.drop (8 * a)) := by
  intro a
  induction a with
  | zero => intro b bs; simp [decode64s]
  | succ a ih =>
    intro b bs
    rw [show a + 1 + b = (a + b) + 1 by omega]
    simp only [decode64s, ih, List.cons_append, List.drop_drop]
    rw [show 8 * (a + 1) = 8 + 8 * a by omega]

/-- The number of decoded values. -/
theorem length_decode64s : ∀ (n : Nat) (bs : List Nat), (decode64s n bs).length = n := by
  intro n
  induction n with
  | zero => intro bs; rfl
  | succ n ih => intro bs; simp [decode64s, ih]

/-- The row loop of the stream `readFrom` when the bytes are there. -/
theorem readRow_any : ∀ (r : List Int) (is : IStream),
    is.pos + 8 * r.length ≤ is.data.length →
    readRow r is
      = (decode64s r.length (is.data.drop is.pos), { is with pos := is.pos + 8 * r.length },
          true) := by
  intro r
  induction r with
  | nil => intro is _; simp [readRow, decode64s]
  | cons o os ih =>
    intro is h
    simp only [List.length_cons] at h
    have h8 : is.pos + 8 ≤ is.data.length := by omega
    have hi := ih { is with pos := is.pos + 8 } (by simp only; omega)
    simp only [readRow, readInt64_ok is h8, hi, List.length_cons, decode64s, List.drop_drop]
    refine Prod.ext rfl (Prod.ext ?_ rfl)
    simp only
    congr 1
    omega

/-- The grid loop of the stream `readFrom` when the bytes are there. -/
theorem readGrid_any : ∀ (g : List (List Int)) (is : IStream),
    is.pos + 8 * (g.map List.length).sum ≤ is.data.length →
    (readGrid g is).1.map List.length = g.map List.length ∧
      (readGrid g is).1.flatten = decode64s (g.map List.length).sum (is.data.drop is.pos) ∧
      (readGrid g is).2 = ({ is with pos := is.pos + 8 * (g.map List.length).sum }, true) := by
  intro g
  induction g with
  | nil => intro is _; simp [readGrid, decode64s]
  | cons r rs ih =>
    intro is h
    simp only [List.map_cons, List.sum_cons] at h
    have hr := readRow_any r is (by omega)
    obtain ⟨i1, i2, i3⟩ := ih { is with pos := is.pos + 8 * r.length } (by simp only; omega)
    simp only [readGrid, hr, List.map_cons, List.sum_cons, List.flatten_cons]
    refine ⟨?_, ?_, ?_⟩
    · simp [i1, length_decode64s]
    · rw [i2, decode64s_add, List.drop_drop]
    · rw [i3]
      refine Prod.ext ?_ rfl
      simp only
      congr 1
      omega

/-- The level loop of the stream `readFrom` when the bytes are there. -/
theorem readLevels_any : ∀ (offs : List (List (List Int))) (is : IStream),
    is.pos + 8 * (offs.map (fun g => (g.map List.length).sum)).sum ≤ is.data.length →
    (readLevels offs is).1.map (fun g => g.map List.length)
        = offs.map (fun g => g.map List.length) ∧
      (readLevels offs is).1.flatten.flatten
        = decode64s (offs.map (fun g => (g.map List.length).sum)).sum (is.data.drop is.pos) ∧
      (readLevels offs is).2
        = ({ is with pos := is.pos + 8 * (offs.map (fun g => (g.map List.length).sum)).sum },
            true) := by
  intro offs
  induction offs with
  | nil => intro is _; simp [readLevels, decode64s]
  | cons g gs ih =>
    intro is h
    simp only [List.map_cons, List.sum_cons] at h
    obtain ⟨a1, a2, a3⟩ := readGrid_any g is (by omega)
    obtain ⟨i1, i2, i3⟩ := ih { is with pos := is.pos + 8 * (g.map List.length).sum }
      (by simp only; omega)
    have hsplit : readGrid g is
        = ((readGrid g is).1, { is with pos := is.pos + 8 * (g.map List.length).sum }, true) := by
      rw [← a3]
    simp only [readLevels]
    rw [hsplit]
    simp only [List.map_cons, List.sum_cons, List.flatten_cons, List.flatten_append]
    refine ⟨?_, ?_, ?_⟩
    · rw [a1, i1]
    · rw [a2, i2, decode64s_add, List.drop_drop]
    · rw [i3]
      refine Prod.ext ?_ rfl
      simp only
      congr 1
      omega

/-- The stream `readFrom` up to its completeness test, when the stream holds
a value for every slot. -/
theorem readLevels_table (t : TileOffsets) (is : IStream)
    (h : is.pos + 8 * t.slots.length ≤ is.data.length) :
    ∃ offs : List (List (List Int)),
      readLevels t._offsets is = (offs, { is with pos := is.pos + 8 * t.slots.length }, true) ∧
      ({ t with _offsets := offs } : TileOffsets).shape = t.shape ∧
      ({ t with _offsets := offs } : TileOffsets).flat
        = decode64s t.slots.length (is.data.drop is.pos) := by
  rw [length_slots] at h ⊢
  obtain ⟨a1, a2, a3⟩ := readLevels_any t._offsets is h
  refine ⟨(readLevels t._offsets is).1, ?_, a1, a2⟩
  exact Prod.ext rfl a3


/-! ## What a scan leaves in the table -/

/-- An iteration of the scanner either leaves the table alone or stores the
position of the iteration's start in the slot addressed by an accepted header. -/
theorem findTilesBody_cases (t : TileOffsets) (is : IStream) (mp deep skipOnly : Bool) :
    (findTilesBody t is mp deep skipOnly).1 = t ∨
      ∃ (tx ty lx ly : Int) (is' : IStream) (s : Slot),
        skipOnly = false ∧
        readChunk is mp deep = (some (tx, ty, lx, ly), is') ∧
        t.isValidTile tx ty lx ly = true ∧ t.slotAt tx ty lx ly = some s ∧
        findTilesBody t is mp deep skipOnly = (t.set s (is.pos : Int), is', .next) := by
  rcases hr : readChunk is mp deep with ⟨_ | ⟨tx, ty, lx, ly⟩, is'⟩
  · left
    simp only [findTilesBody, hr]
  · cases skipOnly with
    | true => left; simp only [findTilesBody, hr, if_true]
    | false =>
      by_cases hv : t.isValidTile tx ty lx ly = true
      · right
        obtain ⟨-, -, -, -, -, s, hs⟩ := (isValidTile_iff t tx ty lx ly).mp hv
        exact ⟨tx, ty, lx, ly, is', s, rfl, rfl, hv, hs,
          findTilesBody_stored t is is' mp deep tx ty lx ly s hr hv hs⟩
      · left
        have hv' : t.isValidTile tx ty lx ly = false := by simpa using hv
        rw [findTilesBody_rejected t is is' mp deep tx ty lx ly hr hv']

/-- A scan keeps the mode, the level counts and the shape of the table. -/
theorem findTilesLoop_frame (mp deep skipOnly : Bool) :
    ∀ (n : Nat) (t : TileOffsets) (is : IStream),
      (findTilesLoop mp deep skipOnly n t is).1._mode = t._mode ∧
      (findTilesLoop mp deep skipOnly n t is).1._numXLevels = t._numXLevels ∧
      (findTilesLoop mp deep skipOnly n t is).1._numYLevels = t._numYLevels ∧
      (findTilesLoop mp deep skipOnly n t is).1.shape = t.shape := by
  intro n
  induction n with
  | zero => intro t is; exact ⟨rfl, rfl, rfl, rfl⟩
  | succ n ih =>
    intro t is
    have hb : (findTilesBody t is mp deep skipOnly).1._mode = t._mode ∧
        (findTilesBody t is mp deep skipOnly).1._numXLevels = t._numXLevels ∧
        (findTilesBody t is mp deep skipOnly).1._numYLevels = t._numYLevels ∧
        (findTilesBody t is mp deep skipOnly).1.shape = t.shape := by
      rcases findTilesBody_cases t is mp deep skipOnly with h | ⟨_, _, _, _, _, s, _, _, _, _, h⟩
      · rw [h]; exact ⟨rfl, rfl, rfl, rfl⟩
      · rw [h]; exact ⟨rfl, rfl, rfl, shape_set t s _⟩
    unfold findTilesLoop
    rcases hbody : findTilesBody t is mp deep skipOnly with ⟨t', is', st⟩
    rw [hbody] at hb
    simp only at hb
    cases st with
    | next =>
      simp only
      obtain ⟨i1, i2, i3, i4⟩ := ih t' is'
      exact ⟨i1.trans hb.1, i2.trans hb.2.1, i3.trans hb.2.2.1, i4.trans hb.2.2.2⟩
    | ret => exact hb
    | threw e => exact hb
    | undefined => exact hb

/-- After a scan every slot holds the value it had before, or the position
at which the scan read a chunk whose accepted header addresses the slot. -/
theorem findTilesLoop_slots (mp deep : Bool) (t0 : TileOffsets) (data : List Nat) :
    ∀ (n : Nat) (t : TileOffsets) (is : IStream),
      is.data = data →
      t._mode = t0._mode → t._numXLevels = t0._numXLevels → t._numYLevels = t0._numYLevels →
      t.shape = t0.shape →
      ∀ s : Slot,
        (findTilesLoop mp deep false n t is).1.get s = t.get s ∨
        ∃ (isp is' : IStream) (tx ty lx ly : Int),
          isp.data = data ∧
          readChunk isp mp deep = (some (tx, ty, lx, ly), is') ∧
          t0.isValidTile tx ty lx ly = true ∧ t0.slotAt tx ty lx ly = some s ∧
          (findTilesLoop mp deep false n t is).1.get s = (isp.pos : Int) := by
  intro n
  induction n with
  | zero => intro t is _ _ _ _ _ s; exact Or.inl rfl
  | succ n ih =>
    intro t is hd h1 h2 h3 h4 s
    rcases findTilesBody_cases t is mp deep false with h | ⟨tx, ty, lx, ly, is', s1, -, hr, hv, hs, hb⟩
    · -- nothing stored in this iteration
      unfold findTilesLoop
      rcases hbody : findTilesBody t is mp deep false with ⟨t', is', st⟩
      rw [hbody] at h
      simp only at h
      subst h
      have hdata : is'.data = data := by
        have := (findTilesBody_safe t' is mp deep false).1
        rw [hbody] at this
        exact this.trans hd
      cases st with
      | next => exact ih t' is' hdata h1 h2 h3 h4 s
      | ret => exact Or.inl rfl
      | threw e => exact Or.inl rfl
      | undefined => exact Or.inl rfl
    · -- the start of this chunk is stored in `s1`
      have hdata : is'.data = data := by
        have := readChunk_data is mp deep
        rw [hr] at this
        exact this.trans hd
      have hv0 : t0.isValidTile tx ty lx ly = true := by
        rw [← isValidTile_congr t0 t h1 h2 h3 h4]; exact hv
      have hs0 : t0.slotAt tx ty lx ly = some s1 := by
        rw [← slotAt_congr t0 t h1 h2 h4]; exact hs
      simp only [findTilesLoop, hb]
      have hrec := ih (t.set s1 (is.pos : Int)) is' hdata h1 h2 h3
        ((shape_set t s1 _).trans h4) s
      rcases hrec with hsame | hrec
      · by_cases hss : s = s1
        · subst hss
          right
          refine ⟨is, is', tx, ty, lx, ly, hd, hr, hv0, hs0, ?_⟩
          rw [hsame, get_set_same t s _ (slotAt_mem t _ _ _ _ s hs)]
        · left
          rw [hsame, get_set_other t s1 s _ hss]
      · exact Or.inr hrec


/-! ## Emptiness -/

/-- What `isEmpty` decides, on the offsets in canonical order. -/
theorem isEmpty_iff (t : TileOffsets) : t.isEmpty = true ↔ ∀ x ∈ t.flat, x = 0 := by
  simp only [TileOffsets.isEmpty, TileOffsets.flat, Bool.not_eq_true', List.any_eq_false,
    decide_eq_true_eq, List.mem_flatten, not_not, List.any_eq_true, not_exists, not_and]
  constructor
  · rintro h x ⟨r, ⟨g, hg, hr⟩, hx⟩
    exact h g hg r hr x hx
  · intro h g hg r hr x hx
    exact h x ⟨r, ⟨g, hg, hr⟩, hx⟩

/-- The offsets of a constructed table, in canonical order, are all zero. -/
theorem new_flat_zero (mode : LevelMode) (nx ny : Int) (xt yt : Nat → Int) (t : TileOffsets)
    (ht : TileOffsets.new mode nx ny xt yt = .ok t) : ∀ x ∈ t.flat, x = 0 := by
  have hz := new_allZero mode nx ny xt yt t ht
  intro x hx
  simp only [TileOffsets.flat, List.mem_flatten] at hx
  obtain ⟨r, ⟨g, hg, hr⟩, hx⟩ := hx
  exact hz g hg r hr x hx


/-! ## Scanning with `skipOnly`, and the shape under the read loops -/

/-- A scan with `skipOnly` leaves the table as it is. -/
theorem findTilesLoop_skip_table (mp deep : Bool) :
    ∀ (n : Nat) (t : TileOffsets) (is : IStream), (findTilesLoop mp deep true n t is).1 = t := by
  intro n
  induction n with
  | zero => intro t is; rfl
  | succ n ih =>
    intro t is
    have hb : (findTilesBody t is mp deep true).1 = t := by
      rcases findTilesBody_cases t is mp deep true with h | ⟨_, _, _, _, _, _, hso, _⟩
      · exact h
      · exact absurd hso (by simp)
    unfold findTilesLoop
    rcases hbody : findTilesBody t is mp deep true with ⟨t', is', st⟩
    rw [hbody] at hb
    simp only at hb
    subst hb
    cases st with
    | next => exact ih t' is'
    | ret => rfl
    | threw e => rfl
    | undefined => rfl

/-- A scan with `skipOnly` over a run of well-formed chunks goes past them,
whatever their coordinates. -/
theorem findTilesLoop_skip_chunks (mp deep : Bool) :
    ∀ (chunks : List Chunk) (n : Nat) (t : TileOffsets) (is : IStream) (rest : List Nat),
      (∀ c ∈ chunks, c.wellFormed deep) →
      is.data.drop is.pos = chunks.flatMap (fun c => c.encode mp deep) ++ rest →
      findTilesLoop mp deep true (chunks.length + n) t is
        = findTilesLoop mp deep true n t
            { is with pos := is.pos + (chunks.flatMap (fun c => c.encode mp deep)).length } := by
  intro chunks
  induction chunks with
  | nil => intro n t is rest _ _; simp
  | cons c cs ih =>
    intro n t is rest hc h
    simp only [List.flatMap_cons, List.append_assoc] at h
    obtain ⟨r1, r2⟩ := readChunk_of_drop is c mp deep _ (hc c (List.mem_cons_self _ _)) h
    have hb : findTilesBody t is mp deep true
        = (t, { is with pos := is.pos + (c.encode mp deep).length }, .next) := by
      simp only [findTilesBody, r1, if_true]
    have hlen : (c :: cs).length + n = (cs.length + n) + 1 := by simp; omega
    rw [hlen]
    simp only [findTilesLoop, hb]
    rw [ih n t { is with pos := is.pos + (c.encode mp deep).length } rest
      (fun c' hc' => hc c' (List.mem_cons_of_mem _ hc')) r2]
    simp only [List.flatMap_cons, List.length_append, Nat.add_assoc]

/-- The row loop of the stream `readFrom` keeps the length of the row. -/
theorem readRow_length : ∀ (r : List Int) (is : IStream), (readRow r is).1.length = r.length := by
  intro r
  induction r with
  | nil => intro is; rfl
  | cons o os ih =>
    intro is
    unfold readRow
    rcases hr : Xdr.readInt64 is with ⟨_ | v, is'⟩
    · rfl
    · simp only [List.length_cons, ih]

/-- The grid loop of the stream `readFrom` keeps the row lengths. -/
theorem readGrid_shape : ∀ (g : List (List Int)) (is : IStream),
    (readGrid g is).1.map List.length = g.map List.length := by
  intro g
  induction g with
  | nil => intro is; rfl
  | cons r rs ih =>
    intro is
    have hr := readRow_length r is
    unfold readGrid
    rcases hrow : readRow r is with ⟨r', is', _ | _⟩
    · rw [hrow] at hr
      simp only [List.map_cons]
      rw [hr]
    · rw [hrow] at hr
      simp only [List.map_cons, ih]
      rw [hr]

/-- The level loop of the stream `readFrom` keeps the shape. -/
theorem readLevels_shape : ∀ (offs : List (List (List Int))) (is : IStream),
    (readLevels offs is).1.map (fun g => g.map List.length)
      = offs.map (fun g => g.map List.length) := by
  intro offs
  induction offs with
  | nil => intro is; rfl
  | cons g gs ih =>
    intro is
    have hg := readGrid_shape g is
    unfold readLevels
    rcases hgrid : readGrid g is with ⟨g', is', _ | _⟩
    · rw [hgrid] at hg
      simp only [List.map_cons]
      rw [hg]
    · rw [hgrid] at hg
      simp only [List.map_cons, ih]
      rw [hg]

/-- The row loop of the list `readFrom` keeps the length of the row. -/
theorem fillRow_length (co : List Int) : ∀ (r : List Int) (pos : Nat),
    (fillRow co r pos).1.length = r.length := by
  intro r
  induction r with
  | nil => intro pos; rfl
  | cons o os ih => intro pos; simp only [fillRow, List.length_cons, ih]

/-- The grid loop of the list `readFrom` keeps the row lengths. -/
theorem fillGrid_shape (co : List Int) : ∀ (g : List (List Int)) (pos : Nat),
    (fillGrid co g pos).1.map List.length = g.map List.length := by
  intro g
  induction g with
  | nil => intro pos; rfl
  | cons r rs ih => intro pos; simp only [fillGrid, List.map_cons, ih, fillRow_length]

/-- The level loop of the list `readFrom` keeps the shape. -/
theorem fillLevels_shape (co : List Int) : ∀ (offs : List (List (List Int))) (pos : Nat),
    (fillLevels co offs pos).1.map (fun g => g.map List.length)
      = offs.map (fun g => g.map List.length) := by
  intro offs
  induction offs with
  | nil => intro pos; rfl
  | cons g gs ih => intro pos; simp only [fillLevels, List.map_cons, ih, fillGrid_shape]

/-- The stream `readFrom` keeps the shape, however it ends. -/
theorem readFrom_shape (t : TileOffsets) (is : IStream) (complete mp deep : Bool) :
    (t.readFrom is complete mp deep).table.shape = t.shape := by
  have hs := readLevels_shape t._offsets is
  unfold TileOffsets.readFrom
  rcases hr : readLevels t._offsets is with ⟨offs, is', _ | _⟩
  · rw [hr] at hs
    exact hs
  · rw [hr] at hs
    simp only
    split
    · rw [reconstructFromFile_eq]
      simp only
      exact ((findTilesLoop_frame mp deep false _ _ _).2.2.2).trans hs
    · exact hs

/-- The list `readFrom` keeps the shape, however it ends. -/
theorem readFromList_shape (t : TileOffsets) (co : List Int) (complete : Bool) :
    (t.readFromList co complete).1.shape = t.shape := by
  unfold TileOffsets.readFromList
  simp only
  split
  · rfl
  · exact fillLevels_shape co t._offsets 0


/-! ## A scan over one chunk per slot -/

/-- Two accepted tuples that address one slot agree in column, row and `lx`,
and outside `MIPMAP_LEVELS` mode in `ly`. -/
theorem tuple_eq_of_slotAt (t : TileOffsets) (dx dy lx ly dx' dy' lx' ly' : Int) (s : Slot)
    (hv : t.isValidTile dx dy lx ly = true) (hsl : t.slotAt dx dy lx ly = some s)
    (hv' : t.isValidTile dx' dy' lx' ly' = true) (hsl' : t.slotAt dx' dy' lx' ly' = some s) :
    dx = dx' ∧ dy = dy' ∧ lx = lx' ∧ (t._mode ≠ .MIPMAP_LEVELS → ly = ly') := by
  obtain ⟨a1, a2, a3, a4, -, a5⟩ := slotAt_eq_some t dx dy lx ly _ hsl
  obtain ⟨b1, b2, b3, b4, -, b5⟩ := slotAt_eq_some t dx' dy' lx' ly' _ hsl'
  obtain ⟨-, -, v1, v2, v3, -⟩ := (isValidTile_iff t dx dy lx ly).mp hv
  obtain ⟨-, -, w1, w2, w3, -⟩ := (isValidTile_iff t dx' dy' lx' ly').mp hv'
  have edx : dx = dx' := by
    rw [← Int.toNat_of_nonneg a2, ← Int.toNat_of_nonneg b2, ← a4, ← b4]
  have edy : dy = dy' := by
    rw [← Int.toNat_of_nonneg a1, ← Int.toNat_of_nonneg b1, ← a3, ← b3]
  refine ⟨edx, edy, ?_⟩
  clear hsl hsl' hv hv'
  cases hm : t._mode with
  | NUM_LEVELMODES => simp [hm] at v3
  | ONE_LEVEL =>
    simp only [hm, reduceCtorEq, false_and, or_false, true_and] at v3 w3
    exact ⟨by omega, fun _ => by omega⟩
  | MIPMAP_LEVELS =>
    simp only [hm, reduceCtorEq, false_and, or_false, false_or, true_and] at a5 b5
    exact ⟨by omega, fun h => absurd rfl h⟩
  | RIPMAP_LEVELS =>
    simp only [hm, reduceCtorEq, false_and, false_or, true_and] at a5 b5 v3 w3
    have heq : lx + ly * t._numXLevels = lx' + ly' * t._numXLevels := by omega
    obtain ⟨e1, e2⟩ := rip_decode_unique lx ly lx' ly' t._numXLevels v1 v3.1 w1 w3.1 heq
    exact ⟨e1, fun _ => e2⟩

/-- Every start of a chunk of a run is at or behind the start of the run. -/
theorem chunkStarts_ge (mp deep : Bool) : ∀ (chunks : List Chunk) (pos : Nat),
    ∀ x ∈ chunkStarts mp deep pos chunks, pos ≤ x := by
  intro chunks
  induction chunks with
  | nil => intro pos x hx; simp [chunkStarts] at hx
  | cons c cs ih =>
    intro pos x hx
    simp only [chunkStarts, List.mem_cons] at hx
    rcases hx with rfl | hx
    · exact le_rfl
    · have := ih _ x hx
      omega

/-- The starts of the chunks of a run increase strictly. -/
theorem chunkStarts_sorted (mp deep : Bool) : ∀ (chunks : List Chunk) (pos : Nat),
    (chunkStarts mp deep pos chunks).Sorted (· < ·) := by
  intro chunks
  induction chunks with
  | nil => intro pos; simp [chunkStarts]
  | cons c cs ih =>
    intro pos
    simp only [chunkStarts, List.sorted_cons]
    refine ⟨?_, ih _⟩
    intro x hx
    have h1 := chunkStarts_ge mp deep cs _ x hx
    have h2 : 0 < (c.encode mp deep).length := by
      rw [length_encode]; unfold headerLength; omega
    omega

/-- After the stores of a scan over chunks that address the pairwise
distinct slots `sk`, these slots hold the starts of the chunks. -/
theorem storeChunks_starts (mp deep : Bool) :
    ∀ (chunks : List Chunk) (t : TileOffsets) (pos : Nat) (sk : List Slot),
      chunks.map (fun c => c.slot t) = sk.map some → sk.Nodup →
      sk.map (storeChunks mp deep t pos chunks).get
        = (chunkStarts mp deep pos chunks).map (fun p : Nat => (p : Int)) := by
  intro chunks
  induction chunks with
  | nil =>
    intro t pos sk h _
    have : sk = [] := by
      cases sk with
      | nil => rfl
      | cons a as => simp at h
    subst this
    rfl
  | cons c cs ih =>
    intro t pos sk h hnd
    cases sk with
    | nil => simp at h
    | cons s0 sk' =>
      simp only [List.map_cons, List.cons.injEq] at h
      obtain ⟨hs0, htl⟩ := h
      have hslot : ∀ c' : Chunk, c'.slot (t.set s0 (pos : Int)) = c'.slot t := by
        intro c'
        exact slotAt_set t s0 _ _ _ _ _
      have htl' : cs.map (fun c' => c'.slot (t.set s0 (pos : Int))) = sk'.map some := by
        simp only [hslot]; exact htl
      obtain ⟨hnot, hnd'⟩ := List.nodup_cons.mp hnd
      have hunf : storeChunks mp deep t pos (c :: cs)
          = storeChunks mp deep (t.set s0 (pos : Int)) (pos + (c.encode mp deep).length) cs := by
        simp only [storeChunks, hs0]
      rw [hunf]
      simp only [List.map_cons, chunkStarts]
      congr 1
      · have hall : ∀ c' ∈ cs, ∃ s, c'.slot (t.set s0 (pos : Int)) = some s := by
          intro c' hc'
          have hmem : c'.slot (t.set s0 (pos : Int)) ∈ sk'.map some := by
            rw [← htl']; exact List.mem_map_of_mem _ hc'
          obtain ⟨s, -, hs⟩ := List.mem_map.mp hmem
          exact ⟨s, hs.symm⟩
        have hnd'' : (cs.map (fun c' => c'.slot (t.set s0 (pos : Int)))).Nodup := by
          rw [htl']
          exact hnd'.map (fun a b hab => Option.some.inj hab)
        obtain ⟨g1, -⟩ := storeChunks_get mp deep cs (t.set s0 (pos : Int))
          (pos + (c.encode mp deep).length) hall hnd''
        rw [g1 s0 (by
          intro c' hc' he
          have hmem : some s0 ∈ sk'.map some := by
            rw [← htl', ← he]; exact List.mem_map_of_mem _ hc'
          obtain ⟨s, hs, hse⟩ := List.mem_map.mp hmem
          rw [Option.some.inj hse] at hs
          exact hnot hs)]
        exact get_set_same t s0 _ (slotAt_mem t _ _ _ _ s0 hs0)
      · exact ih (t.set s0 (pos : Int)) _ sk' htl' hnd'

/-- A list of options that are all `some`. -/
theorem exists_map_some {α β : Type} (f : α → Option β) : ∀ (l : List α),
    (∀ a ∈ l, ∃ b, f a = some b) → ∃ bs : List β, l.map f = bs.map some := by
  intro l
  induction l with
  | nil => intro _; exact ⟨[], rfl⟩
  | cons a as ih =>
    intro h
    obtain ⟨b, hb⟩ := h a (List.mem_cons_self _ _)
    obtain ⟨bs, hbs⟩ := ih (fun a' ha' => h a' (List.mem_cons_of_mem _ ha'))
    exact ⟨b :: bs, by simp [hb, hbs]⟩

/-- The tuple that `getTileOrder` emits for the slot addressed by an accepted
tuple is that tuple, when `lx = ly` in `MIPMAP_LEVELS` mode. -/
theorem emitted_eq_coords (t t' : TileOffsets) (hm : t'._mode = t._mode)
    (hx : t'._numXLevels = t._numXLevels) (dx dy lx ly : Int) (s : Slot)
    (hv : t.isValidTile dx dy lx ly = true) (hs : t.slotAt dx dy lx ly = some s)
    (hmip : t._mode = .MIPMAP_LEVELS → lx = ly) :
    ((t'.entry s).dx, (t'.entry s).dy, t'.emitLX (t'.entry s), t'.emitLY (t'.entry s))
      = (dx, dy, lx, ly) := by
  obtain ⟨a1, a2, a3, a4, -, a5⟩ := slotAt_eq_some t dx dy lx ly s hs
  obtain ⟨-, -, v1, v2, v3, -⟩ := (isValidTile_iff t dx dy lx ly).mp hv
  have edx : ((s.2.2 : Nat) : Int) = dx := by rw [a4, Int.toNat_of_nonneg a2]
  have edy : ((s.2.1 : Nat) : Int) = dy := by rw [a3, Int.toNat_of_nonneg a1]
  simp only [TileOffsets.entry, TileOffsets.emitLX, TileOffsets.emitLY, hm, hx, edx, edy]
  cases hmode : t._mode with
  | NUM_LEVELMODES => simp [hmode] at v3
  | ONE_LEVEL =>
    simp only [hmode, reduceCtorEq, false_and, or_false, true_and] at v3
    simp only [Prod.mk.injEq, true_and]
    exact ⟨v3.1.symm, v3.2.symm⟩
  | MIPMAP_LEVELS =>
    simp only [hmode, reduceCtorEq, false_and, or_false, false_or, true_and] at a5
    have el : ((s.1 : Nat) : Int) = lx := by rw [a5.2, Int.toNat_of_nonneg a5.1]
    have := hmip hmode
    simp only [Prod.mk.injEq, true_and, el]
    exact this
  | RIPMAP_LEVELS =>
    simp only [hmode, reduceCtorEq, false_and, false_or, true_and] at a5 v3
    have el : ((s.1 : Nat) : Int) = lx + ly * t._numXLevels := by
      rw [a5.2, Int.toNat_of_nonneg a5.1]
    have hnx : 0 < t._numXLevels := by omega
    simp only [Prod.mk.injEq, true_and, el]
    constructor
    · rw [Int.tmod_eq_emod a5.1 (le_of_lt hnx), Int.add_mul_emod_self,
        Int.emod_eq_of_lt v1 v3.1]
    · rw [Int.tdiv_eq_ediv a5.1 (le_of_lt hnx), Int.add_mul_ediv_right _ _ (ne_of_gt hnx),
        Int.ediv_eq_zero_of_lt v1 v3.1, zero_add]


/-- The tuples emitted for the slots that a list of accepted chunks
addresses are the coordinates of the chunks. -/
theorem map_emitted_eq_coords (t t' : TileOffsets) (hm : t'._mode = t._mode)
    (hx : t'._numXLevels = t._numXLevels) :
    ∀ (chunks : List Chunk) (sk : List Slot),
      chunks.map (fun c => c.slot t) = sk.map some →
      (∀ c ∈ chunks, t.isValidTile c.tileX c.tileY c.levelX c.levelY = true ∧
        (t._mode = .MIPMAP_LEVELS → c.levelX = c.levelY)) →
      sk.map (fun s => ((t'.entry s).dx, (t'.entry s).dy, t'.emitLX (t'.entry s),
          t'.emitLY (t'.entry s)))
        = chunks.map Chunk.coords := by
  intro chunks
  induction chunks with
  | nil =>
    intro sk h _
    cases sk with
    | nil => rfl
    | cons a as => simp at h
  | cons c cs ih =>
    intro sk h hc
    cases sk with
    | nil => simp at h
    | cons s0 sk' =>
      simp only [List.map_cons, List.cons.injEq] at h
      obtain ⟨hs0, htl⟩ := h
      obtain ⟨hv, hmip⟩ := hc c (List.mem_cons_self _ _)
      simp only [List.map_cons]
      rw [ih sk' htl (fun c' hc' => hc c' (List.mem_cons_of_mem _ hc')),
        emitted_eq_coords t t' hm hx c.tileX c.tileY c.levelX c.levelY s0 hv hs0 hmip]
      rfl


/-! ## C1: round trip of `writeTo` and the stream `readFrom` -/

/-- C1. Let every offset of `t` be strictly positive (and an `Int64`), and
let `t2` have the mode, level counts and shape of `t`.  On a stream that
reports its position, `writeTo` returns a start position `p`, and the stream
`readFrom` of `t2`, on an input stream over the written bytes positioned at
`p`, returns normally with the table equal to `t`, `complete = true`, and the
stream just behind the table.  The mode is arbitrary. -/
theorem writeTo_readFrom_roundtrip (t t2 : TileOffsets) (os : OStream)
    (complete isMultiPartFile isDeep : Bool)
    (hcan : os.canTell = true)
    (hpos : ∀ x ∈ t.flat, 0 < x ∧ x < (2 : Int) ^ 63)
    (hmode : t2._mode = t._mode) (hnx : t2._numXLevels = t._numXLevels)
    (hny : t2._numYLevels = t._numYLevels) (hshape : t2.shape = t.shape) :
    ∃ p : Int, (t.writeTo os).2 = .ok p ∧
      t2.readFrom { data := (t.writeTo os).1.data, pos := p.toNat, failed := false }
          complete isMultiPartFile isDeep
        = { table := t,
            stream := { data := (t.writeTo os).1.data, pos := p.toNat + 8 * t.slots.length,
                        failed := false },
            complete := true, outcome := .returned } := by
  rw [writeTo_eq t os hcan]
  refine ⟨_, rfl, ?_⟩
  simp only [Int.toNat_natCast]
  have hrange : ∀ v ∈ t._offsets.flatten.flatten, -(2 : Int) ^ 63 ≤ v ∧ v < (2 : Int) ^ 63 := by
    intro v hv
    have := hpos v hv
    exact ⟨by have : (0 : Int) < 2 ^ 63 := by positivity
              omega, this.2⟩
  obtain ⟨r1, -⟩ := readLevels_spec t._offsets t2._offsets
    { data := os.data ++ t.flat.flatMap (fun v => encodeLE 8 (toUnsigned 64 v)),
      pos := os.data.length, failed := false } [] hshape hrange (by
        simp only [List.drop_left, List.append_nil]; rfl)
  have hT : t._offsets.flatten.flatten.length = t.slots.length := by
    have := flat_eq_map_get t
    unfold TileOffsets.flat at this
    rw [this, List.length_map]
  have hvalid : t.anyOffsetsAreInvalid = false := by
    rw [anyOffsetsAreInvalid_eq_false_iff]
    intro x hx
    exact (hpos x hx).1
  have ht : ({ t2 with _offsets := t._offsets } : TileOffsets) = t := by
    cases t; cases t2
    simp only at hmode hnx hny
    simp [hmode, hnx, hny]
  simp only [TileOffsets.readFrom, r1, hvalid, hT, ht]
  simp

/-- C1 at the one-level table with offsets 100, 50, 200, read back into a
freshly constructed table of the same geometry. -/
theorem writeTo_readFrom_roundtrip_witness :
    TileOffsets.new .ONE_LEVEL 1 1 (fun _ => 3) (fun _ => 1) = .ok sampleFresh ∧
    (∀ x ∈ sampleOne.flat, 0 < x ∧ x < (2 : Int) ^ 63) ∧
    sampleFresh.shape = sampleOne.shape ∧
    ∃ p : Int, (sampleOne.writeTo sampleOut).2 = .ok p ∧
      sampleFresh.readFrom
          { data := (sampleOne.writeTo sampleOut).1.data, pos := p.toNat, failed := false }
          false false false
        = { table := sampleOne,
            stream := { data := (sampleOne.writeTo sampleOut).1.data,
                        pos := p.toNat + 8 * sampleOne.slots.length, failed := false },
            complete := true, outcome := .returned } :=
  ⟨rfl, by decide, rfl,
    writeTo_readFrom_roundtrip sampleOne sampleFresh sampleOut false false false rfl
      (by decide) rfl rfl rfl rfl⟩


/-! ## C2: the boundary of reconstruction -/

/-- C2. Let `t` be freshly constructed with `T` slots, and let the stream
hold, from its position, `N < T` well-formed chunks (flat or deep, with or
without part number) whose headers `isValidTile` accepts and which name
pairwise distinct tiles, that is, address pairwise distinct slots; let them
be followed by a header that is cut short (fewer bytes than a header) or
whose coordinates `isValidTile` rejects, and then by any bytes at all.  Then
`reconstructFromFile` returns normally with the stream back at its position;
the slot addressed by the coordinates of chunk `k` holds the byte position at
which chunk `k` begins, for every `k < N` counted from 0; every slot that no
chunk addresses holds 0. -/
theorem reconstruct_boundary (mode : LevelMode) (nx ny : Int) (xt yt : Nat → Int)
    (t : TileOffsets) (ht : TileOffsets.new mode nx ny xt yt = .ok t)
    (is : IStream) (isMultiPart isDeep : Bool) (chunks : List Chunk) (rest : List Nat)
    (hN : chunks.length < t.slots.length)
    (hwf : ∀ c ∈ chunks, c.wellFormed isDeep)
    (hvalid : ∀ c ∈ chunks, t.isValidTile c.tileX c.tileY c.levelX c.levelY = true)
    (hdist : (chunks.map (fun c => c.slot t)).Nodup)
    (hdata : is.data.drop is.pos
      = chunks.flatMap (fun c => c.encode isMultiPart isDeep) ++ rest)
    (hbad : rest.length < headerLength isMultiPart isDeep ∨
      ∃ (p x y lx ly : Int) (rest' : List Nat),
        fits32 p ∧ fits32 x ∧ fits32 y ∧ fits32 lx ∧ fits32 ly ∧
        rest = encodeCoords isMultiPart p x y lx ly ++ rest' ∧
        t.isValidTile x y lx ly = false) :
    ∃ t' : TileOffsets,
      t.reconstructFromFile is isMultiPart isDeep
        = (t', { data := is.data, pos := is.pos, failed := false }, .returned) ∧
      t'.slots = t.slots ∧
      (∀ (k : Nat) (c : Chunk), chunks[k]? = some c →
        ∃ s, c.slot t = some s ∧
          t'.get s = ((is.pos
            + ((chunks.take k).flatMap (fun c => c.encode isMultiPart isDeep)).length : Nat) : Int)) ∧
      (∀ s, (∀ c ∈ chunks, c.slot t ≠ some s) → t'.get s = 0) := by
  -- the table and the stream after the run of good chunks
  have hall : ∀ c ∈ chunks, ∃ s, c.slot t = some s := by
    intro c hc
    obtain ⟨-, -, -, -, -, s, hs⟩ := (isValidTile_iff t _ _ _ _).mp (hvalid c hc)
    exact ⟨s, hs⟩
  obtain ⟨g1, g2⟩ := storeChunks_get isMultiPart isDeep chunks t is.pos hall hdist
  obtain ⟨f1, f2, f3, f4⟩ := storeChunks_frame isMultiPart isDeep chunks t is.pos
  obtain ⟨m, hm⟩ : ∃ m, t.totalSize = chunks.length + (m + 1) := by
    rw [← length_slots]
    exact ⟨t.slots.length - chunks.length - 1, by omega⟩
  have hloop := findTilesLoop_chunks isMultiPart isDeep chunks (m + 1) t is rest
    (fun c hc => ⟨hwf c hc, hvalid c hc⟩) hdata
  have hrest : is.data.drop
      (is.pos + (chunks.flatMap (fun c => c.encode isMultiPart isDeep)).length) = rest := by
    rw [← List.drop_drop, hdata]
    simp
  -- the iteration at the bad header ends the scan with no store
  have hstop : (findTilesLoop isMultiPart isDeep false (m + 1)
      (storeChunks isMultiPart isDeep t is.pos chunks)
      { is with pos := is.pos
          + (chunks.flatMap (fun c => c.encode isMultiPart isDeep)).length }).1
        = storeChunks isMultiPart isDeep t is.pos chunks := by
    rcases hbad with hshort | ⟨p, x, y, lx, ly, rest', hp, hx, hy, hlx, hly, hr, hrej⟩
    · have hnone := readChunk_short
        { is with pos := is.pos
            + (chunks.flatMap (fun c => c.encode isMultiPart isDeep)).length }
        isMultiPart isDeep (by simp only; rw [hrest]; exact hshort)
      obtain ⟨is', hb⟩ := findTilesBody_none (storeChunks isMultiPart isDeep t is.pos chunks) _
        isMultiPart isDeep hnone
      simp only [findTilesLoop, hb]
    · obtain ⟨r1, -⟩ := readCoords_of_drop
        { is with pos := is.pos
            + (chunks.flatMap (fun c => c.encode isMultiPart isDeep)).length }
        isMultiPart p x y lx ly rest' hp hx hy hlx hly (by simp only; rw [hrest, hr]) isDeep
      rcases hsk : skipPayload
        { is with pos := is.pos
            + (chunks.flatMap (fun c => c.encode isMultiPart isDeep)).length
            + ((if isMultiPart then 4 else 0) + 16) } isDeep with ⟨_ | _, is5⟩
      · simp only [hsk] at r1
        obtain ⟨is', hb⟩ := findTilesBody_none (storeChunks isMultiPart isDeep t is.pos chunks) _
          isMultiPart isDeep (by rw [r1])
        simp only [findTilesLoop, hb]
      · simp only [hsk] at r1
        have hrej' : (storeChunks isMultiPart isDeep t is.pos chunks).isValidTile x y lx ly
            = false := by
          rw [isValidTile_congr t _ f1 f2 f3 f4]; exact hrej
        have hb := findTilesBody_rejected _ _ _ isMultiPart isDeep x y lx ly r1 hrej'
        simp only [findTilesLoop, hb]
  refine ⟨storeChunks isMultiPart isDeep t is.pos chunks, ?_, slots_eq_of_shape _ _ f4, g2, ?_⟩
  · rw [reconstructFromFile_eq]
    unfold TileOffsets.findTiles
    rw [hm, hloop, hstop]
  · intro s hs
    rw [g1 s hs]
    exact new_get_zero mode nx ny xt yt t ht s

/-- C2 at the fresh three-tile table and a flat stream with the chunks of
tiles 2 and 0, a header for the missing column 5 and a further good chunk:
tile 2 is found at byte 2, tile 0 at byte 25, tile 1 stays 0. -/
theorem reconstruct_boundary_witness :
    TileOffsets.new .ONE_LEVEL 1 1 (fun _ => 3) (fun _ => 1) = .ok sampleFresh ∧
    [sampleChunkA, sampleChunkB].length < sampleFresh.slots.length ∧
    sampleFresh.isValidTile 5 0 0 0 = false ∧
    ∃ t' : TileOffsets,
      sampleFresh.reconstructFromFile sampleStream false false
        = (t', { data := sampleStream.data, pos := sampleStream.pos, failed := false },
            .returned) ∧
      t'.slots = sampleFresh.slots ∧
      (∀ (k : Nat) (c : Chunk), [sampleChunkA, sampleChunkB][k]? = some c →
        ∃ s, c.slot sampleFresh = some s ∧
          t'.get s = ((sampleStream.pos
            + (([sampleChunkA, sampleChunkB].take k).flatMap
                (fun c => c.encode false false)).length : Nat) : Int)) ∧
      (∀ s, (∀ c ∈ [sampleChunkA, sampleChunkB], c.slot sampleFresh ≠ some s) → t'.get s = 0) :=
  ⟨rfl, by decide, rfl,
    reconstruct_boundary .ONE_LEVEL 1 1 (fun _ => 3) (fun _ => 1) sampleFresh rfl sampleStream
      false false [sampleChunkA, sampleChunkB] (encodeCoords false 0 5 0 0 0 ++ sampleTail)
      (by decide)
      (by
        intro c hc
        simp only [List.mem_cons, List.mem_singleton, List.not_mem_nil, or_false] at hc
        rcases hc with rfl | rfl <;>
          simp [Chunk.wellFormed, fits32, sampleChunkA, sampleChunkB])
      (by
        intro c hc
        simp only [List.mem_cons, List.mem_singleton, List.not_mem_nil, or_false] at hc
        rcases hc with rfl | rfl <;> rfl)
      (by decide)
      rfl
      (Or.inr ⟨0, 5, 0, 0, 0, sampleTail, by norm_num [fits32], by norm_num [fits32],
        by norm_num [fits32], by norm_num [fits32], by norm_num [fits32], rfl, rfl⟩)⟩


/-! ## C3: `reconstructFromFile` is best-effort and position-neutral -/

/-- C3. For every table, every stream (any bytes, any position, any error
condition) and every value of `isMultiPart` and `isDeep`,
`reconstructFromFile` returns normally: no exception reaches the caller and
no store leaves the table.  Afterwards the stream holds the same bytes, is at
the position it had before the call, and its error condition is cleared. -/
theorem reconstructFromFile_neutral (t : TileOffsets) (is : IStream) (isMultiPart isDeep : Bool) :
    ∃ t' : TileOffsets,
      t.reconstructFromFile is isMultiPart isDeep
        = (t', { data := is.data, pos := is.pos, failed := false }, .returned) :=
  ⟨_, reconstructFromFile_eq t is isMultiPart isDeep⟩


/-! ## C4: physical ordering -/

/-- C4. In a recognised mode (with all slots at level 0 in `ONE_LEVEL` mode
and at least one x-level in `RIPMAP_LEVELS` mode) and with output arrays that
hold at least one entry per slot, `getTileOrder` returns normally.  Each of
the four arrays keeps its length and its entries from index `T` on, where `T`
is the number of slots, and the first `T` entries of each are written: there
is a list `order` of slots, a permutation of all slots of the table along
which the offsets are non-decreasing, such that `dx_table` holds the columns
and `dy_table` the rows of `order`, and `lx_table`, `ly_table` hold `0, 0` in
`ONE_LEVEL` mode, `l, l` in `MIPMAP_LEVELS` mode and
`l mod numXLevels, l div numXLevels` in `RIPMAP_LEVELS` mode for the level
index `l` of the slot; the emitted tuple at each index addresses, through
`operator ()`, the slot of `order` at that index.  For the one-level table
with offsets `[100, 50, 200]` the emitted columns are `1, 0, 2`: the tile at
50, then the tile at 100, then the tile at 200; on arrays of four nines the
first three entries of all four arrays are overwritten and the fourth is
kept. -/
theorem getTileOrder_order (t : TileOffsets) (out : TileOrder)
    (hmode : t._mode ≠ .NUM_LEVELMODES)
    (h1 : t._mode = .ONE_LEVEL → t._offsets.length ≤ 1)
    (hr : t._mode = .RIPMAP_LEVELS → 1 ≤ t._numXLevels)
    (hdx : t.slots.length ≤ out.dx_table.length) (hdy : t.slots.length ≤ out.dy_table.length)
    (hlx : t.slots.length ≤ out.lx_table.length) (hly : t.slots.length ≤ out.ly_table.length) :
    (∃ (res : TileOrder) (order : List Slot),
      t.getTileOrder out = (res, .returned) ∧
      res.dx_table.length = out.dx_table.length ∧ res.dy_table.length = out.dy_table.length ∧
      res.lx_table.length = out.lx_table.length ∧ res.ly_table.length = out.ly_table.length ∧
      res.dx_table.drop t.slots.length = out.dx_table.drop t.slots.length ∧
      res.dy_table.drop t.slots.length = out.dy_table.drop t.slots.length ∧
      res.lx_table.drop t.slots.length = out.lx_table.drop t.slots.length ∧
      res.ly_table.drop t.slots.length = out.ly_table.drop t.slots.length ∧
      (res.tuples t.slots.length).map (fun c => t.slotAt c.1 c.2.1 c.2.2.1 c.2.2.2)
        = order.map some ∧
      order.Perm t.slots ∧ (order.map t.get).Sorted (· ≤ ·) ∧
      res.dx_table.take t.slots.length = order.map (fun s => (s.2.2 : Int)) ∧
      res.dy_table.take t.slots.length = order.map (fun s => (s.2.1 : Int)) ∧
      (t._mode = .ONE_LEVEL →
        res.lx_table.take t.slots.length = List.replicate t.slots.length 0 ∧
        res.ly_table.take t.slots.length = List.replicate t.slots.length 0 ∧
        ∀ s ∈ order, s.1 = 0) ∧
      (t._mode = .MIPMAP_LEVELS →
        res.lx_table.take t.slots.length = order.map (fun s => (s.1 : Int)) ∧
        res.ly_table.take t.slots.length = order.map (fun s => (s.1 : Int))) ∧
      (t._mode = .RIPMAP_LEVELS →
        res.lx_table.take t.slots.length = order.map (fun s => (s.1 : Int) % t._numXLevels) ∧
        res.ly_table.take t.slots.length = order.map (fun s => (s.1 : Int) / t._numXLevels)) ∧
      res.tuples t.slots.length
        = order.map (fun s =>
            ((s.2.2 : Int), (s.2.1 : Int),
              (if t._mode = .ONE_LEVEL then 0
                else if t._mode = .MIPMAP_LEVELS then (s.1 : Int)
                else (s.1 : Int) % t._numXLevels),
              (if t._mode = .ONE_LEVEL then 0
                else if t._mode = .MIPMAP_LEVELS then (s.1 : Int)
                else (s.1 : Int) / t._numXLevels)))) ∧
    sampleOne.getTileOrder (zeroOrder 3)
      = ({ dx_table := [1, 0, 2], dy_table := [0, 0, 0], lx_table := [0, 0, 0],
           ly_table := [0, 0, 0] }, .returned) ∧
    sampleOne.getTileOrder (nineOrder 4)
      = ({ dx_table := [1, 0, 2, 9], dy_table := [0, 0, 0, 9], lx_table := [0, 0, 0, 9],
           ly_table := [0, 0, 0, 9] }, .returned) ∧
    sampleOne.get (0, 0, 1) = 50 ∧ sampleOne.get (0, 0, 0) = 100 ∧
    sampleOne.get (0, 0, 2) = 200 := by
  refine ⟨?_, by decide, by decide, rfl, rfl, rfl⟩
  have hlen : (sortTable t.tileTable).length = t.slots.length := by
    rw [(sortTable_perm _).length_eq, tileTable_eq, List.length_map]
  have hd : ∀ (f : tilepos → Int) (arr : List Int),
      ((sortTable t.tileTable).map f ++ arr.drop t.slots.length).drop t.slots.length
        = arr.drop t.slots.length := by
    intro f arr
    rw [List.drop_append_eq_append_drop, List.drop_of_length_le (by simp [hlen])]
    simp [hlen]
  have hl : ∀ (f : tilepos → Int) (arr : List Int), t.slots.length ≤ arr.length →
      ((sortTable t.tileTable).map f ++ arr.drop t.slots.length).length = arr.length := by
    intro f arr h
    simp [hlen]
    omega
  -- the first `T` entries of an array are the mapped sorted table
  have htk : ∀ (f : tilepos → Int) (g : Slot → Int) (arr : List Int),
      (∀ s ∈ t.slots, f (t.entry s) = g s) →
      ((sortTable t.tileTable).map f ++ arr.drop t.slots.length).take t.slots.length
        = ((sortTable t.tileTable).map tilepos.slot).map g := by
    intro f g arr hfg
    rw [List.take_left' (by rw [List.length_map, hlen]), List.map_map]
    apply List.map_congr_left
    intro p hp
    obtain ⟨s, hs, rfl⟩ := mem_sortTable t p hp
    simp only [Function.comp]
    rw [slot_entry]
    exact hfg s hs
  have hzero : t._mode = .ONE_LEVEL → ∀ s ∈ t.slots, s.1 = 0 := by
    intro hm s hs
    have := ((mem_slots t s).mp hs).1
    have := h1 hm
    omega
  have hmods : t._mode = .RIPMAP_LEVELS → ∀ s : Slot,
      (s.1 : Int).tmod t._numXLevels = (s.1 : Int) % t._numXLevels ∧
      (s.1 : Int).tdiv t._numXLevels = (s.1 : Int) / t._numXLevels := by
    intro hm s
    have := hr hm
    exact ⟨Int.tmod_eq_emod (by positivity) (by omega),
      Int.tdiv_eq_ediv (by positivity) (by omega)⟩
  have hX : ∀ s ∈ t.slots, t.emitLX (t.entry s)
      = (if t._mode = .ONE_LEVEL then 0
          else if t._mode = .MIPMAP_LEVELS then (s.1 : Int)
          else (s.1 : Int) % t._numXLevels) := by
    intro s _
    cases hm : t._mode with
    | NUM_LEVELMODES => exact absurd hm hmode
    | ONE_LEVEL => simp [TileOffsets.emitLX, hm]
    | MIPMAP_LEVELS => simp [TileOffsets.emitLX, hm, TileOffsets.entry]
    | RIPMAP_LEVELS =>
      simp only [TileOffsets.emitLX, hm, TileOffsets.entry, reduceCtorEq, if_false]
      exact (hmods hm s).1
  have hY : ∀ s ∈ t.slots, t.emitLY (t.entry s)
      = (if t._mode = .ONE_LEVEL then 0
          else if t._mode = .MIPMAP_LEVELS then (s.1 : Int)
          else (s.1 : Int) / t._numXLevels) := by
    intro s _
    cases hm : t._mode with
    | NUM_LEVELMODES => exact absurd hm hmode
    | ONE_LEVEL => simp [TileOffsets.emitLY, hm]
    | MIPMAP_LEVELS => simp [TileOffsets.emitLY, hm, TileOffsets.entry]
    | RIPMAP_LEVELS =>
      simp only [TileOffsets.emitLY, hm, TileOffsets.entry, reduceCtorEq, if_false]
      exact (hmods hm s).2
  have hmemo : ∀ s ∈ (sortTable t.tileTable).map tilepos.slot, s ∈ t.slots := fun s hs =>
    (sortTable_slots_perm t).mem_iff.mp hs
  have holen : ((sortTable t.tileTable).map tilepos.slot).length = t.slots.length := by
    rw [List.length_map, hlen]
  refine ⟨_, (sortTable t.tileTable).map tilepos.slot,
    getTileOrder_eq t out hmode hr hdx hdy hlx hly,
    hl _ _ hdx, hl _ _ hdy, hl _ _ hlx, hl _ _ hly, hd _ _, hd _ _, hd _ _, hd _ _, ?_,
    sortTable_slots_perm t, ?_, htk _ _ _ (fun s _ => rfl), htk _ _ _ (fun s _ => rfl),
    ?_, ?_, ?_, ?_⟩
  · rw [← hlen, tuples_of_maps, List.map_map, List.map_map]
    apply List.map_congr_left
    intro p hp
    obtain ⟨s, hs, rfl⟩ := mem_sortTable t p hp
    simp only [Function.comp]
    rw [slot_entry]
    exact slotAt_emitted t s hs hmode h1
  · rw [sortTable_get]
    exact sortTable_sorted _
  · intro hm
    have e : ∀ (L : List Slot), L.map (fun _ => (0 : Int)) = List.replicate L.length 0 := by
      intro L
      induction L with
      | nil => rfl
      | cons a as ih => simp [List.replicate_succ, ih]
    refine ⟨?_, ?_, fun s hs => hzero hm s (hmemo s hs)⟩
    · simp only
      rw [htk t.emitLX (fun _ => 0) _ (fun s hs => by rw [hX s hs, if_pos hm]), e, holen]
    · simp only
      rw [htk t.emitLY (fun _ => 0) _ (fun s hs => by rw [hY s hs, if_pos hm]), e, holen]
  · intro hm
    have hne : ¬ t._mode = .ONE_LEVEL := by rw [hm]; decide
    exact ⟨htk t.emitLX _ _ (fun s hs => by rw [hX s hs, if_neg hne, if_pos hm]),
      htk t.emitLY _ _ (fun s hs => by rw [hY s hs, if_neg hne, if_pos hm])⟩
  · intro hm
    have hne : ¬ t._mode = .ONE_LEVEL := by rw [hm]; decide
    have hne2 : ¬ t._mode = .MIPMAP_LEVELS := by rw [hm]; decide
    exact ⟨htk t.emitLX _ _ (fun s hs => by rw [hX s hs, if_neg hne, if_neg hne2]),
      htk t.emitLY _ _ (fun s hs => by rw [hY s hs, if_neg hne, if_neg hne2])⟩
  · rw [← hlen, tuples_of_maps, List.map_map]
    apply List.map_congr_left
    intro p hp
    obtain ⟨s, hs, rfl⟩ := mem_sortTable t p hp
    simp only [Function.comp]
    rw [slot_entry, hX s hs, hY s hs]
    rfl

/-- C4 at the three by three sample ripmap table, on arrays of ten nines. -/
theorem getTileOrder_order_witness :
    sampleRip9._mode ≠ .NUM_LEVELMODES ∧ (1 : Int) ≤ sampleRip9._numXLevels ∧
    sampleRip9.slots.length ≤ (nineOrder 10).dx_table.length ∧
    ∃ (res : TileOrder) (order : List Slot),
      sampleRip9.getTileOrder (nineOrder 10) = (res, .returned) ∧
      (res.tuples sampleRip9.slots.length).map
          (fun c => sampleRip9.slotAt c.1 c.2.1 c.2.2.1 c.2.2.2) = order.map some ∧
      order.Perm sampleRip9.slots ∧ (order.map sampleRip9.get).Sorted (· ≤ ·) ∧
      res.dx_table.take sampleRip9.slots.length = order.map (fun s => (s.2.2 : Int)) ∧
      res.dy_table.take sampleRip9.slots.length = order.map (fun s => (s.2.1 : Int)) ∧
      res.lx_table.take sampleRip9.slots.length
        = order.map (fun s => (s.1 : Int) % sampleRip9._numXLevels) ∧
      res.ly_table.take sampleRip9.slots.length
        = order.map (fun s => (s.1 : Int) / sampleRip9._numXLevels) ∧
      res.lx_table.drop sampleRip9.slots.length
        = (nineOrder 10).lx_table.drop sampleRip9.slots.length :=
  ⟨by decide, by decide, by decide,
    match (getTileOrder_order sampleRip9 (nineOrder 10) (by decide) (by intro h; cases h)
      (fun _ => by decide) (by decide) (by decide) (by decide) (by decide)).1 with
    | ⟨res, order, h0, _, _, _, _, _, _, h7, _, h9, h10, h11, h12, h13, _, _, h16, _⟩ =>
      ⟨res, order, h0, h9, h10, h11, h12, h13, (h16 rfl).1, (h16 rfl).2, h7⟩⟩


/-! ## C5: characterisation of `isValidTile` -/

/-- C5. For a table constructed from `(mode, numXLevels, numYLevels, numXTiles,
numYTiles)` (with at least one level in `ONE_LEVEL` mode), `isValidTile`
accepts `(dx, dy, lx, ly)` exactly when the four coordinates are non-negative
and: in `ONE_LEVEL` mode both levels are `0` and the tile fits grid `0`; in
`MIPMAP_LEVELS` mode both levels are below their counts and the tile fits the
grid of `lx` in both directions; in `RIPMAP_LEVELS` mode both levels are below
their counts, the column fits `numXTiles[lx]` and the row fits
`numYTiles[ly]`. -/
theorem isValidTile_new (mode : LevelMode) (nx ny : Int) (xt yt : Nat → Int) (t : TileOffsets)
    (ht : TileOffsets.new mode nx ny xt yt = .ok t)
    (h1 : mode = .ONE_LEVEL → 1 ≤ nx) (dx dy lx ly : Int) :
    t.isValidTile dx dy lx ly = true ↔
      (0 ≤ dx ∧ 0 ≤ dy ∧ 0 ≤ lx ∧ 0 ≤ ly ∧
        ((mode = .ONE_LEVEL ∧ lx = 0 ∧ ly = 0 ∧ dx < xt 0 ∧ dy < yt 0) ∨
         (mode = .MIPMAP_LEVELS ∧ lx < nx ∧ ly < ny ∧ dx < xt lx.toNat ∧ dy < yt lx.toNat) ∨
         (mode = .RIPMAP_LEVELS ∧ lx < nx ∧ ly < ny ∧ dx < xt lx.toNat ∧ dy < yt ly.toNat))) := by
  by_cases hneg : 0 ≤ dx ∧ 0 ≤ dy ∧ 0 ≤ lx ∧ 0 ≤ ly
  swap
  · have : (lx < 0 || ly < 0 || dx < 0 || dy < 0) = true := by
      simp only [Bool.or_eq_true, decide_eq_true_eq]; omega
    simp only [TileOffsets.isValidTile, this, if_true]
    constructor
    · intro h; exact absurd h (by simp)
    · intro h; exact absurd ⟨h.1, h.2.1, h.2.2.1, h.2.2.2.1⟩ hneg
  obtain ⟨hdx, hdy, hlx, hly⟩ := hneg
  have hnn : (lx < 0 || ly < 0 || dx < 0 || dy < 0) = false := by
    simp only [Bool.or_eq_false_iff, decide_eq_false_iff_not]; omega
  cases mode with
  | NUM_LEVELMODES => exact absurd ht (by simp [TileOffsets.new])
  | ONE_LEVEL =>
    obtain ⟨hm, -, -, ho⟩ := new_offsets_levels _ nx ny xt yt t (Or.inl rfl) ht
    have hnx := h1 rfl
    have h0 : 0 < nx.toNat := by omega
    by_cases hr : dy.toNat < (yt 0).toNat
    · simp [TileOffsets.isValidTile, hnn, hm, TileOffsets.level, TileOffsets.row, ho,
        getD_map_range, length_newGrid, getD_newGrid, length_getElem_newGrid, h0, hr]
      omega
    · simp [TileOffsets.isValidTile, hnn, hm, TileOffsets.level, TileOffsets.row, ho,
        getD_map_range, length_newGrid, getD_newGrid, length_getElem_newGrid, h0, hr]
      omega
  | MIPMAP_LEVELS =>
    obtain ⟨hm, hx, hy, ho⟩ := new_offsets_levels _ nx ny xt yt t (Or.inr rfl) ht
    by_cases hl : lx.toNat < nx.toNat
    · by_cases hr : dy.toNat < (yt lx.toNat).toNat
      · simp [TileOffsets.isValidTile, hnn, hm, hx, hy, TileOffsets.level, TileOffsets.row, ho,
          getD_map_range, length_newGrid, getD_newGrid, length_getElem_newGrid, hl, hr]
        omega
      · simp [TileOffsets.isValidTile, hnn, hm, hx, hy, TileOffsets.level, TileOffsets.row, ho,
          getD_map_range, length_newGrid, getD_newGrid, length_getElem_newGrid, hl, hr]
        omega
    · simp [TileOffsets.isValidTile, hnn, hm, hx, hy, TileOffsets.level, TileOffsets.row, ho,
        getD_map_range, length_newGrid, getD_newGrid, length_getElem_newGrid, hl]
      omega
  | RIPMAP_LEVELS =>
    obtain ⟨hm, hx, hy, -⟩ := new_fields _ nx ny xt yt t ht
    simp only [reduceCtorEq, false_and, false_or, true_and]
    by_cases hb : lx < nx ∧ ly < ny
    swap
    · constructor
      · intro h
        simp only [TileOffsets.isValidTile, hnn, hm, hx, hy] at h
        simp only [Bool.false_eq_true, if_false, Bool.and_eq_true, decide_eq_true_eq] at h
        exact absurd ⟨h.1.1.1.1, h.1.1.1.2⟩ hb
      · intro h; exact absurd ⟨h.2.2.2.2.1, h.2.2.2.2.2.1⟩ hb
    obtain ⟨hbx, hby⟩ := hb
    obtain ⟨-, -, -, ho⟩ := new_offsets_rip nx ny xt yt t (by omega) (by omega) ht
    obtain ⟨hi1, hi2, hi3⟩ := rip_index lx ly nx hlx hly hbx
    have hi4 := rip_index_lt lx.toNat ly.toNat nx.toNat ny.toNat (by omega) (by omega)
    have hnonneg : 0 ≤ lx + ly * nx := by nlinarith
    have hlen : (ny ⊔ 0) * (nx ⊔ 0) > lx + ly * nx := by
      rw [max_eq_left (show (0 : Int) ≤ ny by omega), max_eq_left (show (0 : Int) ≤ nx by omega)]
      nlinarith
    by_cases hr : dy.toNat < (yt ly.toNat).toNat
    · simp [TileOffsets.isValidTile, hnn, hm, hx, hy, TileOffsets.level, TileOffsets.row, ho,
        getD_map_range, length_newGrid, getD_newGrid, length_getElem_newGrid, hi1, hi4, hi2, hi3, hr]
      omega
    · simp [TileOffsets.isValidTile, hnn, hm, hx, hy, TileOffsets.level, TileOffsets.row, ho,
        getD_map_range, length_newGrid, getD_newGrid, length_getElem_newGrid, hi1, hi4, hi2, hi3, hr]
      omega

/-- C5 at the sample mipmap table: the tile `(0, 0)` of level 1 is accepted. -/
theorem isValidTile_new_witness :
    TileOffsets.new .MIPMAP_LEVELS 2 2 sampleCounts sampleCounts = .ok sampleMip ∧
    (LevelMode.MIPMAP_LEVELS = .ONE_LEVEL → (1 : Int) ≤ 2) ∧
    sampleMip.isValidTile 0 0 1 1 = true :=
  ⟨rfl, by decide,
    (isValidTile_new .MIPMAP_LEVELS 2 2 sampleCounts sampleCounts sampleMip rfl (by decide)
      0 0 1 1).mpr (by decide)⟩


/-! ## C6: ripmap flattening in `getTileOrder` and in `operator ()` -/

/-- C6. In `RIPMAP_LEVELS` mode with `numXLevels = nx >= 1` and output arrays
that hold at least one entry per slot, `getTileOrder` returns normally and for
every slot `(l, dy, dx)` of the table some output index `i < T` holds the
tuple `(dx, dy, l mod nx, l div nx)`; `operator ()` applied to that tuple uses
the indices `[l][dy][dx]`, since `(l div nx) * nx + l mod nx = l`, so the
emitted tuple addresses exactly that slot.  For `nx = 3` the flattened index 7
is emitted as `lx = 1`, `ly = 2`, and `operator ()` maps `lx = 1`, `ly = 2` to
index 7. -/
theorem ripmap_flattening (t : TileOffsets) (out : TileOrder)
    (hm : t._mode = .RIPMAP_LEVELS) (hnx : 1 ≤ t._numXLevels)
    (hdx : t.slots.length ≤ out.dx_table.length) (hdy : t.slots.length ≤ out.dy_table.length)
    (hlx : t.slots.length ≤ out.lx_table.length) (hly : t.slots.length ≤ out.ly_table.length) :
    (∃ res : TileOrder, t.getTileOrder out = (res, .returned) ∧
      ∀ s ∈ t.slots, ∃ i : Nat, i < t.slots.length ∧
        res.dx_table[i]? = some (s.2.2 : Int) ∧ res.dy_table[i]? = some (s.2.1 : Int) ∧
        res.lx_table[i]? = some ((s.1 : Int) % t._numXLevels) ∧
        res.ly_table[i]? = some ((s.1 : Int) / t._numXLevels) ∧
        t.address (s.2.2 : Int) (s.2.1 : Int) ((s.1 : Int) % t._numXLevels)
            ((s.1 : Int) / t._numXLevels)
          = .ok ((s.1 : Int), (s.2.1 : Int), (s.2.2 : Int)) ∧
        ((s.1 : Int) / t._numXLevels) * t._numXLevels + (s.1 : Int) % t._numXLevels = (s.1 : Int) ∧
        t.slotAt (s.2.2 : Int) (s.2.1 : Int) ((s.1 : Int) % t._numXLevels)
            ((s.1 : Int) / t._numXLevels) = some s) ∧
    (sampleRip9.getTileOrder (zeroOrder 9)).1.lx_table[7]? = some 1 ∧
    (sampleRip9.getTileOrder (zeroOrder 9)).1.ly_table[7]? = some 2 ∧
    sampleRip9.address 0 0 1 2 = .ok (7, 0, 0) ∧
    sampleRip9.emitLX (sampleRip9.entry (7, 0, 0)) = 1 ∧
    sampleRip9.emitLY (sampleRip9.entry (7, 0, 0)) = 2 := by
  refine ⟨?_, by decide, by decide, rfl, rfl, rfl⟩
  have hlen : (sortTable t.tileTable).length = t.slots.length := by
    rw [(sortTable_perm _).length_eq, tileTable_eq, List.length_map]
  refine ⟨_, getTileOrder_eq t out (by rw [hm]; decide) (fun _ => hnx) hdx hdy hlx hly, ?_⟩
  intro s hs
  have hmem : t.entry s ∈ sortTable t.tileTable := by
    rw [(sortTable_perm _).mem_iff, tileTable_eq]
    exact List.mem_map_of_mem _ hs
  obtain ⟨i, hi, hget⟩ := List.getElem_of_mem hmem
  have hget' : (sortTable t.tileTable)[i]? = some (t.entry s) := by
    rw [List.getElem?_eq_getElem hi, hget]
  have hat : ∀ (f : tilepos → Int) (arr : List Int),
      ((sortTable t.tileTable).map f ++ arr)[i]? = some (f (t.entry s)) := by
    intro f arr
    rw [List.getElem?_append_left (by simpa using hi), List.getElem?_map, hget']
    rfl
  have hnn : (0 : Int) ≤ (s.1 : Int) := by positivity
  have hmod : (s.1 : Int).tmod t._numXLevels = (s.1 : Int) % t._numXLevels :=
    Int.tmod_eq_emod hnn (by omega)
  have hdiv : (s.1 : Int).tdiv t._numXLevels = (s.1 : Int) / t._numXLevels :=
    Int.tdiv_eq_ediv hnn (by omega)
  have hsum : ((s.1 : Int) / t._numXLevels) * t._numXLevels + (s.1 : Int) % t._numXLevels
      = (s.1 : Int) := by
    rw [mul_comm]; exact Int.ediv_add_emod _ _
  have hX : t.emitLX (t.entry s) = (s.1 : Int) % t._numXLevels := by
    simp only [TileOffsets.emitLX, hm, TileOffsets.entry]; exact hmod
  have hY : t.emitLY (t.entry s) = (s.1 : Int) / t._numXLevels := by
    simp only [TileOffsets.emitLY, hm, TileOffsets.entry]; exact hdiv
  have hsl := slotAt_emitted t s hs (by rw [hm]; decide) (by rw [hm]; intro h; cases h)
  rw [hX, hY] at hsl
  refine ⟨i, by rw [← hlen]; exact hi, hat _ _, hat _ _, ?_, ?_, ?_, hsum, hsl⟩
  · rw [hat, hX]
  · rw [hat, hY]
  · simp only [TileOffsets.address, hm]
    rw [add_comm, hsum]

/-- C6 at the three by three sample ripmap table. -/
theorem ripmap_flattening_witness :
    sampleRip9._mode = .RIPMAP_LEVELS ∧ (1 : Int) ≤ sampleRip9._numXLevels ∧
    sampleRip9.slots.length ≤ (zeroOrder 9).dx_table.length ∧
    ∃ res : TileOrder, sampleRip9.getTileOrder (zeroOrder 9) = (res, .returned) ∧
      ∀ s ∈ sampleRip9.slots, ∃ i : Nat, i < sampleRip9.slots.length ∧
        res.dx_table[i]? = some (s.2.2 : Int) ∧ res.dy_table[i]? = some (s.2.1 : Int) ∧
        res.lx_table[i]? = some ((s.1 : Int) % sampleRip9._numXLevels) ∧
        res.ly_table[i]? = some ((s.1 : Int) / sampleRip9._numXLevels) ∧
        sampleRip9.address (s.2.2 : Int) (s.2.1 : Int) ((s.1 : Int) % sampleRip9._numXLevels)
            ((s.1 : Int) / sampleRip9._numXLevels)
          = .ok ((s.1 : Int), (s.2.1 : Int), (s.2.2 : Int)) ∧
        ((s.1 : Int) / sampleRip9._numXLevels) * sampleRip9._numXLevels
          + (s.1 : Int) % sampleRip9._numXLevels = (s.1 : Int) ∧
        sampleRip9.slotAt (s.2.2 : Int) (s.2.1 : Int) ((s.1 : Int) % sampleRip9._numXLevels)
            ((s.1 : Int) / sampleRip9._numXLevels) = some s :=
  ⟨rfl, by decide, by decide,
    (ripmap_flattening sampleRip9 (zeroOrder 9) rfl (by decide) (by decide) (by decide)
      (by decide) (by decide)).1⟩


/-! ## C7: which tuples address a slot -/

/-- C7, amended. In a table constructed with at least one level in each
direction (exactly one level in `ONE_LEVEL` mode), every slot is the slot that
`operator ()` returns for at least one tuple accepted by `isValidTile`; two
accepted tuples that address the same slot agree in column, row and `lx`, and
outside `MIPMAP_LEVELS` mode also in `ly`. -/
theorem address_unique_amended (mode : LevelMode) (nx ny : Int) (xt yt : Nat → Int)
    (t : TileOffsets) (ht : TileOffsets.new mode nx ny xt yt = .ok t)
    (hnx : 1 ≤ nx) (hny : 1 ≤ ny) (h1 : mode = .ONE_LEVEL → nx = 1)
    (s : Slot) (hs : s ∈ t.slots) :
    (∃ dx dy lx ly : Int, t.isValidTile dx dy lx ly = true ∧ t.slotAt dx dy lx ly = some s) ∧
    (∀ dx dy lx ly dx' dy' lx' ly' : Int,
      t.isValidTile dx dy lx ly = true → t.slotAt dx dy lx ly = some s →
      t.isValidTile dx' dy' lx' ly' = true → t.slotAt dx' dy' lx' ly' = some s →
      dx = dx' ∧ dy = dy' ∧ lx = lx' ∧ (mode ≠ .MIPMAP_LEVELS → ly = ly')) := by
  obtain ⟨hm, hx, hy, hmode⟩ := new_fields mode nx ny xt yt t ht
  obtain ⟨l, r, c⟩ := s
  have hmem := (mem_slots t (l, r, c)).mp hs
  simp only at hmem
  constructor
  · -- every slot is addressed by a valid tuple
    cases mode with
    | NUM_LEVELMODES => exact absurd rfl hmode
    | ONE_LEVEL =>
      obtain ⟨-, -, -, ho⟩ := new_offsets_levels _ nx ny xt yt t (Or.inl rfl) ht
      have hl : l = 0 := by
        have := hmem.1
        rw [ho, h1 rfl] at this
        simp at this
        exact this
      subst hl
      have hsl : t.slotAt (c : Int) (r : Int) 0 0 = some (0, r, c) := by
        simp only [TileOffsets.slotAt, TileOffsets.address, hm]
        exact slotOf_cast t (0, r, c) hs
      refine ⟨c, r, 0, 0, ?_, hsl⟩
      rw [isValidTile_iff]
      exact ⟨by simp, by simp, le_rfl, le_rfl, Or.inl ⟨hm, rfl, rfl⟩, _, hsl⟩
    | MIPMAP_LEVELS =>
      obtain ⟨-, -, -, ho⟩ := new_offsets_levels _ nx ny xt yt t (Or.inr rfl) ht
      have hl : (l : Int) < nx := by
        have := hmem.1
        rw [ho] at this
        simp at this
        omega
      have hsl : t.slotAt (c : Int) (r : Int) (l : Int) 0 = some (l, r, c) := by
        simp only [TileOffsets.slotAt, TileOffsets.address, hm]
        exact slotOf_cast t (l, r, c) hs
      refine ⟨c, r, l, 0, ?_, hsl⟩
      rw [isValidTile_iff]
      exact ⟨by simp, by simp, by simp, le_rfl,
        Or.inr (Or.inl ⟨hm, by rw [hx]; exact hl, by rw [hy]; omega⟩), _, hsl⟩
    | RIPMAP_LEVELS =>
      obtain ⟨-, -, -, ho⟩ := new_offsets_rip nx ny xt yt t (by omega) (by omega) ht
      have hl : l < ny.toNat * nx.toNat := by
        have := hmem.1
        rw [ho] at this
        simpa using this
      have hnxpos : 0 < nx.toNat := by omega
      have hlx : l % nx.toNat < nx.toNat := Nat.mod_lt _ hnxpos
      have hly : l / nx.toNat < ny.toNat := (Nat.div_lt_iff_lt_mul hnxpos).mpr hl
      have hcast : (((l % nx.toNat : Nat) : Int) + ((l / nx.toNat : Nat) : Int) * nx) = (l : Int) := by
        have h := Nat.mod_add_div l nx.toNat
        have h2 := congrArg (Nat.cast : Nat → Int) h
        rw [Nat.cast_add, Nat.cast_mul, Int.toNat_of_nonneg (by omega)] at h2
        linarith
      have hsl : t.slotAt (c : Int) (r : Int) ((l % nx.toNat : Nat) : Int)
          ((l / nx.toNat : Nat) : Int) = some (l, r, c) := by
        simp only [TileOffsets.slotAt, TileOffsets.address, hm, hx]
        rw [hcast]
        exact slotOf_cast t (l, r, c) hs
      refine ⟨c, r, ((l % nx.toNat : Nat) : Int), ((l / nx.toNat : Nat) : Int), ?_, hsl⟩
      rw [isValidTile_iff]
      refine ⟨by simp, by simp, by positivity, by positivity, Or.inr (Or.inr ⟨hm, ?_, ?_⟩), _, hsl⟩
      · rw [hx]; omega
      · rw [hy]; omega
  · -- two valid tuples of one slot
    intro dx dy lx ly dx' dy' lx' ly' hv hsl hv' hsl'
    obtain ⟨a1, a2, a3, a4, -, a5⟩ := slotAt_eq_some t dx dy lx ly _ hsl
    obtain ⟨b1, b2, b3, b4, -, b5⟩ := slotAt_eq_some t dx' dy' lx' ly' _ hsl'
    simp only at a3 a4 b3 b4 a5 b5
    obtain ⟨-, -, v1, v2, v3, -⟩ := (isValidTile_iff t dx dy lx ly).mp hv
    obtain ⟨-, -, w1, w2, w3, -⟩ := (isValidTile_iff t dx' dy' lx' ly').mp hv'
    have edx : dx = dx' := by
      rw [← Int.toNat_of_nonneg a2, ← Int.toNat_of_nonneg b2, ← a4, ← b4]
    have edy : dy = dy' := by
      rw [← Int.toNat_of_nonneg a1, ← Int.toNat_of_nonneg b1, ← a3, ← b3]
    refine ⟨edx, edy, ?_⟩
    clear ht hs hmem hsl hsl' hv hv'
    cases mode with
    | NUM_LEVELMODES => exact absurd rfl hmode
    | ONE_LEVEL =>
      simp only [hm, reduceCtorEq, false_and, or_false, true_and] at v3 w3
      exact ⟨by omega, fun _ => by omega⟩
    | MIPMAP_LEVELS =>
      simp only [hm, reduceCtorEq, false_and, or_false, false_or, true_and] at a5 b5
      exact ⟨by omega, fun h => absurd rfl h⟩
    | RIPMAP_LEVELS =>
      simp only [hm, reduceCtorEq, false_and, false_or, true_and] at a5 b5 v3 w3
      have heq : lx + ly * t._numXLevels = lx' + ly' * t._numXLevels := by omega
      obtain ⟨e1, e2⟩ := rip_decode_unique lx ly lx' ly' t._numXLevels v1 v3.1 w1 w3.1 heq
      exact ⟨e1, fun _ => e2⟩

/-- C7, amended, at the last slot of the sample ripmap table. -/
theorem address_unique_amended_witness :
    TileOffsets.new .RIPMAP_LEVELS 2 2 sampleCounts sampleCounts = .ok sampleRip ∧
    ((3, 0, 0) : Slot) ∈ sampleRip.slots ∧
    ∃ dx dy lx ly : Int, sampleRip.isValidTile dx dy lx ly = true ∧
      sampleRip.slotAt dx dy lx ly = some (3, 0, 0) :=
  ⟨rfl, by rw [mem_slots]; decide,
    (address_unique_amended .RIPMAP_LEVELS 2 2 sampleCounts sampleCounts sampleRip rfl
      (by decide) (by decide) (by intro h; cases h) (3, 0, 0) (by rw [mem_slots]; decide)).1⟩

/-- C7 as stated fails: in the sample mipmap table the tuples `(0, 0, 0, 0)`
and `(0, 0, 0, 1)` are both accepted and both address slot `(0, 0, 0)`, so no
tuple is the only one for that slot. -/
theorem address_unique_counterexample :
    TileOffsets.new .MIPMAP_LEVELS 2 2 sampleCounts sampleCounts = .ok sampleMip ∧
    ¬ (∀ s ∈ sampleMip.slots, ∃! c : Int × Int × Int × Int,
        sampleMip.isValidTile c.1 c.2.1 c.2.2.1 c.2.2.2 = true ∧
        sampleMip.slotAt c.1 c.2.1 c.2.2.1 c.2.2.2 = some s) := by
  refine ⟨rfl, ?_⟩
  intro h
  obtain ⟨c, -, hc⟩ := h (0, 0, 0) (by rw [mem_slots]; decide)
  have e1 := hc (0, 0, 0, 0) ⟨rfl, rfl⟩
  have e2 := hc (0, 0, 0, 1) ⟨rfl, rfl⟩
  rw [← e2] at e1
  have e3 := congrArg (fun c : Int × Int × Int × Int => c.2.2.2) e1
  simp at e3


/-! ## C8: shape of a constructed table -/

/-- C8. A table constructed from non-negative level and tile counts has, in
`ONE_LEVEL` and `MIPMAP_LEVELS` mode, `numXLevels` level grids, grid `l` with
`numYTiles[l]` rows of `numXTiles[l]` columns; in `RIPMAP_LEVELS` mode it has
`numXLevels * numYLevels` grids, the grid at flattened index
`ly * numXLevels + lx` with `numYTiles[ly]` rows of `numXTiles[lx]` columns.
The number of slots is the sum of `numXTiles * numYTiles` over the levels
(over all pairs `(lx, ly)` for a ripmap). -/
theorem shape_new (mode : LevelMode) (nx ny : Int) (xt yt : Nat → Int) (t : TileOffsets)
    (ht : TileOffsets.new mode nx ny xt yt = .ok t)
    (hnx : 0 ≤ nx) (hny : 0 ≤ ny) (hxt : ∀ l, 0 ≤ xt l) (hyt : ∀ l, 0 ≤ yt l) :
    (mode = .ONE_LEVEL ∨ mode = .MIPMAP_LEVELS →
      (t._offsets.length : Int) = nx ∧
      (∀ l : Nat, (l : Int) < nx →
        ((t.level l).length : Int) = yt l ∧
        ∀ dy : Nat, (dy : Int) < yt l → ((t.row l dy).length : Int) = xt l) ∧
      (t.slots.length : Int) = ((List.range nx.toNat).map (fun l => xt l * yt l)).sum) ∧
    (mode = .RIPMAP_LEVELS →
      (t._offsets.length : Int) = nx * ny ∧
      (∀ lx ly : Nat, (lx : Int) < nx → (ly : Int) < ny →
        ((t.level ((ly : Int) * nx + lx)).length : Int) = yt ly ∧
        ∀ dy : Nat, (dy : Int) < yt ly →
          ((t.row ((ly : Int) * nx + lx) dy).length : Int) = xt lx) ∧
      (t.slots.length : Int) =
        ((List.range ny.toNat).map (fun ly =>
          ((List.range nx.toNat).map (fun lx => xt lx * yt ly)).sum)).sum) := by
  constructor
  · intro hm
    obtain ⟨-, -, -, ho⟩ := new_offsets_levels mode nx ny xt yt t hm ht
    refine ⟨?_, ?_, ?_⟩
    · simp [ho]; omega
    · intro l hl
      have hl' : l < nx.toNat := by omega
      have hy := hyt l
      have hlev := level_map_range t _ _ ho (l : Int) (by simpa using hl')
      simp only [Int.toNat_natCast] at hlev
      refine ⟨?_, ?_⟩
      · rw [hlev, length_newGrid]; omega
      · intro dy hdy
        have hx := hxt l
        rw [row_newGrid t l dy _ _ hlev (by simp; omega), List.length_replicate]
        omega
    · rw [length_slots, totalSize_map_range t _ _ ho]
      congr 1
      apply List.map_congr_left
      intro l _
      rw [sum_length_newGrid]
      push_cast
      rw [Int.toNat_of_nonneg (hxt l), Int.toNat_of_nonneg (hyt l)]
      ring
  · intro hm
    subst hm
    obtain ⟨-, -, -, ho⟩ := new_offsets_rip nx ny xt yt t hnx hny ht
    refine ⟨?_, ?_, ?_⟩
    · simp only [ho, List.length_map, List.length_range]
      push_cast
      rw [Int.toNat_of_nonneg hnx, Int.toNat_of_nonneg hny]; ring
    · intro lx ly hlx hly
      obtain ⟨hi1, hi2, hi3⟩ := rip_index lx ly nx (by omega) (by omega) hlx
      simp only [Int.toNat_natCast] at hi1 hi2 hi3
      have hi4 := rip_index_lt lx ly nx.toNat ny.toNat (by omega) (by omega)
      have hidx : ((ly : Int) * nx + (lx : Int)).toNat = ly * nx.toNat + lx := by
        rw [add_comm]; exact hi1
      have hy := hyt ly
      have hlev := level_map_range t _ _ ho ((ly : Int) * nx + lx) (by rw [hidx]; exact hi4)
      simp only [hidx, hi2, hi3] at hlev
      refine ⟨?_, ?_⟩
      · rw [hlev, length_newGrid]; omega
      · intro dy hdy
        have hx := hxt lx
        rw [row_newGrid t _ dy _ _ hlev (by simp; omega), List.length_replicate]
        omega
    · rw [length_slots, totalSize_map_range t _ _ ho, sum_range_mul]
      congr 1
      apply List.map_congr_left
      intro ly hly
      congr 1
      apply List.map_congr_left
      intro lx hlx
      have hlx' : lx < nx.toNat := by simpa using hlx
      have h1 : (ly * nx.toNat + lx) / nx.toNat = ly := by
        rw [Nat.mul_comm, Nat.mul_add_div (by omega), Nat.div_eq_of_lt hlx']; simp
      have h2 : (ly * nx.toNat + lx) % nx.toNat = lx := by
        rw [Nat.mul_comm, Nat.mul_add_mod, Nat.mod_eq_of_lt hlx']
      rw [h1, h2, sum_length_newGrid]
      push_cast
      rw [Int.toNat_of_nonneg (hxt lx), Int.toNat_of_nonneg (hyt ly)]
      ring

/-- C8 at the sample mipmap table: 2 * 2 + 1 * 1 slots. -/
theorem shape_new_witness :
    TileOffsets.new .MIPMAP_LEVELS 2 2 sampleCounts sampleCounts = .ok sampleMip ∧
    (0 : Int) ≤ 2 ∧ (∀ l, 0 ≤ sampleCounts l) ∧
    (sampleMip.slots.length : Int)
      = ((List.range (2 : Int).toNat).map (fun l => sampleCounts l * sampleCounts l)).sum :=
  ⟨rfl, by decide, fun l => by unfold sampleCounts; split <;> decide,
    ((shape_new .MIPMAP_LEVELS 2 2 sampleCounts sampleCounts sampleMip rfl (by decide) (by decide)
      (fun l => by unfold sampleCounts; split <;> decide)
      (fun l => by unfold sampleCounts; split <;> decide)).1 (Or.inr rfl)).2.2⟩


/-! ## C9: the list `readFrom` rejects a list of the wrong length -/

/-- C9. When the length of the offset list differs from the number of slots,
the list form of `readFrom` throws `ArgExc` (the size-mismatch error) and
leaves the table, hence every slot, and `complete` as they were. -/
theorem readFromList_mismatch (t : TileOffsets) (chunkOffsets : List Int) (complete : Bool)
    (h : chunkOffsets.length ≠ t.slots.length) :
    t.readFromList chunkOffsets complete = (t, complete, .threw .ArgExc) := by
  rw [length_slots] at h
  simp [TileOffsets.readFromList, h]

/-- C9 at the sample mipmap table (5 slots) and a list of 4 offsets. -/
theorem readFromList_mismatch_witness :
    [(1 : Int), 2, 3, 4].length ≠ sampleMip.slots.length ∧
    sampleMip.readFromList [1, 2, 3, 4] true = (sampleMip, true, .threw .ArgExc) :=
  ⟨by decide, readFromList_mismatch sampleMip [1, 2, 3, 4] true (by decide)⟩


/-! ## C10: the list `readFrom` fills the table in canonical order -/

/-- C10. When the offset list has exactly as many elements as the table has
slots, the list form of `readFrom` returns normally; the table keeps its
slots, the slot that is `i`-th in canonical order holds `chunkOffsets[i]` (so
reading the slots in canonical order gives the list back), and `complete` is
true exactly when every element of the list is strictly positive. -/
theorem readFromList_fill (t : TileOffsets) (chunkOffsets : List Int) (complete : Bool)
    (h : chunkOffsets.length = t.slots.length) :
    ∃ t' : TileOffsets,
      t.readFromList chunkOffsets complete
        = (t', decide (∀ x ∈ chunkOffsets, 0 < x), .returned) ∧
      t'.slots = t.slots ∧ t'.slots.map t'.get = chunkOffsets ∧
      (∀ i : Nat, i < t.slots.length →
        (t.slots[i]?).map t'.get = chunkOffsets[i]?) := by
  rw [length_slots] at h
  have hspec := fillLevels_spec chunkOffsets t._offsets 0 (by
    have : (t._offsets.map (fun g => (g.map List.length).sum)).sum = t.totalSize := rfl
    omega)
  obtain ⟨s1, s2, -⟩ := hspec
  have htot : (t._offsets.map (fun g => (g.map List.length).sum)).sum = chunkOffsets.length := by
    rw [h]; rfl
  rw [htot, List.drop_zero, List.take_length] at s2
  let t' : TileOffsets := { t with _offsets := (fillLevels chunkOffsets t._offsets 0).1 }
  have hshape : t'.shape = t.shape := s1
  have hslots : t'.slots = t.slots := slots_eq_of_shape t' t hshape
  have hflat : t'.flat = chunkOffsets := s2
  have hget : t'.slots.map t'.get = chunkOffsets := by rw [← flat_eq_map_get, hflat]
  refine ⟨t', ?_, hslots, hget, ?_⟩
  · have hne : ¬ chunkOffsets.length ≠ t.totalSize := by omega
    simp only [TileOffsets.readFromList, hne, if_false]
    congr 2
    rw [Bool.eq_iff_iff]
    simp only [Bool.not_eq_true', decide_eq_true_eq]
    rw [anyOffsetsAreInvalid_eq_false_iff, hflat]
  · intro i _
    rw [← hslots, ← List.getElem?_map, hget]

/-- C10 at the sample mipmap table and five positive offsets. -/
theorem readFromList_fill_witness :
    [(5 : Int), 6, 7, 8, 9].length = sampleMip.slots.length ∧
    ∃ t' : TileOffsets,
      sampleMip.readFromList [5, 6, 7, 8, 9] false
        = (t', decide (∀ x ∈ [(5 : Int), 6, 7, 8, 9], 0 < x), .returned) ∧
      t'.slots = sampleMip.slots ∧ t'.slots.map t'.get = [5, 6, 7, 8, 9] ∧
      (∀ i : Nat, i < sampleMip.slots.length →
        (sampleMip.slots[i]?).map t'.get = [(5 : Int), 6, 7, 8, 9][i]?) :=
  ⟨by decide, readFromList_fill sampleMip [5, 6, 7, 8, 9] false (by decide)⟩


/-! ## C11: the completeness flag of the stream `readFrom` -/

/-- C11. When the stream holds at least one 64-bit value per slot at its
position, the stream `readFrom` returns normally, and `complete` is true
exactly when every one of the `T` values read is strictly positive; a value
that is zero or negative makes it false.  When all values are positive the
call ends in the state reached by the reads alone: the table holds exactly
those values in canonical order and the stream stands just behind them, with
its error condition untouched, as no scan and no seek has taken place. -/
theorem readFrom_complete (t : TileOffsets) (is : IStream) (complete isMultiPartFile isDeep : Bool)
    (h : is.pos + 8 * t.slots.length ≤ is.data.length) :
    (t.readFrom is complete isMultiPartFile isDeep).outcome = .returned ∧
    ((t.readFrom is complete isMultiPartFile isDeep).complete = true ↔
      ∀ v ∈ decode64s t.slots.length (is.data.drop is.pos), 0 < v) ∧
    ((∃ v ∈ decode64s t.slots.length (is.data.drop is.pos), v ≤ 0) →
      (t.readFrom is complete isMultiPartFile isDeep).complete = false) ∧
    ((∀ v ∈ decode64s t.slots.length (is.data.drop is.pos), 0 < v) →
      ∃ t' : TileOffsets,
        t.readFrom is complete isMultiPartFile isDeep
          = { table := t', stream := { is with pos := is.pos + 8 * t.slots.length },
              complete := true, outcome := .returned } ∧
        t'.slots = t.slots ∧
        t'.slots.map t'.get = decode64s t.slots.length (is.data.drop is.pos)) := by
  obtain ⟨offs, r1, r2, r3⟩ := readLevels_table t is h
  by_cases hv : ({ t with _offsets := offs } : TileOffsets).anyOffsetsAreInvalid = true
  · have hex := (anyOffsetsAreInvalid_iff _).mp hv
    rw [r3] at hex
    have hres : t.readFrom is complete isMultiPartFile isDeep
        = { table := (({ t with _offsets := offs } : TileOffsets).findTiles
                { is with pos := is.pos + 8 * t.slots.length } isMultiPartFile isDeep false).1,
            stream := { data := is.data, pos := is.pos + 8 * t.slots.length, failed := false },
            complete := false, outcome := .returned } := by
      simp only [TileOffsets.readFrom, r1, hv, if_true, reconstructFromFile_eq]
    rw [hres]
    refine ⟨rfl, ?_, fun _ => rfl, ?_⟩
    · constructor
      · intro hc; exact absurd hc (by simp)
      · intro hall
        obtain ⟨v, hv1, hv2⟩ := hex
        have := hall v hv1
        omega
    · intro hall
      obtain ⟨v, hv1, hv2⟩ := hex
      have := hall v hv1
      omega
  · have hv' : ({ t with _offsets := offs } : TileOffsets).anyOffsetsAreInvalid = false := by
      simpa using hv
    have hall := (anyOffsetsAreInvalid_eq_false_iff _).mp hv'
    rw [r3] at hall
    have hres : t.readFrom is complete isMultiPartFile isDeep
        = { table := { t with _offsets := offs },
            stream := { is with pos := is.pos + 8 * t.slots.length },
            complete := true, outcome := .returned } := by
      simp only [TileOffsets.readFrom, r1, hv', Bool.false_eq_true, if_false]
    rw [hres]
    refine ⟨rfl, ⟨fun _ => hall, fun _ => rfl⟩, ?_, ?_⟩
    · rintro ⟨v, hv1, hv2⟩
      have := hall v hv1
      omega
    · intro _
      refine ⟨_, rfl, slots_eq_of_shape _ _ r2, ?_⟩
      rw [← flat_eq_map_get, r3]

/-- C11 at the fresh three-tile table and the stream holding 5, 0, 7. -/
theorem readFrom_complete_witness :
    sampleTableStream.pos + 8 * sampleFresh.slots.length ≤ sampleTableStream.data.length ∧
    ((sampleFresh.readFrom sampleTableStream true false false).complete = true ↔
      ∀ v ∈ decode64s sampleFresh.slots.length
        (sampleTableStream.data.drop sampleTableStream.pos), 0 < v) :=
  ⟨by decide, (readFrom_complete sampleFresh sampleTableStream true false false (by decide)).2.1⟩


/-! ## C12: the stream position after a fallback read -/

/-- C12, amended. When the stream `readFrom` has read a table that contains
an invalid offset, it returns normally with `complete = false` and the stream
cleared and positioned where the table ends, `8 * T` bytes behind the position
at which reading started: `reconstructFromFile` saves the position at its own
start, which is after the table was read.  The position equals the pre-read
position only for a table without slots. -/
theorem readFrom_fallback_position (t : TileOffsets) (is : IStream)
    (complete isMultiPartFile isDeep : Bool)
    (h : is.pos + 8 * t.slots.length ≤ is.data.length)
    (hinv : ∃ v ∈ decode64s t.slots.length (is.data.drop is.pos), v ≤ 0) :
    (t.readFrom is complete isMultiPartFile isDeep).outcome = .returned ∧
    (t.readFrom is complete isMultiPartFile isDeep).complete = false ∧
    (t.readFrom is complete isMultiPartFile isDeep).stream
      = { data := is.data, pos := is.pos + 8 * t.slots.length, failed := false } ∧
    ((t.readFrom is complete isMultiPartFile isDeep).stream.pos = is.pos ↔ t.slots.length = 0) := by
  obtain ⟨offs, r1, r2, r3⟩ := readLevels_table t is h
  have hv : ({ t with _offsets := offs } : TileOffsets).anyOffsetsAreInvalid = true := by
    rw [anyOffsetsAreInvalid_iff, r3]; exact hinv
  have hres : t.readFrom is complete isMultiPartFile isDeep
      = { table := (({ t with _offsets := offs } : TileOffsets).findTiles
              { is with pos := is.pos + 8 * t.slots.length } isMultiPartFile isDeep false).1,
          stream := { data := is.data, pos := is.pos + 8 * t.slots.length, failed := false },
          complete := false, outcome := .returned } := by
    simp only [TileOffsets.readFrom, r1, hv, if_true, reconstructFromFile_eq]
  rw [hres]
  refine ⟨rfl, rfl, rfl, ?_⟩
  simp only
  omega

/-- C12, amended, at the fresh three-tile table and the stream holding 5, 0, 7. -/
theorem readFrom_fallback_position_witness :
    sampleTableStream.pos + 8 * sampleFresh.slots.length ≤ sampleTableStream.data.length ∧
    (∃ v ∈ decode64s sampleFresh.slots.length
        (sampleTableStream.data.drop sampleTableStream.pos), v ≤ 0) ∧
    (sampleFresh.readFrom sampleTableStream true false false).stream
      = { data := sampleTableStream.data,
          pos := sampleTableStream.pos + 8 * sampleFresh.slots.length, failed := false } :=
  ⟨by decide, ⟨0, by decide, le_refl 0⟩,
    (readFrom_fallback_position sampleFresh sampleTableStream true false false (by decide)
      ⟨0, by decide, le_refl 0⟩).2.2.1⟩

/-- C12 as stated fails: the three-tile table read from position 0 of a
stream holding 5, 0, 7 contains the invalid offset 0, reconstruction runs,
and the stream is left at position 24, not at the pre-read position 0. -/
theorem readFrom_fallback_position_counterexample :
    (sampleFresh.readFrom sampleTableStream true false false).table.anyOffsetsAreInvalid = true ∧
    (sampleFresh.readFrom sampleTableStream true false false).complete = false ∧
    (sampleFresh.readFrom sampleTableStream true false false).outcome = .returned ∧
    sampleTableStream.pos = 0 ∧
    (sampleFresh.readFrom sampleTableStream true false false).stream.pos = 24 ∧
    ¬ ((sampleFresh.readFrom sampleTableStream true false false).stream.pos
        = sampleTableStream.pos) := by
  refine ⟨by decide, by decide, by decide, rfl, by decide, by decide⟩


/-! ## C13: what the slots hold after reconstruction -/

/-- C13, amended. `reconstructFromFile` returns normally, and afterwards
every slot holds either the value it held when `reconstructFromFile` was
called, or the position at which the scan read a chunk whose header
`isValidTile` accepts and which addresses that slot.  For a table that was
all zero the first case is 0.  When the stream `readFrom` has read a value
for every slot, every slot of the table it leaves holds either the value read
for it or such a recovered position: the values read are not reset before the
scan. -/
theorem reconstruct_slots (t : TileOffsets) (is : IStream) (isMultiPart isDeep : Bool) :
    (∃ t' : TileOffsets,
      t.reconstructFromFile is isMultiPart isDeep
        = (t', { data := is.data, pos := is.pos, failed := false }, .returned) ∧
      t'.slots = t.slots ∧
      ∀ s : Slot,
        t'.get s = t.get s ∨
        ∃ (isp is' : IStream) (tx ty lx ly : Int),
          isp.data = is.data ∧
          readChunk isp isMultiPart isDeep = (some (tx, ty, lx, ly), is') ∧
          t.isValidTile tx ty lx ly = true ∧ t.slotAt tx ty lx ly = some s ∧
          t'.get s = (isp.pos : Int)) ∧
    (∀ complete : Bool, is.pos + 8 * t.slots.length ≤ is.data.length →
      ∃ tr : TileOffsets,
        tr.slots = t.slots ∧
        tr.slots.map tr.get = decode64s t.slots.length (is.data.drop is.pos) ∧
        ∀ s : Slot,
          (t.readFrom is complete isMultiPart isDeep).table.get s = tr.get s ∨
          ∃ (isp is' : IStream) (tx ty lx ly : Int),
            isp.data = is.data ∧
            readChunk isp isMultiPart isDeep = (some (tx, ty, lx, ly), is') ∧
            t.isValidTile tx ty lx ly = true ∧ t.slotAt tx ty lx ly = some s ∧
            (t.readFrom is complete isMultiPart isDeep).table.get s = (isp.pos : Int)) := by
  constructor
  · refine ⟨_, reconstructFromFile_eq t is isMultiPart isDeep, ?_, ?_⟩
    · exact slots_eq_of_shape _ _
        (findTilesLoop_frame isMultiPart isDeep false t.totalSize t is).2.2.2
    · intro s
      exact findTilesLoop_slots isMultiPart isDeep t is.data t.totalSize t is rfl rfl rfl rfl rfl s
  · intro complete h
    obtain ⟨offs, r1, r2, r3⟩ := readLevels_table t is h
    refine ⟨{ t with _offsets := offs }, slots_eq_of_shape _ _ r2, ?_, ?_⟩
    · rw [← flat_eq_map_get, r3]
    · intro s
      by_cases hv : ({ t with _offsets := offs } : TileOffsets).anyOffsetsAreInvalid = true
      · have hres : (t.readFrom is complete isMultiPart isDeep).table
            = (({ t with _offsets := offs } : TileOffsets).findTiles
                { is with pos := is.pos + 8 * t.slots.length } isMultiPart isDeep false).1 := by
          simp only [TileOffsets.readFrom, r1, hv, if_true, reconstructFromFile_eq]
        rw [hres]
        exact findTilesLoop_slots isMultiPart isDeep t is.data _ { t with _offsets := offs }
          { is with pos := is.pos + 8 * t.slots.length } rfl rfl rfl rfl r2 s
      · have hv' : ({ t with _offsets := offs } : TileOffsets).anyOffsetsAreInvalid = false := by
          simpa using hv
        left
        simp only [TileOffsets.readFrom, r1, hv', Bool.false_eq_true, if_false]

/-- C13, amended, at the fresh three-tile table and the stream with the
chunks of tiles 2 and 0 followed by a rejected header. -/
theorem reconstruct_slots_witness :
    ∃ t' : TileOffsets,
      sampleFresh.reconstructFromFile sampleStream false false
        = (t', { data := sampleStream.data, pos := sampleStream.pos, failed := false },
            .returned) ∧
      t'.slots = sampleFresh.slots ∧
      ∀ s : Slot,
        t'.get s = sampleFresh.get s ∨
        ∃ (isp is' : IStream) (tx ty lx ly : Int),
          isp.data = sampleStream.data ∧
          readChunk isp false false = (some (tx, ty, lx, ly), is') ∧
          sampleFresh.isValidTile tx ty lx ly = true ∧ sampleFresh.slotAt tx ty lx ly = some s ∧
          t'.get s = (isp.pos : Int) :=
  (reconstruct_slots sampleFresh sampleStream false false).1

/-- C13 as stated fails: after the stream `readFrom` of the three-tile table
from a stream holding 5, 0, 7 (so that reconstruction runs), slot `(0, 0, 0)`
holds 5, which is not 0 and is not the start of a chunk: no chunk can be read
at byte 5 of the 24 bytes. -/
theorem reconstruct_slots_counterexample :
    (sampleFresh.readFrom sampleTableStream true false false).outcome = .returned ∧
    (sampleFresh.readFrom sampleTableStream true false false).complete = false ∧
    (sampleFresh.readFrom sampleTableStream true false false).table.get (0, 0, 0) = 5 ∧
    ¬ ((sampleFresh.readFrom sampleTableStream true false false).table.get (0, 0, 0) = 0 ∨
        ∃ (isp is' : IStream) (tx ty lx ly : Int),
          isp.data = sampleTableStream.data ∧
          readChunk isp false false = (some (tx, ty, lx, ly), is') ∧
          (sampleFresh.readFrom sampleTableStream true false false).table.get (0, 0, 0)
            = (isp.pos : Int)) := by
  have hget : (sampleFresh.readFrom sampleTableStream true false false).table.get (0, 0, 0) = 5 := by
    decide
  refine ⟨by decide, by decide, hget, ?_⟩
  rw [hget]
  rintro (h | ⟨isp, is', tx, ty, lx, ly, hd, hr, hp⟩)
  · exact absurd h (by decide)
  · have hpos : isp.pos = 5 := by omega
    have hlen : isp.data.length = 24 := by rw [hd]; decide
    have hshort := readChunk_short isp false false (by
      simp only [List.length_drop, headerLength, hlen, hpos]
      decide)
    rw [hr] at hshort
    exact absurd hshort (by simp)


/-! ## C14: emptiness of a fresh table -/

/-- C14, amended. Immediately after construction in one of the three
recognised modes every offset is 0 and `isEmpty` returns true;
`anyOffsetsAreInvalid` returns true exactly when the table has at least one
slot (for a table without slots there is no offset to be invalid). -/
theorem new_empty (mode : LevelMode) (nx ny : Int) (xt yt : Nat → Int) (t : TileOffsets)
    (ht : TileOffsets.new mode nx ny xt yt = .ok t) :
    (∀ x ∈ t.flat, x = 0) ∧ (∀ s : Slot, t.get s = 0) ∧ t.isEmpty = true ∧
    (t.anyOffsetsAreInvalid = true ↔ 0 < t.slots.length) := by
  have hz := new_flat_zero mode nx ny xt yt t ht
  refine ⟨hz, new_get_zero mode nx ny xt yt t ht, (isEmpty_iff t).mpr hz, ?_⟩
  rw [anyOffsetsAreInvalid_iff]
  have hlen : t.slots.length = t.flat.length := by rw [flat_eq_map_get, List.length_map]
  rw [hlen]
  constructor
  · rintro ⟨x, hx, -⟩
    exact List.length_pos_of_mem hx
  · intro h
    obtain ⟨x, hx⟩ := List.exists_mem_of_length_pos h
    exact ⟨x, hx, le_of_eq (hz x hx)⟩

/-- C14, amended, at the sample mipmap table. -/
theorem new_empty_witness :
    TileOffsets.new .MIPMAP_LEVELS 2 2 sampleCounts sampleCounts = .ok sampleMip ∧
    sampleMip.isEmpty = true ∧
    (sampleMip.anyOffsetsAreInvalid = true ↔ 0 < sampleMip.slots.length) :=
  ⟨rfl, (new_empty .MIPMAP_LEVELS 2 2 sampleCounts sampleCounts sampleMip rfl).2.2.1,
    (new_empty .MIPMAP_LEVELS 2 2 sampleCounts sampleCounts sampleMip rfl).2.2.2⟩

/-- C14 as stated fails: the one-level table constructed from zero tiles is
empty, and `anyOffsetsAreInvalid` returns false for it. -/
theorem new_empty_counterexample :
    TileOffsets.new .ONE_LEVEL 1 1 (fun _ => 0) (fun _ => 0) = .ok sampleNoTiles ∧
    sampleNoTiles.isEmpty = true ∧ sampleNoTiles.anyOffsetsAreInvalid = false ∧
    ¬ (sampleNoTiles.anyOffsetsAreInvalid = true) := by
  refine ⟨rfl, rfl, rfl, by decide⟩


/-! ## C15: the layout written by `writeTo` -/

/-- C15. On a stream that reports a position `p` other than `-1`, `writeTo`
returns `p`, the length of what the stream held, and appends exactly `T`
values of 8 bytes: the encodings of the offsets in canonical order, level
outermost and column innermost; decoding the appended bytes gives the offsets
back.  The table is an argument that `writeTo`, a `const` member, does not
return: it is unchanged. -/
theorem writeTo_layout (t : TileOffsets) (os : OStream) (h : os.tellp ≠ -1) :
    t.writeTo os
      = ({ os with data := os.data ++ (t.slots.map (fun s => bytes64 (t.get s))).flatten },
          .ok os.tellp) ∧
    os.tellp = (os.data.length : Int) ∧
    (t.writeTo os).1.data.length = os.data.length + 8 * t.slots.length ∧
    ((∀ x ∈ t.flat, -(2 : Int) ^ 63 ≤ x ∧ x < (2 : Int) ^ 63) →
      decode64s t.slots.length ((t.writeTo os).1.data.drop os.data.length)
        = t.slots.map t.get) := by
  have hcan : os.canTell = true := by
    by_contra hc
    apply h
    simp [OStream.tellp, hc]
  have hp : os.tellp = (os.data.length : Int) := by simp [OStream.tellp, hcan]
  have hw := writeTo_eq t os hcan
  have hbytes : t.flat.flatMap (fun v => encodeLE 8 (toUnsigned 64 v))
      = (t.slots.map (fun s => bytes64 (t.get s))).flatten := by
    rw [flat_eq_map_get, List.flatMap_def, List.map_map]
    rfl
  rw [hbytes] at hw
  have hlen : ∀ L : List Int, ((L.map bytes64).flatten).length = 8 * L.length := by
    intro L
    induction L with
    | nil => rfl
    | cons v vs ih =>
      simp only [List.map_cons, List.flatten_cons, List.length_append, ih, List.length_cons,
        bytes64, length_encodeLE]
      omega
  have hdec : ∀ L : List Int, (∀ x ∈ L, -(2 : Int) ^ 63 ≤ x ∧ x < (2 : Int) ^ 63) →
      ∀ rest : List Nat, decode64s L.length ((L.map bytes64).flatten ++ rest) = L := by
    intro L
    induction L with
    | nil => intro _ rest; rfl
    | cons v vs ih =>
      intro hr rest
      have hl : (bytes64 v).length = 8 := length_encodeLE 8 _
      simp only [List.map_cons, List.flatten_cons, List.length_cons, decode64s,
        List.append_assoc]
      rw [List.take_left' hl, List.drop_left' hl,
        ih (fun x hx => hr x (List.mem_cons_of_mem _ hx)) rest]
      have := roundtrip64 v (hr v (List.mem_cons_self _ _)).1 (hr v (List.mem_cons_self _ _)).2
      unfold bytes64
      rw [this]
  refine ⟨by rw [hw, hp], hp, ?_, ?_⟩
  · rw [hw]
    simp only [List.length_append]
    have := hlen (t.slots.map t.get)
    rw [List.map_map] at this
    rw [show (fun s => bytes64 (t.get s)) = bytes64 ∘ t.get from rfl, this, List.length_map]
  · intro hr
    rw [hw]
    simp only [List.drop_left]
    have := hdec (t.slots.map t.get) (by rw [← flat_eq_map_get]; exact hr) []
    rw [List.map_map, List.length_map, List.append_nil] at this
    exact this

/-- C15 at the one-level table with offsets 100, 50, 200. -/
theorem writeTo_layout_witness :
    sampleOut.tellp ≠ -1 ∧
    sampleOne.writeTo sampleOut
      = ({ sampleOut with
            data := sampleOut.data
              ++ (sampleOne.slots.map (fun s => bytes64 (sampleOne.get s))).flatten },
          .ok sampleOut.tellp) ∧
    (sampleOne.writeTo sampleOut).1.data.length
      = sampleOut.data.length + 8 * sampleOne.slots.length :=
  ⟨by decide, (writeTo_layout sampleOne sampleOut (by decide)).1,
    (writeTo_layout sampleOne sampleOut (by decide)).2.2.1⟩


/-! ## C16: `writeTo` when the position is unavailable -/

/-- C16. When `tellp` returns `-1`, `writeTo` throws the errno exception and
the stream holds what it held: nothing was written.  When `tellp` returns any
other position, `writeTo` returns that position and does not throw. -/
theorem writeTo_position_unavailable (t : TileOffsets) (os : OStream) :
    (os.tellp = -1 → t.writeTo os = (os, .error .ErrnoExc)) ∧
    (os.tellp ≠ -1 → (t.writeTo os).2 = .ok os.tellp ∧ (t.writeTo os).2 ≠ .error .ErrnoExc) := by
  constructor
  · intro h
    simp [TileOffsets.writeTo, h]
  · intro h
    simp [TileOffsets.writeTo, h]

/-- C16 at an output stream that cannot report its position. -/
theorem writeTo_position_unavailable_witness :
    sampleMute.tellp = -1 ∧ sampleOne.writeTo sampleMute = (sampleMute, .error .ErrnoExc) :=
  ⟨rfl, (writeTo_position_unavailable sampleOne sampleMute).1 rfl⟩


/-! ## C17: scanning with `skipOnly` -/

/-- C17. A scan with `skipOnly` set returns the table as it was, so every
offset is unchanged, for every table, every stream and whatever coordinates
the headers carry.  On a stream that holds one well-formed chunk per slot it
returns normally with the stream behind the last of these chunks: a header
that `isValidTile` would reject does not stop it. -/
theorem findTiles_skipOnly (t : TileOffsets) (is : IStream) (isMultiPartFile isDeep : Bool) :
    (t.findTiles is isMultiPartFile isDeep true).1 = t ∧
    (∀ s : Slot, (t.findTiles is isMultiPartFile isDeep true).1.get s = t.get s) ∧
    (∀ (chunks : List Chunk) (rest : List Nat),
      chunks.length = t.slots.length →
      (∀ c ∈ chunks, c.wellFormed isDeep) →
      is.data.drop is.pos = chunks.flatMap (fun c => c.encode isMultiPartFile isDeep) ++ rest →
      t.findTiles is isMultiPartFile isDeep true
        = (t, { is with pos := is.pos
              + (chunks.flatMap (fun c => c.encode isMultiPartFile isDeep)).length },
            .returned)) := by
  have h1 := findTilesLoop_skip_table isMultiPartFile isDeep t.totalSize t is
  refine ⟨h1, ?_, ?_⟩
  · intro s
    show (findTilesLoop isMultiPartFile isDeep true t.totalSize t is).1.get s = t.get s
    rw [h1]
  · intro chunks rest hlen hwf hdata
    unfold TileOffsets.findTiles
    rw [← length_slots, ← hlen]
    have := findTilesLoop_skip_chunks isMultiPartFile isDeep chunks 0 t is rest hwf hdata
    rw [Nat.add_zero] at this
    rw [this]
    rfl

/-- C17 at the fresh three-tile table and three chunks of which the second
has a column that the table does not have. -/
theorem findTiles_skipOnly_witness :
    [sampleChunkA, sampleChunkBad, sampleChunkC].length = sampleFresh.slots.length ∧
    sampleFresh.isValidTile sampleChunkBad.tileX sampleChunkBad.tileY sampleChunkBad.levelX
      sampleChunkBad.levelY = false ∧
    sampleFresh.findTiles sampleSkipStream false false true
      = (sampleFresh,
          { sampleSkipStream with pos := sampleSkipStream.pos
            + ([sampleChunkA, sampleChunkBad, sampleChunkC].flatMap
                (fun c => c.encode false false)).length },
          .returned) :=
  ⟨by decide, rfl,
    (findTiles_skipOnly sampleFresh sampleSkipStream false false).2.2
      [sampleChunkA, sampleChunkBad, sampleChunkC] [] (by decide)
      (by
        intro c hc
        simp only [List.mem_cons, List.mem_singleton, List.not_mem_nil, or_false] at hc
        rcases hc with rfl | rfl | rfl <;>
          simp [Chunk.wellFormed, fits32, sampleChunkA, sampleChunkBad, sampleChunkC])
      (by simp only [List.append_nil]; rfl)⟩


/-! ## C18: the shape of the grid is invariant -/

/-- C18. The number of level grids, of rows of each grid and of columns of
each row is the same after every operation that can store into the table:
the stream `readFrom` and the list `readFrom`, whether they return or throw,
`findTiles`, `reconstructFromFile`, and a store through `operator ()` at
coordinates that `isValidTile` accepts.  `writeTo` and `getTileOrder` are
`const` members: they take the table and return a stream and arrays only. -/
theorem shape_invariant (t : TileOffsets) :
    (∀ (is : IStream) (complete mp deep : Bool),
      (t.readFrom is complete mp deep).table.shape = t.shape) ∧
    (∀ (chunkOffsets : List Int) (complete : Bool),
      (t.readFromList chunkOffsets complete).1.shape = t.shape) ∧
    (∀ (is : IStream) (mp deep skipOnly : Bool),
      (t.findTiles is mp deep skipOnly).1.shape = t.shape) ∧
    (∀ (is : IStream) (mp deep : Bool),
      (t.reconstructFromFile is mp deep).1.shape = t.shape) ∧
    (∀ (dx dy lx ly v : Int), t.isValidTile dx dy lx ly = true →
      ∃ s, t.slotAt dx dy lx ly = some s ∧ (t.set s v).shape = t.shape) := by
  refine ⟨fun is c mp deep => readFrom_shape t is c mp deep,
    fun co c => readFromList_shape t co c,
    fun is mp deep so => (findTilesLoop_frame mp deep so _ _ _).2.2.2, ?_, ?_⟩
  · intro is mp deep
    rw [reconstructFromFile_eq]
    exact (findTilesLoop_frame mp deep false _ _ _).2.2.2
  · intro dx dy lx ly v hv
    obtain ⟨-, -, -, -, -, s, hs⟩ := (isValidTile_iff t dx dy lx ly).mp hv
    exact ⟨s, hs, shape_set t s v⟩

/-- C18 at the fresh three-tile table: a store at the accepted tile
`(2, 0, 0, 0)` keeps the shape. -/
theorem shape_invariant_witness :
    sampleFresh.isValidTile 2 0 0 0 = true ∧
    ∃ s, sampleFresh.slotAt 2 0 0 0 = some s ∧ (sampleFresh.set s 7).shape = sampleFresh.shape :=
  ⟨rfl, (shape_invariant sampleFresh).2.2.2.2 2 0 0 0 7 rfl⟩


/-! ## C19: reconstruction followed by `getTileOrder` gives the order in the file -/

/-- C19. Let `t` be freshly constructed with at least one x-level and `T`
slots, and let the stream hold, from its position, exactly one well-formed
chunk per slot, the headers accepted by `isValidTile`, with pairwise distinct
coordinate tuples, and with `levelX = levelY` in `MIPMAP_LEVELS` mode (in
`ONE_LEVEL` mode acceptance makes both levels 0).  Then
`reconstructFromFile` returns normally, and `getTileOrder` on the table it
leaves, with output arrays of at least `T` entries, emits as its first `T`
tuples the coordinates `(tileX, tileY, levelX, levelY)` of the chunks in the
order in which the chunks stand in the stream.  When the position at which
the scan starts is positive, the table is complete. -/
theorem reconstruct_then_order (mode : LevelMode) (nx ny : Int) (xt yt : Nat → Int)
    (t : TileOffsets) (ht : TileOffsets.new mode nx ny xt yt = .ok t) (hnx : 1 ≤ nx)
    (is : IStream) (isMultiPart isDeep : Bool) (chunks : List Chunk) (rest : List Nat)
    (out : TileOrder)
    (hlen : chunks.length = t.slots.length)
    (hwf : ∀ c ∈ chunks, c.wellFormed isDeep)
    (hvalid : ∀ c ∈ chunks, t.isValidTile c.tileX c.tileY c.levelX c.levelY = true)
    (hmip : mode = .MIPMAP_LEVELS → ∀ c ∈ chunks, c.levelX = c.levelY)
    (hnodup : (chunks.map Chunk.coords).Nodup)
    (hdata : is.data.drop is.pos
      = chunks.flatMap (fun c => c.encode isMultiPart isDeep) ++ rest)
    (hdx : t.slots.length ≤ out.dx_table.length) (hdy : t.slots.length ≤ out.dy_table.length)
    (hlx : t.slots.length ≤ out.lx_table.length) (hly : t.slots.length ≤ out.ly_table.length) :
    ∃ (t' : TileOffsets) (res : TileOrder),
      t.reconstructFromFile is isMultiPart isDeep
        = (t', { data := is.data, pos := is.pos, failed := false }, .returned) ∧
      t'.getTileOrder out = (res, .returned) ∧
      res.tuples t.slots.length = chunks.map Chunk.coords ∧
      (0 < is.pos → t'.anyOffsetsAreInvalid = false) := by
  obtain ⟨hm, hx, -, hmode⟩ := new_fields mode nx ny xt yt t ht
  -- the slots that the chunks address
  have hall : ∀ c ∈ chunks, ∃ s, c.slot t = some s := by
    intro c hc
    obtain ⟨-, -, -, -, -, s, hs⟩ := (isValidTile_iff t _ _ _ _).mp (hvalid c hc)
    exact ⟨s, hs⟩
  obtain ⟨sk, hsk⟩ := exists_map_some (fun c : Chunk => c.slot t) chunks hall
  have hslotnd : (chunks.map (fun c => c.slot t)).Nodup := by
    have hinj : ∀ x ∈ chunks.map Chunk.coords, ∀ y ∈ chunks.map Chunk.coords,
        t.slotAt x.1 x.2.1 x.2.2.1 x.2.2.2 = t.slotAt y.1 y.2.1 y.2.2.1 y.2.2.2 → x = y := by
      intro x hx' y hy' hxy
      obtain ⟨c, hc, rfl⟩ := List.mem_map.mp hx'
      obtain ⟨c', hc', rfl⟩ := List.mem_map.mp hy'
      obtain ⟨s, hs⟩ := hall c hc
      have hs1 : t.slotAt c.tileX c.tileY c.levelX c.levelY = some s := hs
      have hs2 : t.slotAt c'.tileX c'.tileY c'.levelX c'.levelY = some s := by
        have : t.slotAt c.tileX c.tileY c.levelX c.levelY
            = t.slotAt c'.tileX c'.tileY c'.levelX c'.levelY := hxy
        rw [← this]; exact hs1
      obtain ⟨e1, e2, e3, e4⟩ := tuple_eq_of_slotAt t _ _ _ _ _ _ _ _ s (hvalid c hc) hs1
        (hvalid c' hc') hs2
      have e5 : c.levelY = c'.levelY := by
        by_cases hmm : t._mode = .MIPMAP_LEVELS
        · have hmm' : mode = .MIPMAP_LEVELS := by rw [← hm]; exact hmm
          rw [← hmip hmm' c hc, ← hmip hmm' c' hc', e3]
        · exact e4 hmm
      simp only [Chunk.coords, e1, e2, e3, e5]
    have := List.Nodup.map_on hinj hnodup
    rw [List.map_map] at this
    exact this
  have hsknd : sk.Nodup := by
    rw [hsk] at hslotnd
    exact List.Nodup.of_map _ hslotnd
  have hsklen : sk.length = t.slots.length := by
    have := congrArg List.length hsk
    simp only [List.length_map] at this
    omega
  have hsksub : sk ⊆ t.slots := by
    intro s hs
    have hmem : some s ∈ chunks.map (fun c => c.slot t) := by
      rw [hsk]; exact List.mem_map_of_mem _ hs
    obtain ⟨c, -, hc⟩ := List.mem_map.mp hmem
    exact slotAt_mem t _ _ _ _ s hc
  have hperm : sk.Perm t.slots :=
    (List.subperm_of_subset hsknd hsksub).perm_of_length_le (by omega)
  -- the table after the scan
  obtain ⟨f1, f2, f3, f4⟩ := storeChunks_frame isMultiPart isDeep chunks t is.pos
  have hslots : (storeChunks isMultiPart isDeep t is.pos chunks).slots = t.slots :=
    slots_eq_of_shape _ _ f4
  have hstarts := storeChunks_starts isMultiPart isDeep chunks t is.pos sk hsk hsknd
  have hscan : (t.findTiles is isMultiPart isDeep false).1
      = storeChunks isMultiPart isDeep t is.pos chunks := by
    unfold TileOffsets.findTiles
    rw [← length_slots, ← hlen]
    have := findTilesLoop_chunks isMultiPart isDeep chunks 0 t is rest
      (fun c hc => ⟨hwf c hc, hvalid c hc⟩) hdata
    rw [Nat.add_zero] at this
    rw [this]
    rfl
  -- the sorted table is the table of the chunks in stream order
  have hfile : (sk.map (storeChunks isMultiPart isDeep t is.pos chunks).entry).map
      (fun p => p.filePos)
        = (chunkStarts isMultiPart isDeep is.pos chunks).map (fun p : Nat => (p : Int)) := by
    rw [List.map_map, ← hstarts]
    rfl
  have hsortedL : ((sk.map (storeChunks isMultiPart isDeep t is.pos chunks).entry).map
      (fun p => p.filePos)).Sorted (· < ·) := by
    rw [hfile]
    have := chunkStarts_sorted isMultiPart isDeep chunks is.pos
    unfold List.Sorted at this ⊢
    rw [List.pairwise_map]
    exact this.imp (fun h => Int.ofNat_lt.mpr h)
  have hpermS : (sortTable (storeChunks isMultiPart isDeep t is.pos chunks).tileTable).Perm
      (sk.map (storeChunks isMultiPart isDeep t is.pos chunks).entry) := by
    refine (sortTable_perm _).trans ?_
    rw [tileTable_eq, hslots]
    exact (hperm.map _).symm
  have hsortedS : ((sortTable (storeChunks isMultiPart isDeep t is.pos chunks).tileTable).map
      (fun p => p.filePos)).Sorted (· < ·) := by
    apply List.Sorted.lt_of_le (sortTable_sorted _)
    exact ((hpermS.map _).nodup_iff).mpr hsortedL.nodup
  have heq : sortTable (storeChunks isMultiPart isDeep t is.pos chunks).tileTable
      = sk.map (storeChunks isMultiPart isDeep t is.pos chunks).entry := by
    haveI : IsAntisymm tilepos (fun a b => a.filePos < b.filePos) :=
      ⟨fun a b h1 h2 => absurd h1 (not_lt_of_lt h2)⟩
    have hS : (sortTable (storeChunks isMultiPart isDeep t is.pos chunks).tileTable).Sorted
        (fun a b => a.filePos < b.filePos) := by
      unfold List.Sorted at hsortedS ⊢
      rw [List.pairwise_map] at hsortedS
      exact hsortedS
    have hL : (sk.map (storeChunks isMultiPart isDeep t is.pos chunks).entry).Sorted
        (fun a b => a.filePos < b.filePos) := by
      unfold List.Sorted at hsortedL ⊢
      rw [List.pairwise_map] at hsortedL
      exact hsortedL
    exact List.eq_of_perm_of_sorted hpermS hS hL
  -- the emitted tuples
  have horder := getTileOrder_eq (storeChunks isMultiPart isDeep t is.pos chunks) out
    (by rw [f1, hm]; exact hmode) (fun _ => by rw [f2, hx]; exact hnx)
    (by rw [hslots]; exact hdx) (by rw [hslots]; exact hdy) (by rw [hslots]; exact hlx)
    (by rw [hslots]; exact hly)
  have hSlen : (sortTable (storeChunks isMultiPart isDeep t is.pos chunks).tileTable).length
      = t.slots.length := by
    rw [heq, List.length_map, hsklen]
  refine ⟨storeChunks isMultiPart isDeep t is.pos chunks, _, ?_, horder, ?_, ?_⟩
  · rw [reconstructFromFile_eq, hscan]
  · rw [← hSlen, tuples_of_maps, heq, List.map_map]
    exact map_emitted_eq_coords t _ f1 f2 chunks sk hsk
      (fun c hc => ⟨hvalid c hc, fun hmm => hmip (by rw [← hm]; exact hmm) c hc⟩)
  · intro hpos
    rw [anyOffsetsAreInvalid_eq_false_iff, flat_eq_map_get, hslots]
    intro x hx'
    obtain ⟨s, hs, rfl⟩ := List.mem_map.mp hx'
    have hs' : s ∈ sk := hperm.mem_iff.mpr hs
    have hmem : (storeChunks isMultiPart isDeep t is.pos chunks).get s
        ∈ (chunkStarts isMultiPart isDeep is.pos chunks).map (fun p : Nat => (p : Int)) := by
      rw [← hstarts]; exact List.mem_map_of_mem _ hs'
    obtain ⟨p, hp, hpe⟩ := List.mem_map.mp hmem
    have := chunkStarts_ge isMultiPart isDeep chunks is.pos p hp
    rw [← hpe]
    omega

/-- C19 at the fresh three-tile table and a stream that holds, from byte 2,
the chunks of the tiles 2, 0 and 1 in this order. -/
theorem reconstruct_then_order_witness :
    TileOffsets.new .ONE_LEVEL 1 1 (fun _ => 3) (fun _ => 1) = .ok sampleFresh ∧
    [sampleChunkA, sampleChunkB, sampleChunkC].length = sampleFresh.slots.length ∧
    ([sampleChunkA, sampleChunkB, sampleChunkC].map Chunk.coords).Nodup ∧
    0 < sampleFullStream.pos ∧
    ∃ (t' : TileOffsets) (res : TileOrder),
      sampleFresh.reconstructFromFile sampleFullStream false false
        = (t', { data := sampleFullStream.data, pos := sampleFullStream.pos, failed := false },
            .returned) ∧
      t'.getTileOrder (zeroOrder 3) = (res, .returned) ∧
      res.tuples sampleFresh.slots.length
        = [sampleChunkA, sampleChunkB, sampleChunkC].map Chunk.coords ∧
      (0 < sampleFullStream.pos → t'.anyOffsetsAreInvalid = false) :=
  ⟨rfl, by decide, by decide, by decide,
    reconstruct_then_order .ONE_LEVEL 1 1 (fun _ => 3) (fun _ => 1) sampleFresh rfl (by decide)
      sampleFullStream false false [sampleChunkA, sampleChunkB, sampleChunkC] [] (zeroOrder 3)
      (by decide)
      (by
        intro c hc
        simp only [List.mem_cons, List.mem_singleton, List.not_mem_nil, or_false] at hc
        rcases hc with rfl | rfl | rfl <;>
          simp [Chunk.wellFormed, fits32, sampleChunkA, sampleChunkB, sampleChunkC])
      (by
        intro c hc
        simp only [List.mem_cons, List.mem_singleton, List.not_mem_nil, or_false] at hc
        rcases hc with rfl | rfl | rfl <;> rfl)
      (by intro h; cases h)
      (by decide)
      (by simp only [List.append_nil]; rfl)
      (by decide) (by decide) (by decide) (by decide)⟩


/-! ## C20: `isValidTile` guards every index of `operator ()` -/

/-- C20. For every table, of whatever shape, and every tuple that
`isValidTile` accepts, the mode is a recognised one and the level, row and
column indices that `operator ()` applies to the nested vectors are all
non-negative and below the size of the vector they index.  So no iteration of
the scanner, whose store comes after the test, indexes outside the table, for
any stream content and any flags. -/
theorem isValidTile_guards (t : TileOffsets) :
    (∀ dx dy lx ly : Int, t.isValidTile dx dy lx ly = true →
      t._mode ≠ .NUM_LEVELMODES ∧
      ∃ l r c : Int, t.address dx dy lx ly = .ok (l, r, c) ∧
        0 ≤ l ∧ l < (t._offsets.length : Int) ∧
        0 ≤ r ∧ r < ((t.level l).length : Int) ∧
        0 ≤ c ∧ c < ((t.row l r).length : Int) ∧
        t.slotOf (l, r, c) = some (l.toNat, r.toNat, c.toNat)) ∧
    (∀ (is : IStream) (mp deep skipOnly : Bool),
      (findTilesBody t is mp deep skipOnly).2.2 ≠ .undefined ∧
      (t.findTiles is mp deep skipOnly).2.2 ≠ .undefined) := by
  constructor
  · intro dx dy lx ly hv
    obtain ⟨-, -, -, -, hmode, s, hs⟩ := (isValidTile_iff t dx dy lx ly).mp hv
    constructor
    · intro hm
      rw [hm] at hmode
      simp at hmode
    · unfold TileOffsets.slotAt at hs
      cases ha : t.address dx dy lx ly with
      | error e => simp [ha] at hs
      | ok i =>
        obtain ⟨l, r, c⟩ := i
        simp only [ha] at hs
        refine ⟨l, r, c, rfl, ?_⟩
        unfold TileOffsets.slotOf at hs ⊢
        simp only at hs ⊢
        split at hs
        · rename_i hc
          obtain ⟨h1, h2, h3, h4, h5, h6⟩ := hc
          exact ⟨h1, h4, h2, h5, h3, h6, if_pos ⟨h1, h2, h3, h4, h5, h6⟩⟩
        · simp at hs
  · intro is mp deep so
    exact ⟨(findTilesBody_safe t is mp deep so).2, (findTilesLoop_safe mp deep so _ t is).2⟩

/-- C20 at the table without tiles, where nothing is accepted, and at the
three by three ripmap table, where `(0, 0, 1, 2)` is accepted and indexes
level 7. -/
theorem isValidTile_guards_witness :
    sampleNoTiles.isValidTile 0 0 0 0 = false ∧
    sampleRip9.isValidTile 0 0 1 2 = true ∧
    ∃ l r c : Int, sampleRip9.address 0 0 1 2 = .ok (l, r, c) ∧
      0 ≤ l ∧ l < (sampleRip9._offsets.length : Int) ∧
      0 ≤ r ∧ r < ((sampleRip9.level l).length : Int) ∧
      0 ≤ c ∧ c < ((sampleRip9.row l r).length : Int) ∧
      sampleRip9.slotOf (l, r, c) = some (l.toNat, r.toNat, c.toNat) :=
  ⟨rfl, rfl, ((isValidTile_guards sampleRip9).1 0 0 1 2 rfl).2⟩

end Imf
